import Mathlib

/-!
Incentives distribution keeper of osmosis: a shallow embedding.

The definitions follow `x/incentives/keeper/distribute.go` and
`x/lockup/types/lock.go`.  A panic of the Go code is the value
`Failure.panic`, a returned `error` is `Failure.error`.  The `uint64` fields of
a gauge are natural numbers below `2 ^ 64` and their arithmetic is reduced
modulo `2 ^ 64`; `sdk.Int` is an integer of arbitrary precision, as the
specification requires, and `SumLocksByDenom` adds with `sdk.Int.Add`, which
panics on a sum of more than 256 bits.  Store writes, bank calls, events and
hook calls are recorded in an effect log.
-/

namespace Osmosis

/-- How a Go call can fail: by panicking or by returning an `error`. -/
inductive Failure where
  | panic (msg : String)
  | error (msg : String)
deriving DecidableEq, Repr

deriving instance DecidableEq for Except

/-- The type `sdk.AccAddress`: the decoded bytes of an account address. -/
abbrev AccAddress := List Nat

/-- The type `sdk.Coin`: stored amounts are non-negative by construction. -/
structure Coin where
  Denom : String
  Amount : Nat
deriving DecidableEq, Repr

/-- The type `sdk.Coins`. -/
abbrev Coins := List Coin

/-- Byte order on denoms (`strings.Compare`), on the characters of the string. -/
def denomLE (a b : String) : Prop := a.data ≤ b.data

instance : DecidableRel denomLE := fun a b => inferInstanceAs (Decidable (a.data ≤ b.data))

namespace Coins

/-- Modelled from the spec: `sdk.Coins.AmountOfNoDenomValidation` of cosmos-sdk, the
`amount_of` of a CoinSet: the amount held of `denom`, zero when absent. -/
def AmountOfNoDenomValidation (coins : Coins) (denom : String) : Nat :=
  ((coins.filter (fun c => c.Denom = denom)).map Coin.Amount).sum

/-- The denoms of a coin list, each once, ascending. -/
def sortedDenoms (coins : Coins) : List String :=
  (coins.map Coin.Denom).dedup.insertionSort denomLE

/-- The coin set with amount `f d` for each `d` of `ds`, zero amounts left out. -/
def ofDenoms (ds : List String) (f : String → Nat) : Coins :=
  ds.filterMap (fun d => if f d = 0 then none else some ⟨d, f d⟩)

/-- Modelled from the spec: `sdk.Coins.Add` of cosmos-sdk, the elementwise `add` of
CoinSets; the result is sorted by denom, has one entry per denom and no zero amount. -/
def Add (coins coinsB : Coins) : Coins :=
  ofDenoms (sortedDenoms (coins ++ coinsB)) (AmountOfNoDenomValidation (coins ++ coinsB))

/-- Elementwise order of coin sets. -/
def le (a b : Coins) : Prop :=
  ∀ denom, a.AmountOfNoDenomValidation denom ≤ b.AmountOfNoDenomValidation denom

/-- Modelled from the spec: `sdk.Coins.Sub` of cosmos-sdk, the elementwise `sub` of
CoinSets; subtracting a larger amount is a domain error (the Go code panics). -/
def Sub (coins coinsB : Coins) : Except Failure Coins :=
  if coinsB.all (fun c => coinsB.AmountOfNoDenomValidation c.Denom
      ≤ coins.AmountOfNoDenomValidation c.Denom) then
    .ok (ofDenoms (sortedDenoms coins)
      (fun d => coins.AmountOfNoDenomValidation d - coinsB.AmountOfNoDenomValidation d))
  else .error (.panic "negative coin amount")

/-- Modelled from the spec: `sdk.Coins.Sort` of cosmos-sdk: sorts by denom. -/
def SortByDenom (coins : Coins) : Coins :=
  coins.insertionSort (fun a b => denomLE a.Denom b.Denom)

/-- Modelled from the spec: `sdk.Coins.Empty` of cosmos-sdk: no entry at all. -/
def Empty (coins : Coins) : Bool := coins.isEmpty

end Coins

/-- The function `sdk.ValidateDenom` of cosmos-sdk: a denom is a letter followed by
2 to 127 letters, digits, slashes or hyphens. -/
def ValidateDenom (denom : String) : Bool :=
  match denom.data with
  | [] => false
  | c :: cs => c.isAlpha && decide (2 ≤ cs.length) && decide (cs.length ≤ 127)
      && cs.all (fun x => x.isAlphanum || x == '/' || x == '-')

/-- The constant `maxBitLen` of `sdk.Int`: the largest bit length of a value. -/
def maxBitLen : Nat := 256

/-- The method `sdk.Int.Add` on non-negative values: it panics when the sum has more than
`maxBitLen` bits. -/
def IntAdd (i i2 : Nat) : Except Failure Nat :=
  if i + i2 < 2 ^ maxBitLen then .ok (i + i2) else .error (.panic "Int overflow")

/-- The method `sdk.Int.Quo`: truncated division, panics on a zero divisor. -/
def Quo (i i2 : Int) : Except Failure Int :=
  if i2 = 0 then .error (.panic "Division by zero") else .ok (i.tdiv i2)

/-- The Go conversion `int64(x)` of a `uint64`. -/
def toInt64 (x : Nat) : Int :=
  if x % 2 ^ 64 < 2 ^ 63 then ((x % 2 ^ 64 : Nat) : Int) else ((x % 2 ^ 64 : Nat) : Int) - 2 ^ 64

/-! ## x/lockup/types -/

/-- The type `lockuptypes.PeriodLock`. -/
structure PeriodLock where
  ID : Nat
  Owner : String
  Duration : Int
  EndTime : Int
  Coins : List Coin
deriving DecidableEq, Repr

/-- The type `lockuptypes.LockQueryType`, a protobuf enum. -/
abbrev LockQueryType := Int

/-- Query by lock duration. -/
def ByDuration : LockQueryType := 0

/-- Query by lock end time. -/
def ByTime : LockQueryType := 1

/-- The type `lockuptypes.QueryCondition`. -/
structure QueryCondition where
  LockQueryType : Int
  Denom : String
  Duration : Int
  Timestamp : Int
deriving DecidableEq, Repr

/-- The function `strings.Contains` on the characters of a string. -/
def stringsContains : List Char → List Char → Bool
  | [], substr => substr.isEmpty
  | c :: cs, substr => substr.isPrefixOf (c :: cs) || stringsContains cs substr

/-- The loop of `strings.Split` for a non-empty separator: `skip` characters of a
separator just matched are still to be dropped, `cur` is the current piece, reversed. -/
def stringsSplitGo (sep : List Char) : List Char → Nat → List Char → List (List Char)
  | [], _, cur => [cur.reverse]
  | _ :: cs, skip + 1, cur => stringsSplitGo sep cs skip cur
  | c :: cs, 0, cur =>
    if sep.isPrefixOf (c :: cs) then cur.reverse :: stringsSplitGo sep cs (sep.length - 1) []
    else stringsSplitGo sep cs 0 (c :: cur)

/-- The function `strings.Split` for a non-empty separator. -/
def stringsSplit (s sep : List Char) : List (List Char) := stringsSplitGo sep s 0 []

/-- The function `NativeDenom` of lock.go. -/
def NativeDenom (denom : String) : String :=
  if stringsContains denom.data "superbonding".data then
    String.mk ((stringsSplit denom.data "superbonding".data).headD [])
  else if stringsContains denom.data "superunbonding".data then
    String.mk ((stringsSplit denom.data "superunbonding".data).headD [])
  else denom

/-- The loop of `SumLocksByDenom` over the locks: `sum = sum.Add(...)` for each lock. -/
def sumLocksLoop (denom : String) : List PeriodLock → Nat → Except Failure Nat
  | [], sum => .ok sum
  | lock :: rest, sum =>
    match IntAdd sum (Coins.AmountOfNoDenomValidation lock.Coins denom) with
    | .error e => .error e
    | .ok sum1 => sumLocksLoop denom rest sum1

/-- The function `SumLocksByDenom` of lock.go. -/
def SumLocksByDenom (locks : List PeriodLock) (denom : String) : Except Failure Nat :=
  if ValidateDenom denom then sumLocksLoop denom locks 0
  else .error (.panic "invalid denom used internally")

/-! ## x/incentives -/

/-- The type `types.Gauge`; `Id`, `NumEpochsPaidOver` and `FilledEpochs` are `uint64`. -/
structure Gauge where
  Id : Nat
  IsPerpetual : Bool
  DistributeTo : QueryCondition
  Coins : List Coin
  StartTime : Int
  NumEpochsPaidOver : Nat
  FilledEpochs : Nat
  DistributedCoins : List Coin
deriving DecidableEq, Repr

/-- What the keeper does to the outside: store writes, bank calls, events, hooks. -/
inductive Effect where
  | setGauge (gauge : Gauge)
  | SendCoinsFromModuleToManyAccounts (addrs : List AccAddress) (coins : List Coins)
  | distributionEvent (receiver : String) (amount : Coins)
  | AfterEpochDistribution
deriving DecidableEq, Repr

/-- The collaborators of the keeper that are outside this repository's sources: the
lock keeper `k.lk`, the bank keeper `k.bk` and the address decoder of the sdk. -/
structure Keeper where
  GetLocksLongerThanDurationDenom : String → Int → List PeriodLock
  GetLocksPastTimeDenom : String → Int → List PeriodLock
  GetPeriodLocksAccumulation : QueryCondition → Int
  SendCoinsFromModuleToManyAccounts : List AccAddress → List Coins → Option String
  AccAddressFromBech32 : String → Except String AccAddress

/-- Modelled from the spec: `Keeper.setGauge` (gauge.go is not among the sources): it
writes the primary record of the gauge and returns no error. -/
def setGauge (gauge : Gauge) : List Effect × Option String := ([Effect.setGauge gauge], none)

/-- The type `distributionInfo` of distribute.go; the map is an association list. -/
structure distributionInfo where
  nextID : Nat
  lockOwnerAddrToID : List (String × Nat)
  idToBech32Addr : List String
  idToDecodedAddr : List AccAddress
  idToDistrCoins : List Coins
deriving DecidableEq, Repr

/-- The function `newDistributionInfo` of distribute.go. -/
def newDistributionInfo : distributionInfo :=
  { nextID := 0, lockOwnerAddrToID := [], idToBech32Addr := [], idToDecodedAddr := [],
    idToDistrCoins := [] }

/-- The method `distributionInfo.addLockRewards`: the batch after the call (the Go
method mutates it in place, also when it fails) and what the call returns. -/
def distributionInfo.addLockRewards (AccAddressFromBech32 : String → Except String AccAddress)
    (d : distributionInfo) (lock : PeriodLock) (rewards : Coins) :
    distributionInfo × Except Failure Unit :=
  match d.lockOwnerAddrToID.lookup lock.Owner with
  | some id =>
    match d.idToDistrCoins.get? id with
    | none => (d, .error (.panic "index out of range"))
    | some oldDistrCoins =>
      ({ d with idToDistrCoins := d.idToDistrCoins.set id (Coins.Add rewards oldDistrCoins) },
        .ok ())
  | none =>
    let id := d.nextID
    let d1 := { d with nextID := d.nextID + 1,
                       lockOwnerAddrToID := (lock.Owner, id) :: d.lockOwnerAddrToID }
    match AccAddressFromBech32 lock.Owner with
    | .error err => (d1, .error (.error err))
    | .ok decodedOwnerAddr =>
      ({ d1 with idToBech32Addr := d1.idToBech32Addr ++ [lock.Owner],
                 idToDecodedAddr := d1.idToDecodedAddr ++ [decodedOwnerAddr],
                 idToDistrCoins := d1.idToDistrCoins ++ [rewards] }, .ok ())

/-- The `remainEpochs` of `distributeInternal`: 1 for a perpetual gauge, else the
`uint64` difference `NumEpochsPaidOver - FilledEpochs`. -/
def remainEpochs (gauge : Gauge) : Nat :=
  if gauge.IsPerpetual then 1
  else (gauge.NumEpochsPaidOver + 2 ^ 64 - gauge.FilledEpochs) % 2 ^ 64

/-- The inner loop of `distributeInternal` over the remaining coins, for one lock. -/
def distrCoinsLoop (denom : String) (lockSum : Nat) (remainEpochs : Nat) (lock : PeriodLock) :
    List Coin → Coins → Except Failure Coins
  | [], distrCoins => .ok distrCoins
  | coin :: rest, distrCoins =>
    let denomLockAmt := Coins.AmountOfNoDenomValidation lock.Coins denom
    match Quo ((coin.Amount : Int) * (denomLockAmt : Int))
        ((lockSum : Int) * toInt64 remainEpochs) with
    | .error e => .error e
    | .ok amt =>
      if 0 < amt then
        distrCoinsLoop denom lockSum remainEpochs lock rest
          (Coins.Add distrCoins [{ Denom := coin.Denom, Amount := amt.toNat }])
      else distrCoinsLoop denom lockSum remainEpochs lock rest distrCoins

/-- The coins `distributeInternal` computes for one lock: the inner loop, then `Sort`. -/
def lockDistrCoins (remainCoins : Coins) (denom : String) (lockSum : Nat)
    (remainEpochs : Nat) (lock : PeriodLock) : Except Failure Coins :=
  match distrCoinsLoop denom lockSum remainEpochs lock remainCoins [] with
  | .error e => .error e
  | .ok distrCoins => .ok (Coins.SortByDenom distrCoins)

/-- The loop of `distributeInternal` over the locks: the batch after the loop and
either the failure that ended it or the total distributed. -/
def distributeLocksLoop (k : Keeper) (remainCoins : Coins) (denom : String) (lockSum : Nat)
    (remainEpochs : Nat) :
    List PeriodLock → distributionInfo → Coins → distributionInfo × Except Failure Coins
  | [], distrInfo, totalDistrCoins => (distrInfo, .ok totalDistrCoins)
  | lock :: rest, distrInfo, totalDistrCoins =>
    match lockDistrCoins remainCoins denom lockSum remainEpochs lock with
    | .error e => (distrInfo, .error e)
    | .ok distrCoins =>
      if Coins.Empty distrCoins then
        distributeLocksLoop k remainCoins denom lockSum remainEpochs rest distrInfo
          totalDistrCoins
      else
        match distrInfo.addLockRewards k.AccAddressFromBech32 lock distrCoins with
        | (distrInfo1, .error e) => (distrInfo1, .error e)
        | (distrInfo1, .ok _) =>
          distributeLocksLoop k remainCoins denom lockSum remainEpochs rest distrInfo1
            (Coins.Add totalDistrCoins distrCoins)

/-- The result of `distributeInternal`: the batch after the call, the store writes
made, and the returned coins or failure. -/
structure DistributeInternalResult where
  distrInfo : distributionInfo
  effects : List Effect
  ret : Except Failure Coins
deriving DecidableEq, Repr

/-- The method `Keeper.distributeInternal` of distribute.go. -/
def distributeInternal (k : Keeper) (gauge : Gauge) (locks : List PeriodLock)
    (distrInfo : distributionInfo) : DistributeInternalResult :=
  let denom := NativeDenom gauge.DistributeTo.Denom
  match SumLocksByDenom locks denom with
  | .error e => ⟨distrInfo, [], .error e⟩
  | .ok lockSum =>
    if lockSum = 0 then ⟨distrInfo, [], .ok []⟩
    else
      match Coins.Sub gauge.Coins gauge.DistributedCoins with
      | .error e => ⟨distrInfo, [], .error e⟩
      | .ok remainCoins =>
        match distributeLocksLoop k remainCoins denom lockSum (remainEpochs gauge) locks
            distrInfo [] with
        | (distrInfo1, .error e) => ⟨distrInfo1, [], .error e⟩
        | (distrInfo1, .ok totalDistrCoins) =>
          let gauge1 := { gauge with
            FilledEpochs := (gauge.FilledEpochs + 1) % 2 ^ 64,
            DistributedCoins := Coins.Add gauge.DistributedCoins totalDistrCoins }
          match setGauge gauge1 with
          | (effects, some err) => ⟨distrInfo1, effects, .error (.error err)⟩
          | (effects, none) => ⟨distrInfo1, effects, .ok totalDistrCoins⟩


/-- Modelled from the spec: `FilterLocksByMinDuration` (not among the sources): keeps,
in order, the locks with `duration ≥ minDuration`. -/
def FilterLocksByMinDuration (locks : List PeriodLock) (minDuration : Int) : List PeriodLock :=
  locks.filter (fun lock => decide (minDuration ≤ lock.Duration))

/-- The method `Keeper.getLocksToDistributionWithMaxDuration` of distribute.go. -/
def getLocksToDistributionWithMaxDuration (k : Keeper) (distrTo : QueryCondition)
    (minDuration : Int) : Except Failure (List PeriodLock) :=
  if distrTo.LockQueryType = ByDuration then
    if distrTo.Duration > minDuration then
      .ok (k.GetLocksLongerThanDurationDenom distrTo.Denom minDuration)
    else .ok (k.GetLocksLongerThanDurationDenom distrTo.Denom distrTo.Duration)
  else if distrTo.LockQueryType = ByTime then
    .error (.panic "Gauge by time is present!?!? Should have been blocked in ValidateBasic")
  else .ok []

/-- The event loop of `doDistributionSends`, over the ids still to visit. -/
def distributionEvents (distrs : distributionInfo) : List Nat → List Effect × Except Failure Unit
  | [] => ([], .ok ())
  | id :: ids =>
    match distrs.idToBech32Addr.get? id, distrs.idToDistrCoins.get? id with
    | some addr, some coins =>
      ((Effect.distributionEvent addr coins) :: (distributionEvents distrs ids).1,
        (distributionEvents distrs ids).2)
    | _, _ => ([], .error (.panic "index out of range"))

/-- The method `Keeper.doDistributionSends` of distribute.go. -/
def doDistributionSends (k : Keeper) (distrs : distributionInfo) :
    List Effect × Except Failure Unit :=
  let numIDs := distrs.idToDecodedAddr.length
  let send := Effect.SendCoinsFromModuleToManyAccounts distrs.idToDecodedAddr distrs.idToDistrCoins
  match k.SendCoinsFromModuleToManyAccounts distrs.idToDecodedAddr distrs.idToDistrCoins with
  | some err => ([send], .error (.error err))
  | none =>
    (send :: (distributionEvents distrs (List.range numIDs)).1,
      (distributionEvents distrs (List.range numIDs)).2)

/-- The time constant `time.Millisecond`, in nanoseconds. -/
def Millisecond : Int := 1000000

/-- The state the loop of `Distribute` hands on: the batch, the effects so far, and
the failure that ended the loop or the total distributed. -/
structure DistributeLoopResult where
  distrInfo : distributionInfo
  effects : List Effect
  ret : Except Failure Coins
deriving DecidableEq, Repr

/-- The cache step of the loop of `Distribute`: the locks of the gauge's denom, fetched
from the lock keeper when the cache has no entry for the denom, and the cache afterwards. -/
def cachedLocks (k : Keeper) (locksByDenomCache : List (String × List PeriodLock))
    (gauge : Gauge) : Except Failure (List (String × List PeriodLock) × List PeriodLock) :=
  match locksByDenomCache.lookup gauge.DistributeTo.Denom with
  | some allLocks => .ok (locksByDenomCache, allLocks)
  | none =>
    match getLocksToDistributionWithMaxDuration k gauge.DistributeTo Millisecond with
    | .error e => .error e
    | .ok allLocks => .ok ((gauge.DistributeTo.Denom, allLocks) :: locksByDenomCache, allLocks)

/-- The loop of `Distribute` over the gauges, with the per-denom lock cache. -/
def distributeGaugesLoop (k : Keeper) :
    List Gauge → List (String × List PeriodLock) → distributionInfo → Coins →
      DistributeLoopResult
  | [], _, distrInfo, totalDistributedCoins => ⟨distrInfo, [], .ok totalDistributedCoins⟩
  | gauge :: rest, locksByDenomCache, distrInfo, totalDistributedCoins =>
    match cachedLocks k locksByDenomCache gauge with
    | .error e => ⟨distrInfo, [], .error e⟩
    | .ok (locksByDenomCache1, allLocks) =>
      let filteredLocks := FilterLocksByMinDuration allLocks gauge.DistributeTo.Duration
      let r := distributeInternal k gauge filteredLocks distrInfo
      match r.ret with
      | .error e => ⟨r.distrInfo, r.effects, .error e⟩
      | .ok gaugeDistributedCoins =>
        let r1 := distributeGaugesLoop k rest locksByDenomCache1 r.distrInfo
          (Coins.Add totalDistributedCoins gaugeDistributedCoins)
        ⟨r1.distrInfo, r.effects ++ r1.effects, r1.ret⟩

/-- The result of `Distribute`: the effects in order and the returned coins or failure. -/
structure DistributeResult where
  effects : List Effect
  ret : Except Failure Coins
deriving DecidableEq, Repr

/-- The method `Keeper.Distribute` of distribute.go. -/
def Distribute (k : Keeper) (gauges : List Gauge) : DistributeResult :=
  let r := distributeGaugesLoop k gauges [] newDistributionInfo []
  match r.ret with
  | .error e => ⟨r.effects, .error e⟩
  | .ok totalDistributedCoins =>
    match doDistributionSends k r.distrInfo with
    | (effects, .error e) => ⟨r.effects ++ effects, .error e⟩
    | (effects, .ok _) =>
      ⟨r.effects ++ effects ++ [Effect.AfterEpochDistribution], .ok totalDistributedCoins⟩

/-- The constructor `sdk.NewCoin` of cosmos-sdk: it validates the coin and panics on an
invalid denom or a negative amount. -/
def NewCoin (denom : String) (amount : Int) : Except Failure Coin :=
  if ValidateDenom denom then
    if amount < 0 then .error (.panic "negative coin amount")
    else .ok { Denom := denom, Amount := amount.toNat }
  else .error (.panic "invalid denom")

/-- The method `sdk.Coins.AmountOf` of cosmos-sdk: as `AmountOfNoDenomValidation`, after
validating the denom, panicking on an invalid one. -/
def Coins.AmountOf (coins : Coins) (denom : String) : Except Failure Nat :=
  if ValidateDenom denom then .ok (Coins.AmountOfNoDenomValidation coins denom)
  else .error (.panic "invalid denom")

/-- The method `sdk.Int.QuoRaw`: `Quo` by an `int64`. -/
def QuoRaw (i : Int) (i2 : Int) : Except Failure Int := Quo i i2

/-- The zero value `types.Gauge{}`. -/
def emptyGauge : Gauge :=
  { Id := 0, IsPerpetual := false,
    DistributeTo := { LockQueryType := 0, Denom := "", Duration := 0, Timestamp := 0 },
    Coins := [], StartTime := 0, NumEpochsPaidOver := 0, FilledEpochs := 0,
    DistributedCoins := [] }

/-- The first loop of `FilteredLocksDistributionEst`: the remaining coins per epoch. -/
def remainCoinsPerEpochLoop (remainEpochs : Nat) : List Coin → Coins → Except Failure Coins
  | [], remainCoinsPerEpoch => .ok remainCoinsPerEpoch
  | coin :: rest, remainCoinsPerEpoch =>
    match QuoRaw (coin.Amount : Int) (toInt64 remainEpochs) with
    | .error e => .error e
    | .ok amt =>
      match NewCoin coin.Denom amt with
      | .error e => .error e
      | .ok newCoin =>
        remainCoinsPerEpochLoop remainEpochs rest (Coins.Add remainCoinsPerEpoch [newCoin])

/-- The inner loop of `FilteredLocksDistributionEst`, over the coins per epoch, for one
lock holding `denomLockAmt`. -/
def filteredCoinsLoop (denomLockAmt : Nat) (TotalAmtLocked : Int) :
    List Coin → Coins → Except Failure Coins
  | [], filteredDistrCoins => .ok filteredDistrCoins
  | coin :: rest, filteredDistrCoins =>
    match Quo ((coin.Amount : Int) * (denomLockAmt : Int)) TotalAmtLocked with
    | .error e => .error e
    | .ok amt =>
      match NewCoin coin.Denom amt with
      | .error e => .error e
      | .ok newCoin =>
        filteredCoinsLoop denomLockAmt TotalAmtLocked rest
          (Coins.Add filteredDistrCoins [newCoin])

/-- The loop of `FilteredLocksDistributionEst` over the filtered locks. -/
def filteredLocksLoop (denom : String) (TotalAmtLocked : Int) (remainCoinsPerEpoch : Coins) :
    List PeriodLock → Coins → Except Failure Coins
  | [], filteredDistrCoins => .ok filteredDistrCoins
  | lock :: rest, filteredDistrCoins =>
    match Coins.AmountOf lock.Coins denom with
    | .error e => .error e
    | .ok denomLockAmt =>
      match filteredCoinsLoop denomLockAmt TotalAmtLocked remainCoinsPerEpoch
          filteredDistrCoins with
      | .error e => .error e
      | .ok filteredDistrCoins1 =>
        filteredLocksLoop denom TotalAmtLocked remainCoinsPerEpoch rest filteredDistrCoins1

/-- The result of `FilteredLocksDistributionEst`: the store writes made (the Go function
makes none) and the returned gauge and coins, or the panic. -/
structure EstResult where
  effects : List Effect
  ret : Except Failure (Gauge × Coins)
deriving DecidableEq, Repr

/-- The method `Keeper.FilteredLocksDistributionEst` of distribute.go. -/
def FilteredLocksDistributionEst (k : Keeper) (gauge : Gauge) (filteredLocks : List PeriodLock) :
    EstResult :=
  let TotalAmtLocked := k.GetPeriodLocksAccumulation gauge.DistributeTo
  if TotalAmtLocked = 0 then ⟨[], .ok (emptyGauge, [])⟩
  else
    match Coins.Sub gauge.Coins gauge.DistributedCoins with
    | .error e => ⟨[], .error e⟩
    | .ok remainCoins =>
      if remainEpochs gauge = 0 then ⟨[], .ok (gauge, [])⟩
      else
        match remainCoinsPerEpochLoop (remainEpochs gauge) remainCoins [] with
        | .error e => ⟨[], .error e⟩
        | .ok remainCoinsPerEpoch =>
          match filteredLocksLoop gauge.DistributeTo.Denom TotalAmtLocked remainCoinsPerEpoch
              filteredLocks (if filteredLocks.length = 0 then remainCoinsPerEpoch else []) with
          | .error e => ⟨[], .error e⟩
          | .ok filteredDistrCoins =>
            ⟨[], .ok ({ gauge with
                FilledEpochs := (gauge.FilledEpochs + 1) % 2 ^ 64,
                DistributedCoins := Coins.Add gauge.DistributedCoins remainCoinsPerEpoch },
              filteredDistrCoins)⟩

/-- Modelled from the spec: the key of a lifecycle index entry, `Prefix ∥ time_key(start_time)`
(`combineKeys`, `getTimeKey` and the key prefixes are not among the sources), kept as the
index and the start time. -/
inductive IndexKey where
  | UpcomingGauges (timeKey : Int)
  | ActiveGauges (timeKey : Int)
  | FinishedGauges (timeKey : Int)
deriving DecidableEq, Repr

/-- The method `Keeper.BeginDistribution` of distribute.go.  The store has type `σ`;
`deleteGaugeRefByKey` and `addGaugeRefByKey` (not among the sources) are parameters that
return the store after the call and the error, if any.  The error text is the Go format
string without the two formatted times. -/
def BeginDistribution {σ : Type}
    (deleteGaugeRefByKey addGaugeRefByKey : σ → IndexKey → Nat → σ × Option String)
    (blockTime : Int) (store : σ) (gauge : Gauge) : σ × Option String :=
  if blockTime < gauge.StartTime then
    (store, some "gauge is not able to start distribution yet")
  else
    match deleteGaugeRefByKey store (IndexKey.UpcomingGauges gauge.StartTime) gauge.Id with
    | (store1, some err) => (store1, some err)
    | (store1, none) =>
      match addGaugeRefByKey store1 (IndexKey.ActiveGauges gauge.StartTime) gauge.Id with
      | (store2, some err) => (store2, some err)
      | (store2, none) => (store2, none)

/-! ## x/superfluid/types -/

/-- The type `MsgSuperfluidDelegate`; `LockId` is a `uint64`. -/
structure MsgSuperfluidDelegate where
  Sender : String
  LockId : Nat
  ValAddr : String
deriving DecidableEq, Repr

/-- The method `MsgSuperfluidDelegate.ValidateBasic` of msgs.go: the error, if any. -/
def MsgSuperfluidDelegate.ValidateBasic (m : MsgSuperfluidDelegate) : Option String :=
  if m.Sender = "" then some "sender should not be an empty address"
  else if m.LockId = 0 then some "lock id should be positive"
  else if m.ValAddr = "" then some "ValAddr should not be empty"
  else none

/-- The type `MsgSuperfluidUndelegate`; `LockId` is a `uint64`. -/
structure MsgSuperfluidUndelegate where
  Sender : String
  LockId : Nat
deriving DecidableEq, Repr

/-- The method `MsgSuperfluidUndelegate.ValidateBasic` of msgs.go: the error, if any. -/
def MsgSuperfluidUndelegate.ValidateBasic (m : MsgSuperfluidUndelegate) : Option String :=
  if m.Sender = "" then some "sender should not be an empty address"
  else if m.LockId = 0 then some "lock id should be positive"
  else none

/-- The type `MsgSuperfluidRedelegate`; `LockId` is a `uint64`. -/
structure MsgSuperfluidRedelegate where
  Sender : String
  LockId : Nat
  NewValAddr : String
deriving DecidableEq, Repr

/-- The method `MsgSuperfluidRedelegate.ValidateBasic` of msgs.go: the error, if any. -/
def MsgSuperfluidRedelegate.ValidateBasic (m : MsgSuperfluidRedelegate) : Option String :=
  if m.Sender = "" then some "sender should not be an empty address"
  else if m.LockId = 0 then some "lock id should be positive"
  else if m.NewValAddr = "" then some "NewValAddr should not be empty"
  else none

/-- The loop of `Distribute` over the gauges, as `distributeGaugesLoop`, returning next
to its result the calls of `distributeInternal` it made, in order: the gauge and the
filtered locks passed for it. -/
def distributeGaugesLoopTraced (k : Keeper) :
    List Gauge → List (String × List PeriodLock) → distributionInfo → Coins →
      DistributeLoopResult × List (Gauge × List PeriodLock)
  | [], _, distrInfo, totalDistributedCoins => (⟨distrInfo, [], .ok totalDistributedCoins⟩, [])
  | gauge :: rest, locksByDenomCache, distrInfo, totalDistributedCoins =>
    match cachedLocks k locksByDenomCache gauge with
    | .error e => (⟨distrInfo, [], .error e⟩, [])
    | .ok (locksByDenomCache1, allLocks) =>
      let filteredLocks := FilterLocksByMinDuration allLocks gauge.DistributeTo.Duration
      let r := distributeInternal k gauge filteredLocks distrInfo
      match r.ret with
      | .error e => (⟨r.distrInfo, r.effects, .error e⟩, [(gauge, filteredLocks)])
      | .ok gaugeDistributedCoins =>
        let r1 := distributeGaugesLoopTraced k rest locksByDenomCache1 r.distrInfo
          (Coins.Add totalDistributedCoins gaugeDistributedCoins)
        (⟨r1.1.distrInfo, r.effects ++ r1.1.effects, r1.1.ret⟩, (gauge, filteredLocks) :: r1.2)

/-- Every entry of the lock cache holds the locks the lock keeper returns for the denom
and the sentinel duration of one millisecond. -/
def CacheFaithful (k : Keeper) (cache : List (String × List PeriodLock)) : Prop :=
  ∀ denom locks, cache.lookup denom = some locks →
    locks = k.GetLocksLongerThanDurationDenom denom Millisecond

/-! ## Notions used in the statements -/

/-- The amount of one remaining coin granted to one lock, as the inner loop computes
it: the truncated quotient when it is positive, else nothing. -/
def grant (denom : String) (lockSum remainEpochs : Nat) (lock : PeriodLock) (coin : Coin) : Nat :=
  (Int.tdiv ((coin.Amount : Int) * (Coins.AmountOfNoDenomValidation lock.Coins denom : Int))
    ((lockSum : Int) * toInt64 remainEpochs)).toNat

/-- The total amount of `denom` held in a list of coins under a per-coin valuation. -/
def sumFor (g : Coin → Nat) (coins : List Coin) (d : String) : Nat :=
  (coins.map (fun c => if c.Denom = d then g c else 0)).sum

/-- A sequence of `addLockRewards` calls on a batch, stopping at the first failure. -/
def addLockRewardsAll (AccAddressFromBech32 : String → Except String AccAddress) :
    distributionInfo → List (PeriodLock × Coins) → distributionInfo × Except Failure Unit
  | d, [] => (d, .ok ())
  | d, (lock, rewards) :: rest =>
    match d.addLockRewards AccAddressFromBech32 lock rewards with
    | (d1, .error e) => (d1, .error e)
    | (d1, .ok _) => addLockRewardsAll AccAddressFromBech32 d1 rest

/-- The locks paired with their coins, without the locks whose coins are empty. -/
def nonEmptyAllocations (locks : List PeriodLock) (allocs : List Coins) :
    List (PeriodLock × Coins) :=
  (locks.zip allocs).filter (fun p => !Coins.Empty p.2)

/-- The gauge `distributeInternal` persists when it distributed `total`: one more
filled epoch (a `uint64`) and `total` more distributed coins. -/
def advanceGauge (gauge : Gauge) (total : Coins) : Gauge :=
  { gauge with
    FilledEpochs := (gauge.FilledEpochs + 1) % 2 ^ 64,
    DistributedCoins := Coins.Add gauge.DistributedCoins total }

/-- The allocation the distribution formula prescribes to a lock holding `lockAmount`
of the native denom: for every remaining coin the truncated quotient
`coin.amount × lockAmount / (lockSum × remainEpochs)`, zero quotients left out, no other
denom, one entry per denom. -/
def IsAllocation (remain : Coins) (lockAmount lockSum remainEpochs : Nat) (A : Coins) : Prop :=
  (∀ c ∈ remain, Coins.AmountOfNoDenomValidation A c.Denom
      = c.Amount * lockAmount / (lockSum * remainEpochs))
  ∧ (∀ c ∈ A, c.Amount ≠ 0 ∧ c.Denom ∈ remain.map Coin.Denom)
  ∧ (A.map Coin.Denom).Nodup

/-- The gauges written to the store by a run, in order. -/
def persistedGauges (effects : List Effect) : List Gauge :=
  effects.filterMap (fun e => match e with
    | .setGauge g => some g
    | _ => none)

/-- The bank calls of a run: the address list and the coin list of each. -/
def bankCalls (effects : List Effect) : List (List AccAddress × List Coins) :=
  effects.filterMap (fun e => match e with
    | .SendCoinsFromModuleToManyAccounts addrs coins => some (addrs, coins)
    | _ => none)

/-- The amount of `denom` in a list of coin sets. -/
def batchTotal (coins : List Coins) (denom : String) : Nat :=
  (coins.map (fun c => Coins.AmountOfNoDenomValidation c denom)).sum

/-- The owners of a list, each once, in order of first appearance. -/
def distinctOwners : List String → List String
  | [] => []
  | x :: xs => x :: (distinctOwners xs).filter (fun y => y ≠ x)

/-- The amount of `denom` in the rewards that a sequence of calls added for `owner`. -/
def rewardsOf (owner : String) (calls : List (PeriodLock × Coins)) (denom : String) : Nat :=
  ((calls.filter (fun p => p.1.Owner = owner)).map
    (fun p => Coins.AmountOfNoDenomValidation p.2 denom)).sum

/-- The batch invariant of the specification: the three sequences have the length
`nextID`, and the owner table maps `a` to `i` exactly when entry `i` is `a`. -/
def BatchInvariant (d : distributionInfo) : Prop :=
  d.idToBech32Addr.length = d.nextID
  ∧ d.idToDecodedAddr.length = d.nextID
  ∧ d.idToDistrCoins.length = d.nextID
  ∧ ∀ a i, d.lockOwnerAddrToID.lookup a = some i ↔ d.idToBech32Addr.get? i = some a

/-- The batch `d` records the successful calls `calls`: it satisfies the invariant, its
owners are the distinct owners of the calls in order of first appearance, each decoded,
and each entry holds the rewards added for its owner. -/
def Records (AccAddressFromBech32 : String → Except String AccAddress)
    (d : distributionInfo) (calls : List (PeriodLock × Coins)) : Prop :=
  BatchInvariant d
  ∧ d.idToBech32Addr = distinctOwners (calls.map (fun p => p.1.Owner))
  ∧ List.Forall₂ (fun a addr => AccAddressFromBech32 a = .ok addr)
      d.idToBech32Addr d.idToDecodedAddr
  ∧ ∀ i a, d.idToBech32Addr.get? i = some a →
      ∃ coins, d.idToDistrCoins.get? i = some coins
        ∧ ∀ denom, Coins.AmountOfNoDenomValidation coins denom = rewardsOf a calls denom

/-- The list `p` is the prefix of `s` before the first occurrence of `sep`: `sep` occurs
in `s` right after `p`, and nowhere earlier. -/
def IsPrefixBeforeFirst (sep s p : List Char) : Prop :=
  (∃ rest, s = p ++ sep ++ rest) ∧ ∀ p1 rest1, s = p1 ++ sep ++ rest1 → p.length ≤ p1.length

/-- The characters of `s` up to the first position at which `sep` starts, all of `s` when
there is none. -/
def prefixBefore (sep : List Char) : List Char → List Char
  | [] => []
  | c :: cs => if sep.isPrefixOf (c :: cs) then [] else c :: prefixBefore sep cs

/-! ## Concrete scenarios -/

/-- A keeper whose address decoder accepts exactly the owners that start with `osmo1`,
whose bank accepts every transfer and whose lock keeper holds no lock. -/
def exampleKeeper : Keeper :=
  { GetLocksLongerThanDurationDenom := fun _ _ => []
    GetLocksPastTimeDenom := fun _ _ => []
    GetPeriodLocksAccumulation := fun _ => 0
    SendCoinsFromModuleToManyAccounts := fun _ _ => none
    AccAddressFromBech32 := fun s =>
      if "osmo1".data.isPrefixOf s.data then .ok ((s.data.drop 5).map Char.toNat)
      else .error "decoding bech32 failed" }

/-- A lock of `amount` units of `token`, of duration one hour. -/
def exampleLock (id : Nat) (owner : String) (amount : Nat) : PeriodLock :=
  { ID := id, Owner := owner, Duration := 3600000000000, EndTime := 0,
    Coins := [{ Denom := "token", Amount := amount }] }

/-- A gauge over `token` locks of at least one second. -/
def exampleGauge (perpetual : Bool) (coins distributed : List Coin) (epochs filled : Nat) :
    Gauge :=
  { Id := 1, IsPerpetual := perpetual,
    DistributeTo := { LockQueryType := ByDuration, Denom := "token", Duration := 1000000000,
                      Timestamp := 0 },
    Coins := coins, StartTime := 0, NumEpochsPaidOver := epochs, FilledEpochs := filled,
    DistributedCoins := distributed }

/-- Scenario 3 of the specification: a perpetual gauge of `100ufoo`. -/
def perpetualGauge : Gauge := exampleGauge true [⟨"ufoo", 100⟩] [] 0 0

/-- Scenario 3 of the specification: three locks with amounts 1, 2 and 3. -/
def threeLocks : List PeriodLock :=
  [exampleLock 1 "osmo1a" 1, exampleLock 2 "osmo1b" 2, exampleLock 3 "osmo1c" 3]

/-- Scenario 1 of the specification: `100ufoo` over 10 epochs, none filled. -/
def tenEpochGauge : Gauge := exampleGauge false [⟨"ufoo", 100⟩] [] 10 0

/-- A gauge paying `2 ^ 63` units of `ufoo` over `2 ^ 63` epochs, none filled. -/
def hugeEpochsGauge : Gauge :=
  exampleGauge false [⟨"ufoo", 9223372036854775808⟩] [] 9223372036854775808 0

/-- Three locks of one `token` each; the owner of the second is not an `osmo1` address. -/
def locksWithForeignOwner : List PeriodLock :=
  [exampleLock 1 "osmo1a" 1, exampleLock 2 "cosmos1b" 1, exampleLock 3 "osmo1c" 1]

/-- A perpetual gauge of `1ufoo` whose epoch counter is at the largest `uint64`. -/
def lastEpochGauge : Gauge := exampleGauge true [⟨"ufoo", 1⟩] [] 0 18446744073709551615

/-- A non-perpetual gauge that has filled its single epoch and paid out all its coins. -/
def finishedGauge : Gauge := exampleGauge false [⟨"ufoo", 10⟩] [⟨"ufoo", 10⟩] 1 1

/-- A non-perpetual gauge that has filled its 3 epochs with `1ufoo` of dust left. -/
def filledGaugeWithDust : Gauge := exampleGauge false [⟨"ufoo", 7⟩] [⟨"ufoo", 6⟩] 3 3

/-- A gauge whose denom is a synthetic denom with an empty base denom. -/
def syntheticGauge : Gauge :=
  { exampleGauge false [⟨"ufoo", 7⟩] [] 3 0 with
    DistributeTo := { LockQueryType := ByDuration, Denom := "superbondingfoo",
                      Duration := 1000000000, Timestamp := 0 } }

/-- A gauge like `tenEpochGauge` over locks of the hyphenated denom `gamm-pool`. -/
def hyphenDenomGauge : Gauge :=
  { tenEpochGauge with
    DistributeTo := { LockQueryType := ByDuration, Denom := "gamm-pool",
                      Duration := 1000000000, Timestamp := 0 } }

/-- Three calls for two owners: `osmo1a` gets `5ufoo` and later `3ufoo`. -/
def threeCalls : List (PeriodLock × Coins) :=
  [(exampleLock 1 "osmo1a" 1, [⟨"ufoo", 5⟩]), (exampleLock 2 "osmo1b" 1, [⟨"ufoo", 5⟩]),
   (exampleLock 3 "osmo1a" 2, [⟨"ufoo", 3⟩])]

/-- The batch after `threeCalls`. -/
def threeCallsBatch : distributionInfo :=
  { nextID := 2, lockOwnerAddrToID := [("osmo1b", 1), ("osmo1a", 0)],
    idToBech32Addr := ["osmo1a", "osmo1b"], idToDecodedAddr := [[97], [98]],
    idToDistrCoins := [[⟨"ufoo", 8⟩], [⟨"ufoo", 5⟩]] }



/-- A keeper like `exampleKeeper` whose lock keeper holds two `token` locks of one hour,
owned by `osmo1a` and `osmo1b`. -/
def stakedKeeper : Keeper :=
  { exampleKeeper with
    GetLocksLongerThanDurationDenom := fun denom duration =>
      if denom = "token" then
        [exampleLock 1 "osmo1a" 1, exampleLock 2 "osmo1b" 1].filter
          (fun l => decide (duration ≤ l.Duration))
      else [] }

/-- A keeper like `exampleKeeper` whose lock accumulation is `total` for every condition. -/
def accumulationKeeper (total : Int) : Keeper :=
  { exampleKeeper with GetPeriodLocksAccumulation := fun _ => total }

/-- A keeper like `stakedKeeper` whose bank rejects every transfer. -/
def failingBankKeeper : Keeper :=
  { stakedKeeper with SendCoinsFromModuleToManyAccounts := fun _ _ => some "insufficient funds" }

/-- A keeper like `exampleKeeper` whose lock keeper holds `locksWithForeignOwner`. -/
def foreignOwnerKeeper : Keeper :=
  { exampleKeeper with
    GetLocksLongerThanDurationDenom := fun denom duration =>
      if denom = "token" then
        locksWithForeignOwner.filter (fun l => decide (duration ≤ l.Duration))
      else [] }

/-- The batch after `Distribute` has processed `tenEpochGauge` and `perpetualGauge` with
`stakedKeeper`. -/
def twoGaugesBatch : distributionInfo :=
  { nextID := 2, lockOwnerAddrToID := [("osmo1b", 1), ("osmo1a", 0)],
    idToBech32Addr := ["osmo1a", "osmo1b"], idToDecodedAddr := [[97], [98]],
    idToDistrCoins := [[⟨"ufoo", 55⟩], [⟨"ufoo", 55⟩]] }

/-- The store writes of `Distribute` on `tenEpochGauge` and `perpetualGauge`. -/
def twoGaugesWrites : List Effect :=
  [Effect.setGauge (exampleGauge false [⟨"ufoo", 100⟩] [⟨"ufoo", 10⟩] 10 1),
   Effect.setGauge (exampleGauge true [⟨"ufoo", 100⟩] [⟨"ufoo", 100⟩] 0 1)]

/-- Modelled from the spec: a store of index entries in which `deleteGaugeRefByKey` removes
an entry and fails when it is absent. -/
def exampleDeleteRef (store : List (IndexKey × Nat)) (key : IndexKey) (id : Nat) :
    List (IndexKey × Nat) × Option String :=
  if (key, id) ∈ store then (store.erase (key, id), none)
  else (store, some "specific gauge with ID not found")

/-- Modelled from the spec: `addGaugeRefByKey` inserts an entry. -/
def exampleAddRef (store : List (IndexKey × Nat)) (key : IndexKey) (id : Nat) :
    List (IndexKey × Nat) × Option String :=
  ((key, id) :: store, none)

/-- A gauge like `tenEpochGauge` that starts at time 500. -/
def upcomingGauge : Gauge := { tenEpochGauge with StartTime := 500 }

/-- The locks of the cache scenario: for `token`, one lock of one second and one of one
hour, in this order; none for any other denom. -/
def cacheScenarioLocks (denom : String) : List PeriodLock :=
  if denom = "token" then
    [{ exampleLock 1 "osmo1a" 1 with Duration := 1000000000 }, exampleLock 2 "osmo1b" 1]
  else []

/-- A keeper like `exampleKeeper` whose lock keeper returns, for a denom and a duration,
the locks of `cacheScenarioLocks` for the denom with at least that duration. -/
def cacheScenarioKeeper : Keeper :=
  { exampleKeeper with
    GetLocksLongerThanDurationDenom := fun denom duration =>
      (cacheScenarioLocks denom).filter (fun l => decide (duration ≤ l.Duration)) }

/-- A gauge like `tenEpochGauge`, over `token` locks of at least one hour. -/
def hourGauge : Gauge :=
  { tenEpochGauge with
    Id := 2
    DistributeTo := { LockQueryType := ByDuration, Denom := "token",
                      Duration := 3600000000000, Timestamp := 0 } }

/-! ## Coin sets -/

theorem amount_append (a b : Coins) (d : String) :
    Coins.AmountOfNoDenomValidation (a ++ b) d
      = Coins.AmountOfNoDenomValidation a d + Coins.AmountOfNoDenomValidation b d := by
  simp [Coins.AmountOfNoDenomValidation, List.filter_append]

theorem amount_cons (c : Coin) (a : Coins) (d : String) :
    Coins.AmountOfNoDenomValidation (c :: a) d
      = (if c.Denom = d then c.Amount else 0) + Coins.AmountOfNoDenomValidation a d := by
  by_cases h : c.Denom = d <;> simp [Coins.AmountOfNoDenomValidation, List.filter_cons, h]

theorem amount_nil (d : String) : Coins.AmountOfNoDenomValidation [] d = 0 := rfl

theorem amount_perm {a b : Coins} (h : a.Perm b) (d : String) :
    Coins.AmountOfNoDenomValidation a d = Coins.AmountOfNoDenomValidation b d := by
  unfold Coins.AmountOfNoDenomValidation
  exact ((h.filter _).map _).sum_eq

theorem amount_eq_zero_of_not_mem {a : Coins} {d : String} (h : d ∉ a.map Coin.Denom) :
    Coins.AmountOfNoDenomValidation a d = 0 := by
  induction a with
  | nil => rfl
  | cons c a ih =>
    simp only [List.map_cons, List.mem_cons, not_or] at h
    rw [amount_cons, ih h.2, if_neg (fun e => h.1 e.symm)]

theorem amount_ofDenoms {ds : List String} (hnd : ds.Nodup) (f : String → Nat) (d : String) :
    Coins.AmountOfNoDenomValidation (Coins.ofDenoms ds f) d = if d ∈ ds then f d else 0 := by
  induction ds with
  | nil => simp [Coins.ofDenoms, amount_nil]
  | cons x xs ih =>
    have hx := (List.nodup_cons.mp hnd)
    have ih1 := ih hx.2
    unfold Coins.ofDenoms at ih1 ⊢
    rw [List.filterMap_cons]
    by_cases hf : f x = 0
    · simp only [hf, if_true, ih1, List.mem_cons]
      by_cases hd : d = x
      · subst hd; simp [hf, hx.1]
      · simp [hd]
    · simp only [hf, if_false, amount_cons, ih1, List.mem_cons]
      by_cases hd : d = x
      · subst hd; simp [hx.1]
      · have hd1 : ¬ x = d := fun e => hd e.symm
        simp [hd, hd1]

theorem sortedDenoms_nodup (a : Coins) : (Coins.sortedDenoms a).Nodup :=
  (List.perm_insertionSort _ _).nodup_iff.mpr (List.nodup_dedup _)

theorem mem_sortedDenoms {a : Coins} {d : String} :
    d ∈ Coins.sortedDenoms a ↔ d ∈ a.map Coin.Denom := by
  unfold Coins.sortedDenoms
  rw [(List.perm_insertionSort _ _).mem_iff, List.mem_dedup]

theorem amount_Add (a b : Coins) (d : String) :
    Coins.AmountOfNoDenomValidation (Coins.Add a b) d
      = Coins.AmountOfNoDenomValidation a d + Coins.AmountOfNoDenomValidation b d := by
  unfold Coins.Add
  rw [amount_ofDenoms (sortedDenoms_nodup _), ← amount_append]
  by_cases h : d ∈ Coins.sortedDenoms (a ++ b)
  · rw [if_pos h]
  · rw [if_neg h, amount_eq_zero_of_not_mem (fun h1 => h (mem_sortedDenoms.mpr h1))]

theorem amount_SortByDenom (a : Coins) (d : String) :
    Coins.AmountOfNoDenomValidation (Coins.SortByDenom a) d
      = Coins.AmountOfNoDenomValidation a d :=
  amount_perm (List.perm_insertionSort _ _) d

theorem Sub_ok_iff (a b : Coins) : (∃ r, Coins.Sub a b = .ok r) ↔ Coins.le b a := by
  unfold Coins.Sub Coins.le
  constructor
  · intro ⟨r, hr⟩ d
    split at hr
    · next hall =>
      by_cases hd : d ∈ b.map Coin.Denom
      · obtain ⟨c, hc, rfl⟩ := List.mem_map.mp hd
        have := List.all_eq_true.mp hall c hc
        simpa using this
      · rw [amount_eq_zero_of_not_mem hd]; exact Nat.zero_le _
    · cases hr
  · intro h
    rw [if_pos]
    · exact ⟨_, rfl⟩
    · exact List.all_eq_true.mpr (fun c _ => by simpa using h c.Denom)

theorem amount_Sub {a b r : Coins} (h : Coins.Sub a b = .ok r) (d : String) :
    Coins.AmountOfNoDenomValidation r d
      = Coins.AmountOfNoDenomValidation a d - Coins.AmountOfNoDenomValidation b d := by
  unfold Coins.Sub at h
  split at h
  · injection h with h
    subst h
    rw [amount_ofDenoms (sortedDenoms_nodup _)]
    by_cases hd : d ∈ Coins.sortedDenoms a
    · rw [if_pos hd]
    · rw [if_neg hd, amount_eq_zero_of_not_mem (fun h1 => hd (mem_sortedDenoms.mpr h1)),
        Nat.zero_sub]
  · cases h

theorem ofDenoms_denoms_nodup {ds : List String} (hnd : ds.Nodup) (f : String → Nat) :
    ((Coins.ofDenoms ds f).map Coin.Denom).Nodup := by
  have hsub : ((Coins.ofDenoms ds f).map Coin.Denom).Sublist ds := by
    clear hnd
    induction ds with
    | nil => simp [Coins.ofDenoms]
    | cons x xs ih =>
      unfold Coins.ofDenoms at ih ⊢
      rw [List.filterMap_cons]
      by_cases hf : f x = 0
      · simp only [hf, if_true]; exact ih.trans (List.sublist_cons_self _ _)
      · simp only [hf, if_false, List.map_cons]; exact ih.cons₂ _
  exact hsub.nodup hnd

theorem Sub_denoms_nodup {a b r : Coins} (h : Coins.Sub a b = .ok r) :
    (r.map Coin.Denom).Nodup := by
  unfold Coins.Sub at h
  split at h
  · injection h with h
    subst h
    exact ofDenoms_denoms_nodup (sortedDenoms_nodup _) _
  · cases h

theorem Add_amount_ne_zero (a b : Coins) : ∀ c ∈ Coins.Add a b, c.Amount ≠ 0 := by
  intro c hc
  unfold Coins.Add Coins.ofDenoms at hc
  obtain ⟨x, _, hx⟩ := List.mem_filterMap.mp hc
  split at hx
  · cases hx
  · next hne => injection hx with hx; subst hx; exact hne

theorem sumFor_nil (g : Coin → Nat) (d : String) : sumFor g [] d = 0 := rfl

theorem sumFor_cons (g : Coin → Nat) (c : Coin) (coins : List Coin) (d : String) :
    sumFor g (c :: coins) d = (if c.Denom = d then g c else 0) + sumFor g coins d := by
  simp [sumFor]

theorem sumFor_amount (coins : List Coin) (d : String) :
    sumFor Coin.Amount coins d = Coins.AmountOfNoDenomValidation coins d := by
  induction coins with
  | nil => rfl
  | cons c rest ih => rw [sumFor_cons, amount_cons, ih]

theorem sumFor_of_nodup (g : Coin → Nat) {coins : List Coin}
    (hnd : (coins.map Coin.Denom).Nodup) {c : Coin} (hc : c ∈ coins) :
    sumFor g coins c.Denom = g c := by
  induction coins with
  | nil => cases hc
  | cons x rest ih =>
    rw [List.map_cons, List.nodup_cons] at hnd
    rw [sumFor_cons]
    rcases List.mem_cons.mp hc with h | h
    · subst h
      have hz : sumFor g rest c.Denom = 0 := by
        unfold sumFor
        apply List.sum_eq_zero
        intro n hn
        obtain ⟨y, hy, rfl⟩ := List.mem_map.mp hn
        by_cases hyd : y.Denom = c.Denom
        · exact absurd (hyd ▸ List.mem_map_of_mem Coin.Denom hy) hnd.1
        · rw [if_neg hyd]
      rw [if_pos rfl, hz, Nat.add_zero]
    · have hne : x.Denom ≠ c.Denom := fun e =>
        hnd.1 (e ▸ List.mem_map_of_mem Coin.Denom h)
      rw [if_neg hne, Nat.zero_add, ih hnd.2 h]

theorem sumFor_eq_zero_of_not_mem (g : Coin → Nat) {coins : List Coin} {d : String}
    (h : d ∉ coins.map Coin.Denom) : sumFor g coins d = 0 := by
  unfold sumFor
  apply List.sum_eq_zero
  intro n hn
  obtain ⟨y, hy, rfl⟩ := List.mem_map.mp hn
  by_cases hyd : y.Denom = d
  · exact absurd (hyd ▸ List.mem_map_of_mem Coin.Denom hy) h
  · rw [if_neg hyd]

/-- What the inner loop returns: its coins hold, per denom, what the accumulator held
plus the grants of the coins visited, no entry is zero and no denom occurs twice. -/
theorem distrCoinsLoop_ok {denom : String} {lockSum remE : Nat} {lock : PeriodLock}
    {coins : List Coin} {acc r : Coins}
    (h : distrCoinsLoop denom lockSum remE lock coins acc = .ok r)
    (hacc : ∀ c ∈ acc, c.Amount ≠ 0) (hnd : (acc.map Coin.Denom).Nodup) :
    (∀ d, Coins.AmountOfNoDenomValidation r d
        = Coins.AmountOfNoDenomValidation acc d + sumFor (grant denom lockSum remE lock) coins d)
      ∧ (∀ c ∈ r, c.Amount ≠ 0) ∧ (r.map Coin.Denom).Nodup := by
  induction coins generalizing acc with
  | nil =>
    simp only [distrCoinsLoop] at h
    injection h with h
    subst h
    exact ⟨fun d => by rw [sumFor_nil, Nat.add_zero], hacc, hnd⟩
  | cons coin rest ih =>
    simp only [distrCoinsLoop, Quo] at h
    split at h
    · cases h
    · next amt heq =>
      split at heq
      · cases heq
      · injection heq with heq
        have hg : grant denom lockSum remE lock coin = amt.toNat := by
          unfold grant; rw [heq]
        split at h
        · next hpos =>
          obtain ⟨h1, h2, h3⟩ := ih h (Add_amount_ne_zero _ _)
            (ofDenoms_denoms_nodup (sortedDenoms_nodup _) _)
          refine ⟨fun d => ?_, h2, h3⟩
          rw [h1 d, amount_Add, sumFor_cons, amount_cons, amount_nil, hg]
          simp only []
          omega
        · next hneg =>
          obtain ⟨h1, h2, h3⟩ := ih h hacc hnd
          refine ⟨fun d => ?_, h2, h3⟩
          have hz : amt.toNat = 0 := Int.toNat_eq_zero.mpr (not_lt.mp hneg)
          rw [h1 d, sumFor_cons, hg, hz]
          simp

theorem lockDistrCoins_ok {remain : Coins} {denom : String} {lockSum remE : Nat}
    {lock : PeriodLock} {A : Coins}
    (h : lockDistrCoins remain denom lockSum remE lock = .ok A) :
    (∀ d, Coins.AmountOfNoDenomValidation A d = sumFor (grant denom lockSum remE lock) remain d)
      ∧ (∀ c ∈ A, c.Amount ≠ 0) ∧ (A.map Coin.Denom).Nodup := by
  unfold lockDistrCoins at h
  split at h
  · cases h
  · next r hr =>
    injection h with h
    subst h
    obtain ⟨h1, h2, h3⟩ := distrCoinsLoop_ok hr (by intro c hc; cases hc) List.nodup_nil
    refine ⟨fun d => ?_, fun c hc => h2 c ?_, ?_⟩
    · rw [amount_SortByDenom, h1 d, amount_nil, Nat.zero_add]
    · exact (List.perm_insertionSort _ _).mem_iff.mp hc
    · exact ((List.perm_insertionSort _ _).map Coin.Denom).nodup_iff.mpr h3

/-! ## Arithmetic of the truncated quotients -/

theorem foldl_add_eq_sum {α : Type} (f : α → Nat) (l : List α) (init : Nat) :
    l.foldl (fun sum x => sum + f x) init = init + (l.map f).sum := by
  induction l generalizing init with
  | nil => simp
  | cons x xs ih => simp only [List.foldl_cons, ih, List.map_cons, List.sum_cons]; omega

/-- The loop of `SumLocksByDenom` returns the running sum plus the locks' amounts when
that fits `maxBitLen` bits, and panics otherwise. -/
theorem sumLocksLoop_eq (denom : String) (locks : List PeriodLock) (sum : Nat)
    (hsum : sum < 2 ^ maxBitLen) :
    sumLocksLoop denom locks sum
      = if sum + (locks.map (fun l => Coins.AmountOfNoDenomValidation l.Coins denom)).sum
            < 2 ^ maxBitLen
        then .ok (sum + (locks.map (fun l => Coins.AmountOfNoDenomValidation l.Coins denom)).sum)
        else .error (.panic "Int overflow") := by
  induction locks generalizing sum with
  | nil =>
    simp only [sumLocksLoop, List.map_nil, List.sum_nil, Nat.add_zero]
    rw [if_pos hsum]
  | cons lock rest ih =>
    simp only [sumLocksLoop, IntAdd, List.map_cons, List.sum_cons]
    by_cases h : sum + Coins.AmountOfNoDenomValidation lock.Coins denom < 2 ^ maxBitLen
    · rw [if_pos h]
      simp only []
      rw [ih _ h, Nat.add_assoc]
    · rw [if_neg h]
      simp only []
      rw [if_neg]
      omega

theorem two_pow_maxBitLen_pos : 0 < 2 ^ maxBitLen := Nat.two_pow_pos maxBitLen

/-- On a valid denom `SumLocksByDenom` returns the sum of the locks' amounts when it fits
`maxBitLen` bits, and panics otherwise. -/
theorem SumLocksByDenom_of_valid {denom : String} (hvalid : ValidateDenom denom = true)
    (locks : List PeriodLock) :
    SumLocksByDenom locks denom
      = if (locks.map (fun l => Coins.AmountOfNoDenomValidation l.Coins denom)).sum
            < 2 ^ maxBitLen
        then .ok ((locks.map (fun l => Coins.AmountOfNoDenomValidation l.Coins denom)).sum)
        else .error (.panic "Int overflow") := by
  unfold SumLocksByDenom
  rw [if_pos hvalid, sumLocksLoop_eq denom locks 0 two_pow_maxBitLen_pos, Nat.zero_add]

theorem SumLocksByDenom_ok {locks : List PeriodLock} {denom : String} {lockSum : Nat}
    (h : SumLocksByDenom locks denom = .ok lockSum) :
    ValidateDenom denom = true
      ∧ lockSum = (locks.map (fun l => Coins.AmountOfNoDenomValidation l.Coins denom)).sum := by
  by_cases hv : ValidateDenom denom = true
  · rw [SumLocksByDenom_of_valid hv] at h
    split at h
    · injection h with h
      exact ⟨hv, h.symm⟩
    · cases h
  · unfold SumLocksByDenom at h
    rw [if_neg hv] at h
    cases h

theorem SumLocksByDenom_error {locks : List PeriodLock} {denom : String} {f : Failure}
    (h : SumLocksByDenom locks denom = .error f) : ∃ m, f = .panic m := by
  by_cases hv : ValidateDenom denom = true
  · rw [SumLocksByDenom_of_valid hv] at h
    split at h
    · cases h
    · injection h with h
      exact ⟨_, h.symm⟩
  · unfold SumLocksByDenom at h
    rw [if_neg hv] at h
    injection h with h
    exact ⟨_, h.symm⟩

theorem sum_div_le {α : Type} (f : α → Nat) (D : Nat) (l : List α) :
    (l.map (fun x => f x / D)).sum ≤ (l.map f).sum / D := by
  induction l with
  | nil => simp
  | cons x xs ih =>
    simp only [List.map_cons, List.sum_cons]
    exact le_trans (Nat.add_le_add_left ih _) (Nat.add_div_le_add_div _ _ _)

theorem sum_add_length_le {α : Type} (f : α → Nat) {D : Nat} (hD : 0 < D) (l : List α) :
    (l.map f).sum + l.length ≤ D * ((l.map (fun x => f x / D)).sum + l.length) := by
  induction l with
  | nil => simp
  | cons x xs ih =>
    simp only [List.map_cons, List.sum_cons, List.length_cons]
    have h1 : f x < D * (f x / D) + D := by
      have := Nat.div_add_mod (f x) D
      have := Nat.mod_lt (f x) hD
      omega
    have h2 : D * (f x / D + (List.map (fun x => f x / D) xs).sum + (xs.length + 1))
        = D * (f x / D) + D + D * ((List.map (fun x => f x / D) xs).sum + xs.length) := by
      ring
    omega

theorem div_lt_sum_div_add_length {α : Type} (f : α → Nat) {D : Nat} (hD : 0 < D)
    {l : List α} (hl : l ≠ []) :
    (l.map f).sum / D < (l.map (fun x => f x / D)).sum + l.length := by
  have h := sum_add_length_le f hD l
  have hlen : 0 < l.length := List.length_pos.mpr hl
  rw [Nat.div_lt_iff_lt_mul hD, Nat.mul_comm]
  omega

theorem toInt64_of_lt {x : Nat} (h : x < 2 ^ 63) : toInt64 x = (x : Int) := by
  unfold toInt64
  have h1 : x % 2 ^ 64 = x := Nat.mod_eq_of_lt (by omega)
  rw [h1, if_pos h]

theorem toInt64_pos {x : Nat} (h : 0 < toInt64 x) :
    toInt64 x = ((x % 2 ^ 64 : Nat) : Int) ∧ 0 < x % 2 ^ 64 := by
  unfold toInt64 at h ⊢
  split at h
  · next hlt => rw [if_pos hlt]; exact ⟨rfl, by omega⟩
  · exfalso
    have := Nat.mod_lt x (show 0 < 2 ^ 64 by norm_num)
    omega

theorem grant_of_pos {denom : String} {lockSum remE : Nat} (lock : PeriodLock) (coin : Coin)
    {r : Nat} (hr : toInt64 remE = (r : Int)) :
    grant denom lockSum remE lock coin
      = coin.Amount * Coins.AmountOfNoDenomValidation lock.Coins denom / (lockSum * r) := by
  unfold grant
  rw [hr, ← Int.natCast_mul, ← Int.natCast_mul, ← Int.ofNat_tdiv, Int.toNat_ofNat]

theorem grant_of_nonpos {denom : String} {lockSum remE : Nat} (lock : PeriodLock) (coin : Coin)
    (hr : toInt64 remE ≤ 0) : grant denom lockSum remE lock coin = 0 := by
  unfold grant
  apply Int.toNat_eq_zero.mpr
  apply Int.tdiv_nonpos
  · positivity
  · exact mul_nonpos_of_nonneg_of_nonpos (by positivity) hr

theorem grant_eq {denom : String} {lockSum remE : Nat} (lock : PeriodLock) (coin : Coin)
    (h : remE < 2 ^ 63) :
    grant denom lockSum remE lock coin
      = coin.Amount * Coins.AmountOfNoDenomValidation lock.Coins denom / (lockSum * remE) :=
  grant_of_pos lock coin (toInt64_of_lt h)

theorem sum_mul_left (c : Nat) {α : Type} (f : α → Nat) (l : List α) :
    (l.map (fun x => c * f x)).sum = c * (l.map f).sum := by
  induction l with
  | nil => simp
  | cons x xs ih => simp only [List.map_cons, List.sum_cons, ih]; ring

/-- The grants of one coin to all the locks never exceed the coin. -/
theorem sum_grant_le (denom : String) (remE : Nat) (locks : List PeriodLock) (coin : Coin) :
    (locks.map (fun l => grant denom
        (locks.map (fun l => Coins.AmountOfNoDenomValidation l.Coins denom)).sum remE l coin)).sum
      ≤ coin.Amount := by
  by_cases hr : toInt64 remE ≤ 0
  · have : ∀ l ∈ locks, grant denom
        (locks.map (fun l => Coins.AmountOfNoDenomValidation l.Coins denom)).sum remE l coin
          = 0 := fun l _ => grant_of_nonpos l coin hr
    rw [List.map_congr_left this]
    simp
  · obtain ⟨hr1, hr2⟩ := toInt64_pos (not_le.mp hr)
    have : ∀ l ∈ locks, grant denom
        (locks.map (fun l => Coins.AmountOfNoDenomValidation l.Coins denom)).sum remE l coin
          = coin.Amount * Coins.AmountOfNoDenomValidation l.Coins denom
            / ((locks.map (fun l => Coins.AmountOfNoDenomValidation l.Coins denom)).sum
                * (remE % 2 ^ 64)) := fun l _ => grant_of_pos l coin hr1
    rw [List.map_congr_left this]
    refine le_trans (sum_div_le _ _ _) ?_
    rw [sum_mul_left]
    apply Nat.div_le_of_le_mul
    calc coin.Amount * (locks.map (fun l => Coins.AmountOfNoDenomValidation l.Coins denom)).sum
        ≤ coin.Amount * ((locks.map (fun l => Coins.AmountOfNoDenomValidation l.Coins denom)).sum
            * (remE % 2 ^ 64)) := Nat.mul_le_mul_left _ (Nat.le_mul_of_pos_right _ hr2)
      _ = _ := by ring

/-! ## The loop over the locks -/

theorem distributeLocksLoop_ok {k : Keeper} {remain : Coins} {denom : String}
    {lockSum remE : Nat} {locks : List PeriodLock} {info info1 : distributionInfo}
    {total total1 : Coins}
    (h : distributeLocksLoop k remain denom lockSum remE locks info total = (info1, .ok total1)) :
    ∃ allocs : List Coins,
      List.Forall₂ (fun lock A => lockDistrCoins remain denom lockSum remE lock = .ok A)
        locks allocs
      ∧ addLockRewardsAll k.AccAddressFromBech32 info (nonEmptyAllocations locks allocs)
          = (info1, .ok ())
      ∧ ∀ d, Coins.AmountOfNoDenomValidation total1 d
          = Coins.AmountOfNoDenomValidation total d
            + (allocs.map (fun A => Coins.AmountOfNoDenomValidation A d)).sum := by
  induction locks generalizing info total with
  | nil =>
    simp only [distributeLocksLoop, Prod.mk.injEq, Except.ok.injEq] at h
    obtain ⟨h1, h2⟩ := h
    subst h1 h2
    exact ⟨[], List.Forall₂.nil, rfl, fun d => by simp⟩
  | cons lock rest ih =>
    simp only [distributeLocksLoop] at h
    split at h
    · simp at h
    · next A hA =>
      split at h
      · next hempty =>
        obtain ⟨allocs, h1, h2, h3⟩ := ih h
        refine ⟨A :: allocs, List.Forall₂.cons hA h1, ?_, fun d => ?_⟩
        · simpa [nonEmptyAllocations, List.zip_cons_cons, List.filter_cons, hempty] using h2
        · have hnil : A = [] := by simpa [Coins.Empty] using hempty
          rw [h3 d, hnil]
          simp [amount_nil]
      · next hne =>
        split at h
        · simp at h
        · next info2 u hadd =>
          obtain ⟨allocs, h1, h2, h3⟩ := ih h
          refine ⟨A :: allocs, List.Forall₂.cons hA h1, ?_, fun d => ?_⟩
          · simp only [nonEmptyAllocations, List.zip_cons_cons, List.filter_cons, hne,
              Bool.not_false, if_true, addLockRewardsAll, hadd]
            exact h2
          · rw [h3 d, amount_Add]
            simp only [List.map_cons, List.sum_cons]
            omega

theorem distributeInternal_ok {k : Keeper} {gauge : Gauge} {locks : List PeriodLock}
    {info : distributionInfo} {lockSum : Nat} {total : Coins}
    (hsum : SumLocksByDenom locks (NativeDenom gauge.DistributeTo.Denom) = .ok lockSum)
    (hpos : 0 < lockSum)
    (h : (distributeInternal k gauge locks info).ret = .ok total) :
    ∃ (remain : Coins) (allocs : List Coins),
      Coins.Sub gauge.Coins gauge.DistributedCoins = .ok remain
      ∧ List.Forall₂ (fun lock A => lockDistrCoins remain (NativeDenom gauge.DistributeTo.Denom)
          lockSum (remainEpochs gauge) lock = .ok A) locks allocs
      ∧ addLockRewardsAll k.AccAddressFromBech32 info (nonEmptyAllocations locks allocs)
          = ((distributeInternal k gauge locks info).distrInfo, .ok ())
      ∧ (∀ d, Coins.AmountOfNoDenomValidation total d
          = (allocs.map (fun A => Coins.AmountOfNoDenomValidation A d)).sum)
      ∧ (distributeInternal k gauge locks info).effects
          = [Effect.setGauge (advanceGauge gauge total)] := by
  unfold distributeInternal at h ⊢
  simp only [hsum, Nat.pos_iff_ne_zero.mp hpos, if_false] at h ⊢
  cases hsub : Coins.Sub gauge.Coins gauge.DistributedCoins with
  | error e => simp [hsub] at h
  | ok remain =>
    simp only [hsub] at h ⊢
    cases hloop : distributeLocksLoop k remain (NativeDenom gauge.DistributeTo.Denom) lockSum
        (remainEpochs gauge) locks info [] with
    | mk info1 res =>
      cases res with
      | error e => simp [hloop] at h
      | ok total1 =>
        simp only [hloop, setGauge, Except.ok.injEq] at h ⊢
        subst h
        obtain ⟨allocs, h1, h2, h3⟩ := distributeLocksLoop_ok hloop
        exact ⟨remain, allocs, rfl, h1, h2, fun d => by rw [h3 d, amount_nil, Nat.zero_add], rfl⟩

theorem mem_amount_le {A : Coins} {c : Coin} (hc : c ∈ A) :
    c.Amount ≤ Coins.AmountOfNoDenomValidation A c.Denom := by
  induction A with
  | nil => cases hc
  | cons x rest ih =>
    rw [amount_cons]
    rcases List.mem_cons.mp hc with h | h
    · subst h; rw [if_pos rfl]; omega
    · have := ih h; omega

theorem sum_sumFor_swap (G : PeriodLock → Coin → Nat) (locks : List PeriodLock)
    (remain : List Coin) (d : String) :
    (locks.map (fun l => sumFor (G l) remain d)).sum
      = sumFor (fun c => (locks.map (fun l => G l c)).sum) remain d := by
  induction remain with
  | nil => simp [sumFor]
  | cons c rest ih =>
    simp only [sumFor_cons]
    rw [List.sum_map_add, ih]
    by_cases hd : c.Denom = d
    · simp [hd]
    · simp [hd]

theorem sumFor_mono {g g1 : Coin → Nat} (h : ∀ c, g c ≤ g1 c) (coins : List Coin) (d : String) :
    sumFor g coins d ≤ sumFor g1 coins d := by
  induction coins with
  | nil => exact Nat.le_refl _
  | cons c rest ih =>
    rw [sumFor_cons, sumFor_cons]
    by_cases hd : c.Denom = d
    · rw [if_pos hd, if_pos hd]; exact Nat.add_le_add (h c) ih
    · rw [if_neg hd, if_neg hd]; exact Nat.add_le_add (Nat.le_refl _) ih

theorem allocs_sum_eq {remain : Coins} {denom : String} {lockSum remE : Nat}
    {locks : List PeriodLock} {allocs : List Coins}
    (h : List.Forall₂ (fun lock A => lockDistrCoins remain denom lockSum remE lock = .ok A)
      locks allocs) (d : String) :
    (allocs.map (fun A => Coins.AmountOfNoDenomValidation A d)).sum
      = (locks.map (fun l => sumFor (grant denom lockSum remE l) remain d)).sum := by
  induction h with
  | nil => rfl
  | cons hA _ ih =>
    simp only [List.map_cons, List.sum_cons, ih, (lockDistrCoins_ok hA).1 d]

theorem nonEmptyAllocations_sum {R : PeriodLock → Coins → Prop} {locks : List PeriodLock}
    {allocs : List Coins} (h : List.Forall₂ R locks allocs) (d : String) :
    ((nonEmptyAllocations locks allocs).map
        (fun p => Coins.AmountOfNoDenomValidation p.2 d)).sum
      = (allocs.map (fun A => Coins.AmountOfNoDenomValidation A d)).sum := by
  induction h with
  | nil => rfl
  | @cons l A ls As _ _ ih =>
    unfold nonEmptyAllocations at ih ⊢
    rw [List.zip_cons_cons, List.filter_cons]
    cases A with
    | nil => simpa [Coins.Empty, amount_nil] using ih
    | cons c cs =>
      simp only [Coins.Empty, List.isEmpty_cons, Bool.not_false, if_true, List.map_cons,
        List.sum_cons]
      rw [← ih]
      rfl

/-- The total that a successful `distributeInternal` returns never exceeds, in any
denom, what remained in the gauge. -/
theorem total_le_remain {k : Keeper} {gauge : Gauge} {locks : List PeriodLock}
    {info : distributionInfo} {lockSum : Nat} {total : Coins}
    (hsum : SumLocksByDenom locks (NativeDenom gauge.DistributeTo.Denom) = .ok lockSum)
    (hpos : 0 < lockSum)
    (h : (distributeInternal k gauge locks info).ret = .ok total) (d : String) :
    Coins.AmountOfNoDenomValidation total d
      ≤ Coins.AmountOfNoDenomValidation gauge.Coins d
        - Coins.AmountOfNoDenomValidation gauge.DistributedCoins d := by
  obtain ⟨remain, allocs, hsub, hall, _, htot, _⟩ := distributeInternal_ok hsum hpos h
  rw [htot d, allocs_sum_eq hall d, sum_sumFor_swap, ← amount_Sub hsub d, ← sumFor_amount]
  apply sumFor_mono
  intro c
  have hS := (SumLocksByDenom_ok hsum).2
  rw [hS]
  exact sum_grant_le _ _ _ _

theorem distributeInternal_effects {k : Keeper} {gauge : Gauge} {locks : List PeriodLock}
    {info : distributionInfo} {e : Effect}
    (he : e ∈ (distributeInternal k gauge locks info).effects) :
    ∃ lockSum total,
      SumLocksByDenom locks (NativeDenom gauge.DistributeTo.Denom) = .ok lockSum
      ∧ 0 < lockSum ∧ (distributeInternal k gauge locks info).ret = .ok total := by
  unfold distributeInternal at he ⊢
  cases hsum : SumLocksByDenom locks (NativeDenom gauge.DistributeTo.Denom) with
  | error e => simp [hsum] at he
  | ok lockSum =>
    simp only [hsum] at he ⊢
    by_cases hz : lockSum = 0
    · simp [hz] at he
    · simp only [hz, if_false] at he ⊢
      cases hsub : Coins.Sub gauge.Coins gauge.DistributedCoins with
      | error e => simp [hsub] at he
      | ok remain =>
        simp only [hsub] at he ⊢
        cases hloop : distributeLocksLoop k remain (NativeDenom gauge.DistributeTo.Denom) lockSum
            (remainEpochs gauge) locks info [] with
        | mk info1 res =>
          cases res with
          | error e => simp [hloop] at he
          | ok total1 =>
            simp only [hloop, setGauge]
            exact ⟨lockSum, total1, rfl, Nat.pos_of_ne_zero hz, rfl⟩

/-! ## The claims on `distributeInternal` -/

/-- C1 (amended): for every gauge and locks with `lock_sum > 0` and
`1 ≤ remain_epochs < 2 ^ 63` on which `distributeInternal` succeeds, the remaining coins
`Coins - DistributedCoins` exist and every lock has an allocation that holds, for each
remaining coin `c`, exactly `c.amount * lockAmount / (lock_sum * remain_epochs)` (truncated),
has no zero entry and no other denom; the batch after the call is the batch before it with
the non-empty allocations added in lock order, the empty ones being skipped. -/
theorem distributeInternal_allocations (k : Keeper) (gauge : Gauge) (locks : List PeriodLock)
    (info : distributionInfo) (lockSum : Nat) (total : Coins)
    (hsum : SumLocksByDenom locks (NativeDenom gauge.DistributeTo.Denom) = .ok lockSum)
    (hpos : 0 < lockSum) (_hre : 1 ≤ remainEpochs gauge) (hlt : remainEpochs gauge < 2 ^ 63)
    (h : (distributeInternal k gauge locks info).ret = .ok total) :
    ∃ (remain : Coins) (allocs : List Coins),
      Coins.Sub gauge.Coins gauge.DistributedCoins = .ok remain
      ∧ List.Forall₂ (fun lock A => IsAllocation remain
          (Coins.AmountOfNoDenomValidation lock.Coins (NativeDenom gauge.DistributeTo.Denom))
          lockSum (remainEpochs gauge) A) locks allocs
      ∧ addLockRewardsAll k.AccAddressFromBech32 info (nonEmptyAllocations locks allocs)
          = ((distributeInternal k gauge locks info).distrInfo, .ok ()) := by
  obtain ⟨remain, allocs, hsub, hall, hbatch, _, _⟩ := distributeInternal_ok hsum hpos h
  refine ⟨remain, allocs, hsub, ?_, hbatch⟩
  refine hall.imp (fun lock A hA => ?_)
  obtain ⟨h1, h2, h3⟩ := lockDistrCoins_ok hA
  have hnd := Sub_denoms_nodup hsub
  refine ⟨fun c hc => ?_, fun c hc => ⟨h2 c hc, ?_⟩, h3⟩
  · rw [h1 c.Denom, sumFor_of_nodup _ hnd hc, grant_eq lock c hlt]
  · by_contra hmem
    have hz := h1 c.Denom
    rw [sumFor_eq_zero_of_not_mem _ hmem] at hz
    have := mem_amount_le hc
    exact h2 c hc (by omega)

/-- C2 (amended): for every gauge and locks with `lock_sum > 0` on which
`distributeInternal` succeeds, the only store write persists the input gauge with
`FilledEpochs` increased by 1 modulo `2 ^ 64` (a `uint64`) and `DistributedCoins` increased
by the returned total, every other field unchanged; the total is, in every denom, the sum
of the per-lock allocations that the call added to the batch. -/
theorem distributeInternal_persists (k : Keeper) (gauge : Gauge) (locks : List PeriodLock)
    (info : distributionInfo) (lockSum : Nat) (total : Coins)
    (hsum : SumLocksByDenom locks (NativeDenom gauge.DistributeTo.Denom) = .ok lockSum)
    (hpos : 0 < lockSum)
    (h : (distributeInternal k gauge locks info).ret = .ok total) :
    (distributeInternal k gauge locks info).effects
        = [Effect.setGauge { gauge with
            FilledEpochs := (gauge.FilledEpochs + 1) % 2 ^ 64,
            DistributedCoins := Coins.Add gauge.DistributedCoins total }]
      ∧ (∀ d, Coins.AmountOfNoDenomValidation (Coins.Add gauge.DistributedCoins total) d
          = Coins.AmountOfNoDenomValidation gauge.DistributedCoins d
            + Coins.AmountOfNoDenomValidation total d)
      ∧ ∃ added : List (PeriodLock × Coins),
          addLockRewardsAll k.AccAddressFromBech32 info added
            = ((distributeInternal k gauge locks info).distrInfo, .ok ())
          ∧ ∀ d, Coins.AmountOfNoDenomValidation total d
            = (added.map (fun p => Coins.AmountOfNoDenomValidation p.2 d)).sum := by
  obtain ⟨remain, allocs, _, hall, hbatch, htot, heff⟩ := distributeInternal_ok hsum hpos h
  refine ⟨heff, fun d => amount_Add _ _ d, nonEmptyAllocations locks allocs, hbatch, fun d => ?_⟩
  rw [htot d, nonEmptyAllocations_sum hall d]

/-- C3: invariant 1 is preserved: for every gauge with `DistributedCoins ≤ Coins`
elementwise and every list of locks, every gauge that `distributeInternal` persists also
has `DistributedCoins ≤ Coins` elementwise. -/
theorem distributeInternal_preserves_distributed_le (k : Keeper) (gauge : Gauge)
    (locks : List PeriodLock) (info : distributionInfo) (persisted : Gauge)
    (hinv : Coins.le gauge.DistributedCoins gauge.Coins)
    (hp : Effect.setGauge persisted ∈ (distributeInternal k gauge locks info).effects) :
    Coins.le persisted.DistributedCoins persisted.Coins := by
  obtain ⟨lockSum, total, hsum, hpos, h⟩ := distributeInternal_effects hp
  obtain ⟨_, _, _, _, _, _, heff⟩ := distributeInternal_ok hsum hpos h
  rw [heff, List.mem_singleton] at hp
  injection hp with hp
  subst hp
  intro d
  have h1 := total_le_remain hsum hpos h d
  have h2 := hinv d
  simp only [advanceGauge]
  rw [amount_Add]
  omega

/-- C6 (amended): for every gauge whose native denom passes `sdk.ValidateDenom` and every
list of locks whose amounts of that denom sum to zero, `distributeInternal` returns no coins
and no error, leaves the batch as it was and writes nothing to the store; the empty list of
locks is such a list. -/
theorem distributeInternal_zero_lock_sum (k : Keeper) (gauge : Gauge)
    (locks : List PeriodLock) (info : distributionInfo)
    (hvalid : ValidateDenom (NativeDenom gauge.DistributeTo.Denom) = true)
    (hzero : (locks.map (fun l => Coins.AmountOfNoDenomValidation l.Coins
        (NativeDenom gauge.DistributeTo.Denom))).sum = 0) :
    distributeInternal k gauge locks info = ⟨info, [], .ok []⟩
      ∧ distributeInternal k gauge [] info = ⟨info, [], .ok []⟩ := by
  constructor
  · unfold distributeInternal
    simp only [SumLocksByDenom_of_valid hvalid, hzero, two_pow_maxBitLen_pos, if_true]
  · unfold distributeInternal
    simp only [SumLocksByDenom_of_valid hvalid, List.map_nil, List.sum_nil,
      two_pow_maxBitLen_pos, if_true]

/-- C8 (amended): dust bound: for every gauge and `K` locks with `lock_sum > 0` and
`1 ≤ remain_epochs < 2 ^ 63` on which `distributeInternal` succeeds, and for every remaining
coin `c`, the total paid in `c`'s denom plus a residual equals `c.amount / remain_epochs`
(truncated), where the residual is less than `K`; the persisted gauge still holds
`c.amount - paid` of that denom undistributed, which is at least the residual. -/
theorem distributeInternal_dust (k : Keeper) (gauge : Gauge) (locks : List PeriodLock)
    (info : distributionInfo) (lockSum : Nat) (total : Coins)
    (hsum : SumLocksByDenom locks (NativeDenom gauge.DistributeTo.Denom) = .ok lockSum)
    (hpos : 0 < lockSum) (hre : 1 ≤ remainEpochs gauge) (hlt : remainEpochs gauge < 2 ^ 63)
    (h : (distributeInternal k gauge locks info).ret = .ok total) :
    ∃ (remain : Coins) (persisted : Gauge),
      Coins.Sub gauge.Coins gauge.DistributedCoins = .ok remain
      ∧ (distributeInternal k gauge locks info).effects = [Effect.setGauge persisted]
      ∧ ∀ c ∈ remain, ∃ residual : Nat,
          Coins.AmountOfNoDenomValidation total c.Denom + residual
            = c.Amount / remainEpochs gauge
          ∧ residual < locks.length
          ∧ Coins.AmountOfNoDenomValidation persisted.Coins c.Denom
            = Coins.AmountOfNoDenomValidation persisted.DistributedCoins c.Denom
              + (c.Amount - Coins.AmountOfNoDenomValidation total c.Denom)
          ∧ residual ≤ c.Amount - Coins.AmountOfNoDenomValidation total c.Denom := by
  obtain ⟨remain, allocs, hsub, hall, _, htot, heff⟩ := distributeInternal_ok hsum hpos h
  refine ⟨remain, advanceGauge gauge total, hsub, heff, fun c hc => ?_⟩
  have hnd := Sub_denoms_nodup hsub
  have hS := (SumLocksByDenom_ok hsum).2
  have hpaid : Coins.AmountOfNoDenomValidation total c.Denom
      = (locks.map (fun l => c.Amount
          * Coins.AmountOfNoDenomValidation l.Coins (NativeDenom gauge.DistributeTo.Denom)
          / (lockSum * remainEpochs gauge))).sum := by
    rw [htot, allocs_sum_eq hall]
    congr 1
    apply List.map_congr_left
    intro l _
    rw [sumFor_of_nodup _ hnd hc, grant_eq l c hlt]
  have hD : 0 < lockSum * remainEpochs gauge := Nat.mul_pos hpos hre
  have hne : locks ≠ [] := by
    intro hnil
    rw [hnil] at hS
    simp at hS
    omega
  have hsumf : (locks.map (fun l => c.Amount
      * Coins.AmountOfNoDenomValidation l.Coins (NativeDenom gauge.DistributeTo.Denom))).sum
        / (lockSum * remainEpochs gauge) = c.Amount / remainEpochs gauge := by
    rw [sum_mul_left, ← hS, Nat.mul_comm c.Amount lockSum]
    exact Nat.mul_div_mul_left _ _ hpos
  have hle := sum_div_le (fun l => c.Amount
      * Coins.AmountOfNoDenomValidation l.Coins (NativeDenom gauge.DistributeTo.Denom))
      (lockSum * remainEpochs gauge) locks
  have hlt2 := div_lt_sum_div_add_length (fun l => c.Amount
      * Coins.AmountOfNoDenomValidation l.Coins (NativeDenom gauge.DistributeTo.Denom)) hD hne
  rw [hsumf] at hle hlt2
  rw [← hpaid] at hle hlt2
  have hrem := amount_Sub hsub c.Denom
  have hcamt : Coins.AmountOfNoDenomValidation remain c.Denom = c.Amount := by
    rw [← sumFor_amount, sumFor_of_nodup _ hnd hc]
  have hleq := (Sub_ok_iff gauge.Coins gauge.DistributedCoins).mp ⟨remain, hsub⟩ c.Denom
  have hdiv : c.Amount / remainEpochs gauge ≤ c.Amount := Nat.div_le_self _ _
  refine ⟨c.Amount / remainEpochs gauge - Coins.AmountOfNoDenomValidation total c.Denom,
    by omega, by omega, ?_, by omega⟩
  simp only [advanceGauge]
  rw [amount_Add]
  omega

/-! ## The batch -/

theorem mem_distinctOwners {l : List String} {a : String} : a ∈ distinctOwners l ↔ a ∈ l := by
  induction l with
  | nil => simp [distinctOwners]
  | cons x xs ih =>
    simp only [distinctOwners, List.mem_cons, List.mem_filter, ih]
    by_cases h : a = x
    · simp [h]
    · simp [h]

theorem distinctOwners_nodup (l : List String) : (distinctOwners l).Nodup := by
  induction l with
  | nil => simp [distinctOwners]
  | cons x xs ih =>
    simp only [distinctOwners, List.nodup_cons, List.mem_filter]
    exact ⟨fun h => by simp at h, ih.filter _⟩

theorem distinctOwners_append_singleton (l : List String) (a : String) :
    distinctOwners (l ++ [a]) = if a ∈ l then distinctOwners l else distinctOwners l ++ [a] := by
  induction l with
  | nil => simp [distinctOwners]
  | cons x xs ih =>
    rw [List.cons_append, distinctOwners, ih]
    by_cases hx : a = x
    · subst hx
      by_cases hm : a ∈ xs
      · simp [hm, distinctOwners]
      · simp [hm, distinctOwners, List.filter_append]
    · by_cases hm : a ∈ xs
      · simp [hm, hx, distinctOwners]
      · simp [hm, hx, distinctOwners, List.filter_append]

theorem rewardsOf_append (owner : String) (calls : List (PeriodLock × Coins))
    (lock : PeriodLock) (rewards : Coins) (denom : String) :
    rewardsOf owner (calls ++ [(lock, rewards)]) denom
      = rewardsOf owner calls denom
        + (if lock.Owner = owner then Coins.AmountOfNoDenomValidation rewards denom else 0) := by
  unfold rewardsOf
  by_cases h : lock.Owner = owner
  · simp [List.filter_append, h]
  · simp [List.filter_append, h]

theorem rewardsOf_eq_zero {owner : String} {calls : List (PeriodLock × Coins)}
    (h : owner ∉ calls.map (fun p => p.1.Owner)) (denom : String) :
    rewardsOf owner calls denom = 0 := by
  unfold rewardsOf
  have : calls.filter (fun p => p.1.Owner = owner) = [] := by
    rw [List.filter_eq_nil_iff]
    intro p hp hpo
    exact h (List.mem_map.mpr ⟨p, hp, by simpa using hpo⟩)
  rw [this]
  rfl

theorem records_new (decode : String → Except String AccAddress) :
    Records decode newDistributionInfo [] := by
  refine ⟨⟨rfl, rfl, rfl, fun a i => ?_⟩, rfl, List.Forall₂.nil, fun i a h => ?_⟩
  · simp [newDistributionInfo]
  · simp [newDistributionInfo] at h
theorem getElem?_append_singleton {α : Type} (l : List α) (x : α) (i : Nat) (a : α) :
    (l ++ [x])[i]? = some a ↔ (l[i]? = some a ∨ (i = l.length ∧ x = a)) := by
  by_cases hi : i < l.length
  · rw [List.getElem?_append_left hi]
    constructor
    · exact Or.inl
    · rintro (h | ⟨h, _⟩)
      · exact h
      · omega
  · rw [List.getElem?_append_right (not_lt.mp hi), List.getElem?_eq_none (not_lt.mp hi)]
    by_cases he : i = l.length
    · subst he; simp
    · have : 0 < i - l.length := by omega
      obtain ⟨m, hm⟩ := Nat.exists_eq_succ_of_ne_zero (Nat.pos_iff_ne_zero.mp this)
      rw [hm]
      simp [he]

/-- One successful `addLockRewards` call extends what the batch records by that call. -/
theorem records_step {decode : String → Except String AccAddress} {d d1 : distributionInfo}
    {calls : List (PeriodLock × Coins)} {lock : PeriodLock} {rewards : Coins}
    (hrec : Records decode d calls)
    (h : d.addLockRewards decode lock rewards = (d1, .ok ())) :
    Records decode d1 (calls ++ [(lock, rewards)]) := by
  obtain ⟨⟨hl1, hl2, hl3, hmap⟩, hown, hdec, hcoins⟩ := hrec
  simp only [List.get?_eq_getElem?] at hmap hcoins
  unfold Records BatchInvariant
  simp only [List.get?_eq_getElem?]
  unfold distributionInfo.addLockRewards at h
  cases hlook : d.lockOwnerAddrToID.lookup lock.Owner with
  | some id =>
    simp only [hlook, List.get?_eq_getElem?] at h
    have hb : d.idToBech32Addr[id]? = some lock.Owner := (hmap _ _).mp hlook
    cases hget : d.idToDistrCoins[id]? with
    | none => simp [hget] at h
    | some old =>
      simp only [hget, Prod.mk.injEq, and_true] at h
      subst h
      have hmem : lock.Owner ∈ calls.map (fun p => p.1.Owner) := by
        rw [← mem_distinctOwners, ← hown]; exact List.getElem?_mem hb
      have hidlt : id < d.idToDistrCoins.length := by
        obtain ⟨hlt, _⟩ := List.getElem?_eq_some.mp hget
        exact hlt
      refine ⟨⟨hl1, hl2, by simpa using hl3, hmap⟩, ?_, hdec, ?_⟩
      · simp only [List.map_append, List.map_cons, List.map_nil]
        rw [distinctOwners_append_singleton, if_pos hmem]
        exact hown
      · intro i a hia
        by_cases hi : id = i
        · subst hi
          have hao : lock.Owner = a := by
            rw [hb] at hia; injection hia
          subst hao
          obtain ⟨coins, hc1, hc2⟩ := hcoins id _ hb
          rw [hget] at hc1
          injection hc1 with hc1
          subst hc1
          refine ⟨Coins.Add rewards old, List.getElem?_set_self hidlt, fun den => ?_⟩
          rw [amount_Add, rewardsOf_append, if_pos rfl, hc2]
          omega
        · obtain ⟨coins, hc1, hc2⟩ := hcoins i a hia
          have hne : lock.Owner ≠ a := by
            intro e
            subst e
            have := (hmap _ _).mpr hia
            rw [hlook] at this
            injection this with this
            exact hi this
          refine ⟨coins, ?_, fun den => ?_⟩
          · show (d.idToDistrCoins.set id (Coins.Add rewards old))[i]? = some coins
            rw [List.getElem?_set_ne hi]; exact hc1
          · rw [rewardsOf_append, if_neg hne, hc2]; rfl
  | none =>
    simp only [hlook] at h
    cases hd : decode lock.Owner with
    | error e => simp [hd] at h
    | ok addr =>
      simp only [hd, Prod.mk.injEq, and_true] at h
      subst h
      have hnotin : lock.Owner ∉ d.idToBech32Addr := by
        intro hin
        obtain ⟨i, hi⟩ := List.getElem?_of_mem hin
        have := (hmap _ _).mpr hi
        rw [hlook] at this
        cases this
      have hnotmem : lock.Owner ∉ calls.map (fun p => p.1.Owner) := by
        rw [← mem_distinctOwners, ← hown]; exact hnotin
      refine ⟨⟨by simp [hl1], by simp [hl2], by simp [hl3], fun a i => ?_⟩, ?_, ?_, ?_⟩
      · show List.lookup a ((lock.Owner, d.nextID) :: d.lockOwnerAddrToID) = some i
          ↔ (d.idToBech32Addr ++ [lock.Owner])[i]? = some a
        rw [getElem?_append_singleton, List.lookup_cons]
        by_cases ha : a = lock.Owner
        · subst ha
          simp only [beq_self_eq_true, Option.some.injEq, and_true]
          constructor
          · intro h; right; omega
          · rintro (h | h)
            · exact absurd (List.getElem?_mem h) hnotin
            · omega
        · have hbeq : (a == lock.Owner) = false := by simpa using ha
          simp only [hbeq, hmap]
          constructor
          · exact Or.inl
          · rintro (h | ⟨_, h⟩)
            · exact h
            · exact absurd h.symm ha
      · show d.idToBech32Addr ++ [lock.Owner] = _
        simp only [List.map_append, List.map_cons, List.map_nil]
        rw [distinctOwners_append_singleton, if_neg hnotmem, hown]
      · show List.Forall₂ _ (d.idToBech32Addr ++ [lock.Owner]) (d.idToDecodedAddr ++ [addr])
        exact List.rel_append hdec (List.Forall₂.cons hd List.Forall₂.nil)
      · intro i a hia
        have hia1 : (d.idToBech32Addr ++ [lock.Owner])[i]? = some a := hia
        rw [getElem?_append_singleton] at hia1
        show ∃ coins, (d.idToDistrCoins ++ [rewards])[i]? = some coins ∧ _
        rcases hia1 with h | ⟨h1, h2⟩
        · obtain ⟨coins, hc1, hc2⟩ := hcoins i a h
          have hne : lock.Owner ≠ a := fun e => hnotin (e ▸ List.getElem?_mem h)
          refine ⟨coins, (getElem?_append_singleton _ _ _ _).mpr (Or.inl hc1), fun den => ?_⟩
          rw [rewardsOf_append, if_neg hne, hc2]; rfl
        · subst h2
          refine ⟨rewards, (getElem?_append_singleton _ _ _ _).mpr
            (Or.inr ⟨by rw [h1, hl1, hl3], rfl⟩), fun den => ?_⟩
          rw [rewardsOf_append, if_pos rfl, rewardsOf_eq_zero hnotmem, Nat.zero_add]

theorem records_all {decode : String → Except String AccAddress} {d d1 : distributionInfo}
    {prev calls : List (PeriodLock × Coins)}
    (hrec : Records decode d prev)
    (h : addLockRewardsAll decode d calls = (d1, .ok ())) :
    Records decode d1 (prev ++ calls) := by
  induction calls generalizing d prev with
  | nil =>
    simp only [addLockRewardsAll, Prod.mk.injEq, and_true] at h
    subst h
    simpa using hrec
  | cons c rest ih =>
    obtain ⟨lock, rewards⟩ := c
    simp only [addLockRewardsAll] at h
    split at h
    · simp at h
    · next d2 u hadd =>
      have := ih (records_step hrec hadd) h
      simpa using this

/-- C9: for every sequence of successful `addLockRewards` calls starting from
`newDistributionInfo` and every owner in it, the owner has one id, and the coin set stored
at that id holds, in every denom, the sum of all the rewards added for that owner; no
other entry of the batch belongs to the owner. -/
theorem addLockRewards_aggregates (decode : String → Except String AccAddress)
    (calls : List (PeriodLock × Coins)) (d : distributionInfo)
    (h : addLockRewardsAll decode newDistributionInfo calls = (d, .ok ()))
    (owner : String) (ho : owner ∈ calls.map (fun p => p.1.Owner)) :
    ∃ (id : Nat) (coins : Coins),
      d.lockOwnerAddrToID.lookup owner = some id
      ∧ d.idToDistrCoins.get? id = some coins
      ∧ (∀ denom, Coins.AmountOfNoDenomValidation coins denom
          = ((calls.filter (fun p => p.1.Owner = owner)).map
              (fun p => Coins.AmountOfNoDenomValidation p.2 denom)).sum)
      ∧ ∀ j, d.idToBech32Addr.get? j = some owner ↔ j = id := by
  have hrec := records_all (records_new decode) h
  rw [List.nil_append] at hrec
  obtain ⟨⟨_, _, _, hmap⟩, hown, _, hcoins⟩ := hrec
  have hin : owner ∈ d.idToBech32Addr := by
    rw [hown]; exact mem_distinctOwners.mpr ho
  obtain ⟨id, hid⟩ := List.get?_of_mem hin
  obtain ⟨coins, hc1, hc2⟩ := hcoins id owner hid
  refine ⟨id, coins, (hmap _ _).mpr hid, hc1, hc2, fun j => ⟨fun hj => ?_, fun hj => hj ▸ hid⟩⟩
  have h1 := (hmap _ _).mpr hj
  have h2 := (hmap _ _).mpr hid
  rw [h1] at h2
  injection h2

theorem exists_of_forall₂_right {α β : Type} {R : α → β → Prop} {l1 : List α} {l2 : List β}
    (h : List.Forall₂ R l1 l2) {x : β} (hx : x ∈ l2) : ∃ b ∈ l1, R b x := by
  induction h with
  | nil => cases hx
  | @cons a y as ys hay _ ih =>
    rcases List.mem_cons.mp hx with e | hmem
    · subst e; exact ⟨a, List.mem_cons_self _ _, hay⟩
    · obtain ⟨b, hb, hbx⟩ := ih hmem
      exact ⟨b, List.mem_cons_of_mem _ hb, hbx⟩

theorem nodup_of_forall₂ {α β : Type} {R : α → β → Prop} {l1 : List α} {l2 : List β}
    (h : List.Forall₂ R l1 l2) (hnd : l1.Nodup)
    (hinj : ∀ a b x, R a x → R b x → a = b) : l2.Nodup := by
  induction h with
  | nil => exact List.nodup_nil
  | @cons a x as xs hax hrest ih =>
    rw [List.nodup_cons] at hnd ⊢
    refine ⟨fun hx => ?_, ih hnd.2⟩
    obtain ⟨b, hb, hbx⟩ := exists_of_forall₂_right hrest hx
    exact hnd.1 (hinj a b x hax hbx ▸ hb)

/-- C10: for every sequence of successful `addLockRewards` calls starting from
`newDistributionInfo`, `idToBech32Addr` is the list of the distinct owners in order of first
appearance; it has no duplicates, and it, the decoded addresses and the coin sets handed to
the bank all have exactly as many entries as there are distinct owners, entry by entry the
decoding of the owner (so without duplicates too when no two owners decode alike). -/
theorem addLockRewards_recipients (decode : String → Except String AccAddress)
    (calls : List (PeriodLock × Coins)) (d : distributionInfo)
    (h : addLockRewardsAll decode newDistributionInfo calls = (d, .ok ())) :
    d.idToBech32Addr = distinctOwners (calls.map (fun p => p.1.Owner))
      ∧ d.idToBech32Addr.Nodup
      ∧ d.idToBech32Addr.length = (calls.map (fun p => p.1.Owner)).toFinset.card
      ∧ d.idToDecodedAddr.length = (calls.map (fun p => p.1.Owner)).toFinset.card
      ∧ d.idToDistrCoins.length = (calls.map (fun p => p.1.Owner)).toFinset.card
      ∧ List.Forall₂ (fun a addr => decode a = .ok addr) d.idToBech32Addr d.idToDecodedAddr
      ∧ ((∀ a b addr, decode a = .ok addr → decode b = .ok addr → a = b) →
          d.idToDecodedAddr.Nodup) := by
  have hrec := records_all (records_new decode) h
  rw [List.nil_append] at hrec
  obtain ⟨⟨hl1, hl2, hl3, _⟩, hown, hdec, _⟩ := hrec
  have hcard : d.idToBech32Addr.length = (calls.map (fun p => p.1.Owner)).toFinset.card := by
    rw [hown, ← List.toFinset_card_of_nodup (distinctOwners_nodup _)]
    congr 1
    ext a
    simp only [List.mem_toFinset]
    exact mem_distinctOwners
  have hnd : d.idToBech32Addr.Nodup := hown ▸ distinctOwners_nodup _
  refine ⟨hown, hnd, hcard, ?_, ?_, hdec, fun hinj => nodup_of_forall₂ hdec hnd hinj⟩
  · rw [hl2, ← hl1, hcard]
  · rw [hl3, ← hl1, hcard]

/-! ## The batch invariant -/

theorem batchInvariant_new : BatchInvariant newDistributionInfo := by
  refine ⟨rfl, rfl, rfl, fun a i => ?_⟩
  simp [newDistributionInfo]

/-- A call of `addLockRewards` on a batch that satisfies the invariant cannot panic:
it returns no error, or the decoder's error for an owner the table does not hold. -/
theorem addLockRewards_cases (decode : String → Except String AccAddress)
    {d : distributionInfo} (hinv : BatchInvariant d) (lock : PeriodLock) (rewards : Coins) :
    (d.addLockRewards decode lock rewards).2 = .ok ()
      ∨ ∃ e, decode lock.Owner = .error e
          ∧ d.lockOwnerAddrToID.lookup lock.Owner = none
          ∧ d.addLockRewards decode lock rewards
              = ({ d with nextID := d.nextID + 1,
                          lockOwnerAddrToID := (lock.Owner, d.nextID) :: d.lockOwnerAddrToID },
                  .error (.error e)) := by
  obtain ⟨hl1, _, hl3, hmap⟩ := hinv
  simp only [List.get?_eq_getElem?] at hmap
  unfold distributionInfo.addLockRewards
  cases hlook : d.lockOwnerAddrToID.lookup lock.Owner with
  | some id =>
    left
    have hb : d.idToBech32Addr[id]? = some lock.Owner := (hmap _ _).mp hlook
    obtain ⟨hlt, _⟩ := List.getElem?_eq_some.mp hb
    have hlt3 : id < d.idToDistrCoins.length := by omega
    simp only [List.get?_eq_getElem?, List.getElem?_eq_getElem hlt3]
  | none =>
    cases hd : decode lock.Owner with
    | error e => right; exact ⟨e, rfl, rfl, rfl⟩
    | ok addr => left; rfl

theorem batchInvariant_step {decode : String → Except String AccAddress}
    {d d1 : distributionInfo} {lock : PeriodLock} {rewards : Coins}
    (hinv : BatchInvariant d)
    (h : d.addLockRewards decode lock rewards = (d1, .ok ())) : BatchInvariant d1 := by
  obtain ⟨hl1, hl2, hl3, hmap⟩ := hinv
  simp only [List.get?_eq_getElem?] at hmap
  unfold BatchInvariant
  simp only [List.get?_eq_getElem?]
  unfold distributionInfo.addLockRewards at h
  cases hlook : d.lockOwnerAddrToID.lookup lock.Owner with
  | some id =>
    simp only [hlook, List.get?_eq_getElem?] at h
    cases hget : d.idToDistrCoins[id]? with
    | none => simp [hget] at h
    | some old =>
      simp only [hget, Prod.mk.injEq, and_true] at h
      subst h
      exact ⟨hl1, hl2, by simpa using hl3, hmap⟩
  | none =>
    simp only [hlook] at h
    cases hd : decode lock.Owner with
    | error e => simp [hd] at h
    | ok addr =>
      simp only [hd, Prod.mk.injEq, and_true] at h
      subst h
      have hnotin : lock.Owner ∉ d.idToBech32Addr := by
        intro hin
        obtain ⟨i, hi⟩ := List.getElem?_of_mem hin
        have := (hmap _ _).mpr hi
        rw [hlook] at this
        cases this
      refine ⟨by simp [hl1], by simp [hl2], by simp [hl3], fun a i => ?_⟩
      show List.lookup a ((lock.Owner, d.nextID) :: d.lockOwnerAddrToID) = some i
        ↔ (d.idToBech32Addr ++ [lock.Owner])[i]? = some a
      rw [getElem?_append_singleton, List.lookup_cons]
      by_cases ha : a = lock.Owner
      · subst ha
        simp only [beq_self_eq_true, Option.some.injEq, and_true]
        constructor
        · intro h; right; omega
        · rintro (h | h)
          · exact absurd (List.getElem?_mem h) hnotin
          · omega
      · have hbeq : (a == lock.Owner) = false := by simpa using ha
        simp only [hbeq, hmap]
        constructor
        · exact Or.inl
        · rintro (h | ⟨_, h⟩)
          · exact h
          · exact absurd h.symm ha

theorem batchInvariant_all {decode : String → Except String AccAddress}
    {d d1 : distributionInfo} {calls : List (PeriodLock × Coins)}
    (hinv : BatchInvariant d)
    (h : addLockRewardsAll decode d calls = (d1, .ok ())) : BatchInvariant d1 := by
  induction calls generalizing d with
  | nil =>
    simp only [addLockRewardsAll, Prod.mk.injEq, and_true] at h
    subst h
    exact hinv
  | cons c rest ih =>
    obtain ⟨lock, rewards⟩ := c
    simp only [addLockRewardsAll] at h
    split at h
    · simp at h
    · next d2 u hadd => exact ih (batchInvariant_step hinv hadd) h

/-- C11 (amended): the batch invariant holds for `newDistributionInfo` and is preserved
by every `addLockRewards` call that returns no error: the three sequences have the length
`nextID`, and the owner table maps `a` to `i` exactly when entry `i` of `idToBech32Addr` is
`a`.  A call on such a batch that does not return without error returns the decoder's error
for an owner that was not in the table, and leaves the three sequences as they were. -/
theorem addLockRewards_preserves_invariant (decode : String → Except String AccAddress)
    (d : distributionInfo) (lock : PeriodLock) (rewards : Coins) (hinv : BatchInvariant d) :
    BatchInvariant newDistributionInfo
      ∧ ((d.addLockRewards decode lock rewards).2 = .ok ()
          → BatchInvariant (d.addLockRewards decode lock rewards).1)
      ∧ ((d.addLockRewards decode lock rewards).2 ≠ .ok ()
          → (∃ e, decode lock.Owner = .error e
                ∧ (d.addLockRewards decode lock rewards).2 = .error (.error e))
            ∧ d.lockOwnerAddrToID.lookup lock.Owner = none
            ∧ (d.addLockRewards decode lock rewards).1.idToBech32Addr = d.idToBech32Addr
            ∧ (d.addLockRewards decode lock rewards).1.idToDecodedAddr = d.idToDecodedAddr
            ∧ (d.addLockRewards decode lock rewards).1.idToDistrCoins = d.idToDistrCoins) := by
  refine ⟨batchInvariant_new, fun hok => ?_, fun hne => ?_⟩
  · exact batchInvariant_step hinv (Prod.ext rfl hok)
  · rcases addLockRewards_cases decode hinv lock rewards with hok | ⟨e, he, hl, hr⟩
    · exact absurd hok hne
    · rw [hr]
      exact ⟨⟨e, he, rfl⟩, hl, rfl, rfl, rfl⟩

/-! ## Conservation in `Distribute` -/

theorem batchTotal_set {l : List Coins} {i : Nat} {old : Coins} (h : l[i]? = some old)
    (new : Coins) (denom : String) :
    batchTotal (l.set i new) denom + Coins.AmountOfNoDenomValidation old denom
      = batchTotal l denom + Coins.AmountOfNoDenomValidation new denom := by
  induction l generalizing i with
  | nil => simp at h
  | cons x xs ih =>
    cases i with
    | zero =>
      simp only [List.getElem?_cons_zero, Option.some.injEq] at h
      subst h
      simp only [batchTotal, List.set_cons_zero, List.map_cons, List.sum_cons]
      omega
    | succ n =>
      simp only [List.getElem?_cons_succ] at h
      have := ih h
      simp only [batchTotal, List.set_cons_succ, List.map_cons, List.sum_cons] at this ⊢
      omega

theorem addLockRewards_total {decode : String → Except String AccAddress}
    {d d1 : distributionInfo} {lock : PeriodLock} {rewards : Coins}
    (h : d.addLockRewards decode lock rewards = (d1, .ok ())) (denom : String) :
    batchTotal d1.idToDistrCoins denom
      = batchTotal d.idToDistrCoins denom + Coins.AmountOfNoDenomValidation rewards denom := by
  unfold distributionInfo.addLockRewards at h
  cases hlook : d.lockOwnerAddrToID.lookup lock.Owner with
  | some id =>
    simp only [hlook, List.get?_eq_getElem?] at h
    cases hget : d.idToDistrCoins[id]? with
    | none => simp [hget] at h
    | some old =>
      simp only [hget, Prod.mk.injEq, and_true] at h
      subst h
      have := batchTotal_set hget (Coins.Add rewards old) denom
      rw [amount_Add] at this
      simp only []
      omega
  | none =>
    simp only [hlook] at h
    cases hd : decode lock.Owner with
    | error e => simp [hd] at h
    | ok addr =>
      simp only [hd, Prod.mk.injEq, and_true] at h
      subst h
      simp [batchTotal]

theorem addLockRewardsAll_total {decode : String → Except String AccAddress}
    {d d1 : distributionInfo} {calls : List (PeriodLock × Coins)}
    (h : addLockRewardsAll decode d calls = (d1, .ok ())) (denom : String) :
    batchTotal d1.idToDistrCoins denom
      = batchTotal d.idToDistrCoins denom
        + (calls.map (fun p => Coins.AmountOfNoDenomValidation p.2 denom)).sum := by
  induction calls generalizing d with
  | nil =>
    simp only [addLockRewardsAll, Prod.mk.injEq, and_true] at h
    subst h
    simp
  | cons c rest ih =>
    obtain ⟨lock, rewards⟩ := c
    simp only [addLockRewardsAll] at h
    split at h
    · simp at h
    · next d2 u hadd =>
      rw [ih h, addLockRewards_total hadd]
      simp only [List.map_cons, List.sum_cons]
      omega

/-- A successful `distributeInternal` either does nothing and returns no coins, or
persists the advanced gauge; either way the batch grows by exactly the returned total. -/
theorem distributeInternal_total {k : Keeper} {gauge : Gauge} {locks : List PeriodLock}
    {info : distributionInfo} {total : Coins}
    (h : (distributeInternal k gauge locks info).ret = .ok total) :
    ((distributeInternal k gauge locks info).effects = [] ∧ total = []
        ∨ (distributeInternal k gauge locks info).effects
            = [Effect.setGauge (advanceGauge gauge total)])
      ∧ ∀ denom, batchTotal (distributeInternal k gauge locks info).distrInfo.idToDistrCoins denom
          = batchTotal info.idToDistrCoins denom
            + Coins.AmountOfNoDenomValidation total denom := by
  cases hsum : SumLocksByDenom locks (NativeDenom gauge.DistributeTo.Denom) with
  | error e =>
    unfold distributeInternal at h
    simp [hsum] at h
  | ok lockSum =>
    by_cases hz : lockSum = 0
    · have hres : distributeInternal k gauge locks info = ⟨info, [], .ok []⟩ := by
        unfold distributeInternal
        simp only [hsum, hz, if_true]
      rw [hres] at h ⊢
      simp only [Except.ok.injEq] at h
      subst h
      exact ⟨Or.inl ⟨rfl, rfl⟩, fun denom => by simp [amount_nil]⟩
    · obtain ⟨_, allocs, _, hall, hbatch, htot, heff⟩ :=
        distributeInternal_ok hsum (Nat.pos_of_ne_zero hz) h
      refine ⟨Or.inr heff, fun denom => ?_⟩
      rw [addLockRewardsAll_total hbatch denom, htot denom, nonEmptyAllocations_sum hall denom]

theorem distributeGaugesLoop_ok {k : Keeper} {gauges : List Gauge}
    {cache : List (String × List PeriodLock)} {info : distributionInfo} {total0 total : Coins}
    (h : (distributeGaugesLoop k gauges cache info total0).ret = .ok total) :
    ∃ pairs : List (Gauge × Coins),
      (pairs.map Prod.fst).Sublist gauges
      ∧ (distributeGaugesLoop k gauges cache info total0).effects
          = pairs.map (fun p => Effect.setGauge (advanceGauge p.1 p.2))
      ∧ ∀ denom,
          Coins.AmountOfNoDenomValidation total denom
            = Coins.AmountOfNoDenomValidation total0 denom
              + (pairs.map (fun p => Coins.AmountOfNoDenomValidation p.2 denom)).sum
          ∧ batchTotal (distributeGaugesLoop k gauges cache info total0).distrInfo.idToDistrCoins
              denom + Coins.AmountOfNoDenomValidation total0 denom
            = batchTotal info.idToDistrCoins denom
              + Coins.AmountOfNoDenomValidation total denom := by
  induction gauges generalizing cache info total0 with
  | nil =>
    simp only [distributeGaugesLoop, Except.ok.injEq] at h ⊢
    subst h
    exact ⟨[], List.Sublist.refl _, rfl, fun denom => ⟨by simp, by omega⟩⟩
  | cons gauge rest ih =>
    simp only [distributeGaugesLoop] at h ⊢
    cases hc : cachedLocks k cache gauge with
    | error e => simp [hc] at h
    | ok cl =>
      obtain ⟨cache1, allLocks⟩ := cl
      simp only [hc] at h ⊢
      cases hr : (distributeInternal k gauge
          (FilterLocksByMinDuration allLocks gauge.DistributeTo.Duration) info).ret with
      | error e => simp [hr] at h
      | ok t =>
        simp only [hr] at h ⊢
        obtain ⟨pairs, hsub, heff, hsum⟩ := ih h
        obtain ⟨hcase, hbt⟩ := distributeInternal_total hr
        rcases hcase with ⟨he, ht⟩ | he
        · refine ⟨pairs, hsub.trans (List.sublist_cons_self _ _), ?_, fun denom => ?_⟩
          · rw [he, heff]; rfl
          · obtain ⟨h1, h2⟩ := hsum denom
            have h3 := hbt denom
            rw [amount_Add] at h1 h2
            subst ht
            rw [amount_nil] at h1 h2 h3
            exact ⟨by omega, by omega⟩
        · refine ⟨(gauge, t) :: pairs, ?_, ?_, fun denom => ?_⟩
          · exact hsub.cons₂ _
          · rw [he, heff]; rfl
          · obtain ⟨h1, h2⟩ := hsum denom
            have h3 := hbt denom
            rw [amount_Add] at h1 h2
            simp only [List.map_cons, List.sum_cons]
            exact ⟨by omega, by omega⟩

theorem distributionEvents_effects (d : distributionInfo) (ids : List Nat) :
    persistedGauges (distributionEvents d ids).1 = []
      ∧ bankCalls (distributionEvents d ids).1 = [] := by
  induction ids with
  | nil => exact ⟨rfl, rfl⟩
  | cons id rest ih =>
    unfold distributionEvents
    split
    · simpa [persistedGauges, bankCalls] using ih
    · exact ⟨rfl, rfl⟩

theorem doDistributionSends_effects {k : Keeper} {d : distributionInfo}
    (h : (doDistributionSends k d).2 = .ok ()) :
    persistedGauges (doDistributionSends k d).1 = []
      ∧ bankCalls (doDistributionSends k d).1 = [(d.idToDecodedAddr, d.idToDistrCoins)] := by
  unfold doDistributionSends at h ⊢
  cases hb : k.SendCoinsFromModuleToManyAccounts d.idToDecodedAddr d.idToDistrCoins with
  | some err => simp [hb] at h
  | none =>
    simp only [hb]
    obtain ⟨h1, h2⟩ := distributionEvents_effects d (List.range d.idToDecodedAddr.length)
    constructor
    · simpa [persistedGauges] using h1
    · simpa [bankCalls] using h2

theorem persistedGauges_append (a b : List Effect) :
    persistedGauges (a ++ b) = persistedGauges a ++ persistedGauges b := by
  simp [persistedGauges, List.filterMap_append]

theorem bankCalls_append (a b : List Effect) :
    bankCalls (a ++ b) = bankCalls a ++ bankCalls b := by
  simp [bankCalls, List.filterMap_append]

theorem setGauge_effects (pairs : List (Gauge × Coins)) :
    persistedGauges (pairs.map (fun p => Effect.setGauge (advanceGauge p.1 p.2)))
        = pairs.map (fun p => advanceGauge p.1 p.2)
      ∧ bankCalls (pairs.map (fun p => Effect.setGauge (advanceGauge p.1 p.2))) = [] := by
  induction pairs with
  | nil => exact ⟨rfl, rfl⟩
  | cons p rest ih =>
    obtain ⟨h1, h2⟩ := ih
    constructor
    · simp only [persistedGauges, List.map_cons, List.filterMap_cons] at h1 ⊢
      rw [h1]
    · simp only [bankCalls, List.map_cons, List.filterMap_cons] at h2 ⊢
      rw [h2]

/-- C7: conservation for one epoch: when `Distribute` succeeds there is exactly one bank
call, and in every denom the coin sets passed to it sum to the total `Distribute` returns,
which is also the sum, over the gauges persisted, of the increase of `DistributedCoins`
between the input gauge and the gauge written for it. -/
theorem Distribute_conservation (k : Keeper) (gauges : List Gauge) (total : Coins)
    (h : (Distribute k gauges).ret = .ok total) :
    ∃ (persisted : List (Gauge × Gauge)) (addrs : List AccAddress) (coins : List Coins),
      (persisted.map Prod.fst).Sublist gauges
      ∧ persistedGauges (Distribute k gauges).effects = persisted.map Prod.snd
      ∧ (∀ p ∈ persisted, ∃ t, p.2 = { p.1 with
            FilledEpochs := (p.1.FilledEpochs + 1) % 2 ^ 64,
            DistributedCoins := Coins.Add p.1.DistributedCoins t })
      ∧ bankCalls (Distribute k gauges).effects = [(addrs, coins)]
      ∧ ∀ denom,
          (coins.map (fun c => Coins.AmountOfNoDenomValidation c denom)).sum
            = Coins.AmountOfNoDenomValidation total denom
          ∧ (persisted.map (fun p =>
                Coins.AmountOfNoDenomValidation p.2.DistributedCoins denom
                  - Coins.AmountOfNoDenomValidation p.1.DistributedCoins denom)).sum
            = Coins.AmountOfNoDenomValidation total denom := by
  unfold Distribute at h ⊢
  cases hr : (distributeGaugesLoop k gauges [] newDistributionInfo []).ret with
  | error e => simp [hr] at h
  | ok t =>
    simp only [hr] at h ⊢
    cases hs : doDistributionSends k (distributeGaugesLoop k gauges [] newDistributionInfo
        []).distrInfo with
    | mk effects res =>
      cases res with
      | error e => simp [hs] at h
      | ok u =>
        simp only [hs, Except.ok.injEq] at h ⊢
        subst h
        obtain ⟨pairs, hsub, heff, hsum⟩ := distributeGaugesLoop_ok hr
        have hsend := doDistributionSends_effects (k := k)
          (d := (distributeGaugesLoop k gauges [] newDistributionInfo []).distrInfo)
          (by rw [hs])
        rw [hs] at hsend
        obtain ⟨hs1, hs2⟩ := hsend
        obtain ⟨hp1, hp2⟩ := setGauge_effects pairs
        refine ⟨pairs.map (fun p => (p.1, advanceGauge p.1 p.2)),
          (distributeGaugesLoop k gauges [] newDistributionInfo []).distrInfo.idToDecodedAddr,
          (distributeGaugesLoop k gauges [] newDistributionInfo []).distrInfo.idToDistrCoins,
          ?_, ?_, ?_, ?_, ?_⟩
        · simpa [List.map_map] using hsub
        · rw [persistedGauges_append, persistedGauges_append, heff, hp1, hs1]
          simp [persistedGauges, List.map_map]
        · intro p hp
          obtain ⟨q, _, rfl⟩ := List.mem_map.mp hp
          exact ⟨q.2, rfl⟩
        · rw [bankCalls_append, bankCalls_append, heff, hp2, hs2]
          simp [bankCalls]
        · intro denom
          obtain ⟨h1, h2⟩ := hsum denom
          constructor
          · have : batchTotal newDistributionInfo.idToDistrCoins denom = 0 := rfl
            rw [this, amount_nil] at h2
            unfold batchTotal at h2
            omega
          · rw [h1, amount_nil, Nat.zero_add, List.map_map]
            congr 1
            apply List.map_congr_left
            intro p _
            simp only [Function.comp, advanceGauge]
            rw [amount_Add]
            omega

/-! ## The effects of `Distribute` -/

theorem distributionEvents_ok (d : distributionInfo) (ids : List Nat)
    (h : ∀ id ∈ ids, id < d.idToBech32Addr.length ∧ id < d.idToDistrCoins.length) :
    distributionEvents d ids
      = (ids.map (fun id => Effect.distributionEvent (d.idToBech32Addr.getD id "")
          (d.idToDistrCoins.getD id [])), .ok ()) := by
  induction ids with
  | nil => rfl
  | cons id rest ih =>
    have hid := h id (List.mem_cons_self _ _)
    have ih1 := ih (fun i hi => h i (List.mem_cons_of_mem _ hi))
    unfold distributionEvents
    simp only [List.get?_eq_getElem?, List.getElem?_eq_getElem hid.1,
      List.getElem?_eq_getElem hid.2, ih1, List.map_cons, List.getD,
      Option.getD_some]

theorem range_map_eq_zipWith {α β γ : Type} (f : α → β → γ) (l1 : List α) (l2 : List β)
    (a : α) (b : β) (h : l1.length = l2.length) :
    (List.range l1.length).map (fun i => f (l1.getD i a) (l2.getD i b))
      = List.zipWith f l1 l2 := by
  apply List.ext_getElem
  · simp [h]
  · intro i h1 h2
    simp at h1 h2
    simp [List.getD, List.getElem?_eq_getElem, h1, h2.1, h2.2]

/-- On a batch that satisfies the invariant `doDistributionSends` makes the bank call and
then, unless the bank returned an error, emits one event per entry, in order. -/
theorem doDistributionSends_of_invariant (k : Keeper) {d : distributionInfo}
    (hinv : BatchInvariant d) :
    (k.SendCoinsFromModuleToManyAccounts d.idToDecodedAddr d.idToDistrCoins = none →
        doDistributionSends k d
          = (Effect.SendCoinsFromModuleToManyAccounts d.idToDecodedAddr d.idToDistrCoins
              :: List.zipWith Effect.distributionEvent d.idToBech32Addr d.idToDistrCoins,
             .ok ()))
      ∧ (∀ err, k.SendCoinsFromModuleToManyAccounts d.idToDecodedAddr d.idToDistrCoins
            = some err →
          doDistributionSends k d
            = ([Effect.SendCoinsFromModuleToManyAccounts d.idToDecodedAddr d.idToDistrCoins],
               .error (.error err))) := by
  obtain ⟨hl1, hl2, hl3, _⟩ := hinv
  constructor
  · intro hb
    unfold doDistributionSends
    simp only [hb]
    have hev := distributionEvents_ok d (List.range d.idToDecodedAddr.length) (by
      intro id hid
      rw [List.mem_range] at hid
      omega)
    rw [hev]
    have hlen : d.idToDecodedAddr.length = d.idToBech32Addr.length := by omega
    rw [hlen, range_map_eq_zipWith Effect.distributionEvent d.idToBech32Addr d.idToDistrCoins
      "" [] (by omega)]
  · intro err hb
    unfold doDistributionSends
    simp only [hb]

theorem distributeInternal_added {k : Keeper} {gauge : Gauge} {locks : List PeriodLock}
    {info : distributionInfo} {total : Coins}
    (h : (distributeInternal k gauge locks info).ret = .ok total) :
    ∃ added, addLockRewardsAll k.AccAddressFromBech32 info added
      = ((distributeInternal k gauge locks info).distrInfo, .ok ()) := by
  cases hsum : SumLocksByDenom locks (NativeDenom gauge.DistributeTo.Denom) with
  | error e =>
    unfold distributeInternal at h
    simp [hsum] at h
  | ok lockSum =>
    by_cases hz : lockSum = 0
    · have hres : distributeInternal k gauge locks info = ⟨info, [], .ok []⟩ := by
        unfold distributeInternal
        simp only [hsum, hz, if_true]
      rw [hres]
      exact ⟨[], rfl⟩
    · obtain ⟨_, allocs, _, _, hbatch, _, _⟩ :=
        distributeInternal_ok hsum (Nat.pos_of_ne_zero hz) h
      exact ⟨_, hbatch⟩

theorem distributeInternal_effects_shape {k : Keeper} {gauge : Gauge}
    {locks : List PeriodLock} {info : distributionInfo} {e : Effect}
    (he : e ∈ (distributeInternal k gauge locks info).effects) : ∃ g, e = Effect.setGauge g := by
  obtain ⟨lockSum, total, hsum, hpos, h⟩ := distributeInternal_effects he
  obtain ⟨_, _, _, _, _, _, heff⟩ := distributeInternal_ok hsum hpos h
  rw [heff, List.mem_singleton] at he
  exact ⟨_, he⟩

theorem distributeGaugesLoop_effects_shape (k : Keeper) (gauges : List Gauge)
    (cache : List (String × List PeriodLock)) (info : distributionInfo) (total0 : Coins) :
    ∀ e ∈ (distributeGaugesLoop k gauges cache info total0).effects,
      ∃ g, e = Effect.setGauge g := by
  induction gauges generalizing cache info total0 with
  | nil => intro e he; simp [distributeGaugesLoop] at he
  | cons gauge rest ih =>
    intro e he
    simp only [distributeGaugesLoop] at he
    cases hc : cachedLocks k cache gauge with
    | error f => simp [hc] at he
    | ok cl =>
      obtain ⟨cache1, allLocks⟩ := cl
      simp only [hc] at he
      cases hr : (distributeInternal k gauge
          (FilterLocksByMinDuration allLocks gauge.DistributeTo.Duration) info).ret with
      | error f =>
        simp only [hr] at he
        exact distributeInternal_effects_shape he
      | ok t =>
        simp only [hr, List.mem_append] at he
        rcases he with he | he
        · exact distributeInternal_effects_shape he
        · exact ih _ _ _ e he

theorem distributeGaugesLoop_invariant {k : Keeper} {gauges : List Gauge}
    {cache : List (String × List PeriodLock)} {info : distributionInfo} {total0 total : Coins}
    (hinv : BatchInvariant info)
    (h : (distributeGaugesLoop k gauges cache info total0).ret = .ok total) :
    BatchInvariant (distributeGaugesLoop k gauges cache info total0).distrInfo := by
  induction gauges generalizing cache info total0 with
  | nil => exact hinv
  | cons gauge rest ih =>
    simp only [distributeGaugesLoop] at h ⊢
    cases hc : cachedLocks k cache gauge with
    | error e => simp [hc] at h
    | ok cl =>
      obtain ⟨cache1, allLocks⟩ := cl
      simp only [hc] at h ⊢
      cases hr : (distributeInternal k gauge
          (FilterLocksByMinDuration allLocks gauge.DistributeTo.Duration) info).ret with
      | error e => simp [hr] at h
      | ok t =>
        simp only [hr] at h ⊢
        obtain ⟨added, hadd⟩ := distributeInternal_added hr
        exact ih (batchInvariant_all hinv hadd) h

/-- C12: when every gauge has been processed (the loop of `Distribute` returned `total`,
leaving the batch `batch` after the store writes `writes`), the effects that follow are, in
this order: one bank call with the batch's `idToDecodedAddr` and `idToDistrCoins`, then one
distribution event per recipient in insertion order with its bech32 address and its coins,
then the `AfterEpochDistribution` hook, and `Distribute` returns `total`; if the bank call
returns an error there is no event and no hook call and `Distribute` returns that error.
`Distribute` succeeds exactly when the bank call returns no error. -/
theorem Distribute_effects_order (k : Keeper) (gauges : List Gauge) (batch : distributionInfo)
    (writes : List Effect) (total : Coins)
    (hloop : distributeGaugesLoop k gauges [] newDistributionInfo []
      = ⟨batch, writes, .ok total⟩) :
    (∀ e ∈ writes, ∃ g, e = Effect.setGauge g)
      ∧ batch.idToBech32Addr.length = batch.idToDecodedAddr.length
      ∧ batch.idToDistrCoins.length = batch.idToDecodedAddr.length
      ∧ (k.SendCoinsFromModuleToManyAccounts batch.idToDecodedAddr batch.idToDistrCoins = none →
          Distribute k gauges
            = ⟨writes
                ++ [Effect.SendCoinsFromModuleToManyAccounts batch.idToDecodedAddr
                      batch.idToDistrCoins]
                ++ List.zipWith Effect.distributionEvent batch.idToBech32Addr
                      batch.idToDistrCoins
                ++ [Effect.AfterEpochDistribution],
               .ok total⟩)
      ∧ (∀ err, k.SendCoinsFromModuleToManyAccounts batch.idToDecodedAddr batch.idToDistrCoins
            = some err →
          Distribute k gauges
            = ⟨writes
                ++ [Effect.SendCoinsFromModuleToManyAccounts batch.idToDecodedAddr
                      batch.idToDistrCoins],
               .error (.error err)⟩)
      ∧ ((Distribute k gauges).ret = .ok total
          ↔ k.SendCoinsFromModuleToManyAccounts batch.idToDecodedAddr batch.idToDistrCoins
              = none) := by
  have hinv : BatchInvariant batch := by
    have := @distributeGaugesLoop_invariant k gauges [] newDistributionInfo [] total
      batchInvariant_new (by rw [hloop])
    rw [hloop] at this
    exact this
  have hshape := distributeGaugesLoop_effects_shape k gauges [] newDistributionInfo []
  rw [hloop] at hshape
  obtain ⟨hsend1, hsend2⟩ := doDistributionSends_of_invariant k hinv
  obtain ⟨hl1, hl2, hl3, _⟩ := hinv
  have hok : k.SendCoinsFromModuleToManyAccounts batch.idToDecodedAddr batch.idToDistrCoins
      = none → Distribute k gauges
        = ⟨writes
            ++ [Effect.SendCoinsFromModuleToManyAccounts batch.idToDecodedAddr
                  batch.idToDistrCoins]
            ++ List.zipWith Effect.distributionEvent batch.idToBech32Addr batch.idToDistrCoins
            ++ [Effect.AfterEpochDistribution],
           .ok total⟩ := by
    intro hb
    unfold Distribute
    simp only [hloop, hsend1 hb]
    simp
  have herr : ∀ err, k.SendCoinsFromModuleToManyAccounts batch.idToDecodedAddr
      batch.idToDistrCoins = some err → Distribute k gauges
        = ⟨writes
            ++ [Effect.SendCoinsFromModuleToManyAccounts batch.idToDecodedAddr
                  batch.idToDistrCoins],
           .error (.error err)⟩ := by
    intro err hb
    unfold Distribute
    simp only [hloop, hsend2 err hb]
  refine ⟨hshape, by omega, by omega, hok, herr, fun hret => ?_, fun hb => ?_⟩
  · cases hb : k.SendCoinsFromModuleToManyAccounts batch.idToDecodedAddr
        batch.idToDistrCoins with
    | none => rfl
    | some err =>
      rw [herr err hb] at hret
      cases hret
  · rw [hok hb]

/-! ## Failures of `addLockRewards` -/

theorem addLockRewards_error_iff (decode : String → Except String AccAddress)
    (d : distributionInfo) (lock : PeriodLock) (rewards : Coins) (e : String) :
    (d.addLockRewards decode lock rewards).2 = .error (.error e)
      ↔ d.lockOwnerAddrToID.lookup lock.Owner = none ∧ decode lock.Owner = .error e := by
  unfold distributionInfo.addLockRewards
  cases hlook : d.lockOwnerAddrToID.lookup lock.Owner with
  | some id =>
    simp only [false_and, iff_false]
    cases hget : d.idToDistrCoins.get? id with
    | none => simp
    | some old => simp
  | none =>
    cases hd : decode lock.Owner with
    | error f => simp
    | ok addr => simp

theorem distrCoinsLoop_error {denom : String} {lockSum remE : Nat} {lock : PeriodLock}
    {coins : List Coin} {acc : Coins} {f : Failure}
    (h : distrCoinsLoop denom lockSum remE lock coins acc = .error f) : ∃ m, f = .panic m := by
  induction coins generalizing acc with
  | nil => simp [distrCoinsLoop] at h
  | cons coin rest ih =>
    simp only [distrCoinsLoop, Quo] at h
    split at h
    · next f1 heq =>
      split at heq
      · injection heq with heq
        injection h with h
        exact ⟨_, h ▸ heq.symm⟩
      · cases heq
    · split at h
      · exact ih h
      · exact ih h

theorem lockDistrCoins_error {remain : Coins} {denom : String} {lockSum remE : Nat}
    {lock : PeriodLock} {f : Failure}
    (h : lockDistrCoins remain denom lockSum remE lock = .error f) : ∃ m, f = .panic m := by
  unfold lockDistrCoins at h
  split at h
  · next f1 heq =>
    injection h with h
    exact h ▸ distrCoinsLoop_error heq
  · cases h

theorem distributeLocksLoop_error {k : Keeper} {remain : Coins} {denom : String}
    {lockSum remE : Nat} {locks : List PeriodLock} {info info1 : distributionInfo}
    {total : Coins} {e : String}
    (h : distributeLocksLoop k remain denom lockSum remE locks info total
      = (info1, .error (.error e))) :
    ∃ lock ∈ locks, k.AccAddressFromBech32 lock.Owner = .error e := by
  induction locks generalizing info total with
  | nil => simp [distributeLocksLoop] at h
  | cons lock rest ih =>
    simp only [distributeLocksLoop] at h
    split at h
    · next f heq =>
      obtain ⟨m, hm⟩ := lockDistrCoins_error heq
      simp [hm] at h
    · next A hA =>
      split at h
      · obtain ⟨l, hl, hd⟩ := ih h
        exact ⟨l, List.mem_cons_of_mem _ hl, hd⟩
      · split at h
        · next info2 f hadd =>
          simp only [Prod.mk.injEq, Except.error.injEq] at h
          have h2 : (info.addLockRewards k.AccAddressFromBech32 lock A).2
              = .error (.error e) := by rw [hadd]; simp [h.2]
          exact ⟨lock, List.mem_cons_self _ _,
            ((addLockRewards_error_iff _ _ _ _ _).mp h2).2⟩
        · obtain ⟨l, hl, hd⟩ := ih h
          exact ⟨l, List.mem_cons_of_mem _ hl, hd⟩

theorem distributeInternal_error {k : Keeper} {gauge : Gauge} {locks : List PeriodLock}
    {info : distributionInfo} {e : String}
    (h : (distributeInternal k gauge locks info).ret = .error (.error e)) :
    ∃ lock ∈ locks, k.AccAddressFromBech32 lock.Owner = .error e := by
  unfold distributeInternal Coins.Sub at h
  simp only [] at h
  split at h
  · next f heq =>
    obtain ⟨m, hm⟩ := SumLocksByDenom_error heq
    subst hm
    simp at h
  · next lockSum _ =>
    split at h
    · simp at h
    · split at h
      · next f heq =>
        split at heq
        · cases heq
        · injection heq with heq
          subst heq
          simp at h
      · next remain _ =>
        split at h
        · next info1 f hloop =>
          simp only [Except.error.injEq] at h
          subst h
          exact distributeLocksLoop_error hloop
        · simp [setGauge] at h

theorem cachedLocks_error {k : Keeper} {cache : List (String × List PeriodLock)}
    {gauge : Gauge} {f : Failure} (h : cachedLocks k cache gauge = .error f) :
    ∃ m, f = .panic m := by
  unfold cachedLocks at h
  cases hl : cache.lookup gauge.DistributeTo.Denom with
  | some allLocks => simp [hl] at h
  | none =>
    simp only [hl] at h
    unfold getLocksToDistributionWithMaxDuration at h
    by_cases h1 : gauge.DistributeTo.LockQueryType = ByDuration
    · by_cases h2 : gauge.DistributeTo.Duration > Millisecond
      · simp [h1, h2] at h
      · simp [h1, h2] at h
    · by_cases h3 : gauge.DistributeTo.LockQueryType = ByTime
      · simp only [h1, h3, if_false, if_true] at h
        injection h with h
        exact ⟨_, h.symm⟩
      · simp [h1, h3] at h

theorem distributeGaugesLoop_error {k : Keeper} {gauges : List Gauge}
    {cache : List (String × List PeriodLock)} {info : distributionInfo} {total0 : Coins}
    {e : String}
    (h : (distributeGaugesLoop k gauges cache info total0).ret = .error (.error e)) :
    ∃ lock : PeriodLock, k.AccAddressFromBech32 lock.Owner = .error e := by
  induction gauges generalizing cache info total0 with
  | nil => simp [distributeGaugesLoop] at h
  | cons gauge rest ih =>
    simp only [distributeGaugesLoop] at h
    cases hc : cachedLocks k cache gauge with
    | error f =>
      simp only [hc, Except.error.injEq] at h
      obtain ⟨m, hm⟩ := cachedLocks_error hc
      rw [hm] at h
      cases h
    | ok cl =>
      obtain ⟨cache1, allLocks⟩ := cl
      simp only [hc] at h
      cases hr : (distributeInternal k gauge
          (FilterLocksByMinDuration allLocks gauge.DistributeTo.Duration) info).ret with
      | error f =>
        simp only [hr, Except.error.injEq] at h
        subst h
        obtain ⟨lock, _, hd⟩ := distributeInternal_error hr
        exact ⟨lock, hd⟩
      | ok t =>
        simp only [hr] at h
        exact ih h

/-- C13: a malformed owner address fails the epoch at batch insertion.  `addLockRewards`
returns the error `e` exactly when the owner is not in the owner table and its decoding
fails with `e`.  In the loop of `distributeInternal` a call that returns an error ends the
loop with that error, whatever locks remain, and `distributeInternal` then returns it
without a store write; in the loop of `Distribute` a gauge whose `distributeInternal`
fails ends the loop with that failure; and when the loop of `Distribute` ends with a
failure, `Distribute` returns it having made only store writes: no bank call, no
distribution event, no hook call.  An error returned by that loop is always the failed
decoding of some owner. -/
theorem addLockRewards_error_aborts (k : Keeper) :
    (∀ (d : distributionInfo) (lock : PeriodLock) (rewards : Coins) (e : String),
        (d.addLockRewards k.AccAddressFromBech32 lock rewards).2 = .error (.error e)
          ↔ d.lockOwnerAddrToID.lookup lock.Owner = none
            ∧ k.AccAddressFromBech32 lock.Owner = .error e)
    ∧ (∀ (remain : Coins) (denom : String) (lockSum remE : Nat) (lock : PeriodLock)
        (rest : List PeriodLock) (info info1 : distributionInfo) (total A : Coins) (e : String),
        lockDistrCoins remain denom lockSum remE lock = .ok A → Coins.Empty A = false →
        info.addLockRewards k.AccAddressFromBech32 lock A = (info1, .error (.error e)) →
        distributeLocksLoop k remain denom lockSum remE (lock :: rest) info total
          = (info1, .error (.error e)))
    ∧ (∀ (gauge : Gauge) (locks : List PeriodLock) (info info1 : distributionInfo)
        (lockSum : Nat) (remain : Coins) (f : Failure),
        SumLocksByDenom locks (NativeDenom gauge.DistributeTo.Denom) = .ok lockSum →
        lockSum ≠ 0 → Coins.Sub gauge.Coins gauge.DistributedCoins = .ok remain →
        distributeLocksLoop k remain (NativeDenom gauge.DistributeTo.Denom) lockSum
          (remainEpochs gauge) locks info [] = (info1, .error f) →
        distributeInternal k gauge locks info = ⟨info1, [], .error f⟩)
    ∧ (∀ (gauge : Gauge) (rest : List Gauge) (cache cache1 : List (String × List PeriodLock))
        (allLocks : List PeriodLock) (info : distributionInfo) (total0 : Coins) (f : Failure),
        cachedLocks k cache gauge = .ok (cache1, allLocks) →
        (distributeInternal k gauge
          (FilterLocksByMinDuration allLocks gauge.DistributeTo.Duration) info).ret = .error f →
        (distributeGaugesLoop k (gauge :: rest) cache info total0).ret = .error f)
    ∧ (∀ (gauges : List Gauge) (f : Failure),
        (distributeGaugesLoop k gauges [] newDistributionInfo []).ret = .error f →
        Distribute k gauges
            = ⟨(distributeGaugesLoop k gauges [] newDistributionInfo []).effects, .error f⟩
          ∧ ∀ eff ∈ (Distribute k gauges).effects, ∃ g, eff = Effect.setGauge g)
    ∧ (∀ (gauges : List Gauge) (e : String),
        (distributeGaugesLoop k gauges [] newDistributionInfo []).ret = .error (.error e) →
        ∃ lock : PeriodLock, k.AccAddressFromBech32 lock.Owner = .error e) := by
  refine ⟨fun d lock rewards e => addLockRewards_error_iff _ d lock rewards e, ?_, ?_, ?_, ?_,
    fun gauges e h => distributeGaugesLoop_error h⟩
  · intro remain denom lockSum remE lock rest info info1 total A e hA hne hadd
    simp only [distributeLocksLoop, hA, hne, hadd]
    simp
  · intro gauge locks info info1 lockSum remain f hsum hz hsub hloop
    unfold distributeInternal
    simp only [hsum, hz, if_false, hsub, hloop]
  · intro gauge rest cache cache1 allLocks info total0 f hc hr
    simp only [distributeGaugesLoop, hc, hr]
  · intro gauges f h
    have hD : Distribute k gauges
        = ⟨(distributeGaugesLoop k gauges [] newDistributionInfo []).effects, .error f⟩ := by
      unfold Distribute
      simp only [h]
    refine ⟨hD, ?_⟩
    rw [hD]
    exact distributeGaugesLoop_effects_shape k gauges [] newDistributionInfo []

/-! ## The lock helpers -/

/-- C14 (amended): `SumLocksByDenom` validates the denom once and then sums without
further validation.  For every list of locks and every denom that passes
`sdk.ValidateDenom`, it returns the sum over the locks of the lock's amount of that denom
when that sum fits an `sdk.Int` (is below `2 ^ 256`), in particular 0 for the empty list,
and panics with the overflow of `sdk.Int.Add` when it does not.  For a denom that does not
pass `sdk.ValidateDenom` it panics, whatever the locks. -/
theorem SumLocksByDenom_valid (locks : List PeriodLock) (denom : String) :
    (ValidateDenom denom = true →
        ((locks.map (fun l => Coins.AmountOfNoDenomValidation l.Coins denom)).sum
            < 2 ^ maxBitLen →
          SumLocksByDenom locks denom
            = .ok ((locks.map (fun l => Coins.AmountOfNoDenomValidation l.Coins denom)).sum))
        ∧ (2 ^ maxBitLen
            ≤ (locks.map (fun l => Coins.AmountOfNoDenomValidation l.Coins denom)).sum →
          SumLocksByDenom locks denom = .error (.panic "Int overflow"))
        ∧ SumLocksByDenom [] denom = .ok 0)
      ∧ (ValidateDenom denom = false →
        SumLocksByDenom locks denom = .error (.panic "invalid denom used internally")) := by
  refine ⟨fun hvalid => ⟨fun hlt => ?_, fun hge => ?_, ?_⟩, fun hinvalid => ?_⟩
  · rw [SumLocksByDenom_of_valid hvalid, if_pos hlt]
  · rw [SumLocksByDenom_of_valid hvalid, if_neg (Nat.not_lt.mpr hge)]
  · rw [SumLocksByDenom_of_valid hvalid, List.map_nil, List.sum_nil,
      if_pos two_pow_maxBitLen_pos]
  · unfold SumLocksByDenom
    rw [hinvalid]
    rfl

theorem stringsContains_iff (s sep : List Char) : stringsContains s sep = true ↔ sep <:+: s := by
  induction s with
  | nil =>
    cases sep with
    | nil => simp [stringsContains]
    | cons x xs => simp [stringsContains]
  | cons c cs ih =>
    simp only [stringsContains, Bool.or_eq_true, ih, List.isPrefixOf_iff_prefix,
      List.infix_cons_iff]

theorem stringsSplitGo_head (sep s cur : List Char) :
    (stringsSplitGo sep s 0 cur).headD [] = cur.reverse ++ prefixBefore sep s := by
  induction s generalizing cur with
  | nil => simp [stringsSplitGo, prefixBefore]
  | cons c cs ih =>
    unfold stringsSplitGo prefixBefore
    by_cases h : sep.isPrefixOf (c :: cs) = true
    · simp [h]
    · rw [if_neg h, if_neg h, ih]
      simp

theorem prefixBefore_spec {sep : List Char} {s : List Char} (h : sep <:+: s) :
    IsPrefixBeforeFirst sep s (prefixBefore sep s) := by
  induction s with
  | nil =>
    have hsep : sep = [] := List.eq_nil_of_infix_nil h
    subst hsep
    exact ⟨⟨[], rfl⟩, fun _ _ _ => Nat.zero_le _⟩
  | cons c cs ih =>
    unfold prefixBefore
    by_cases hp : sep.isPrefixOf (c :: cs) = true
    · simp only [hp, if_true]
      obtain ⟨rest, hrest⟩ := List.isPrefixOf_iff_prefix.mp hp
      exact ⟨⟨rest, by simpa using hrest.symm⟩, fun _ _ _ => Nat.zero_le _⟩
    · rw [if_neg hp]
      have hnp : ¬ sep <+: c :: cs := fun hpre => hp (List.isPrefixOf_iff_prefix.mpr hpre)
      have hin : sep <:+: cs := by
        rcases List.infix_cons_iff.mp h with h1 | h1
        · exact absurd h1 hnp
        · exact h1
      obtain ⟨⟨rest, hrest⟩, hmin⟩ := ih hin
      refine ⟨⟨rest, by rw [List.cons_append, List.cons_append, ← hrest]⟩, ?_⟩
      intro p1 rest1 hp1
      cases p1 with
      | nil =>
        exfalso
        apply hnp
        exact ⟨rest1, by simpa using hp1.symm⟩
      | cons x p1t =>
        simp only [List.cons_append, List.cons.injEq] at hp1
        have := hmin p1t rest1 hp1.2
        simp only [List.length_cons]
        omega

/-- C15: for every string `d`, `NativeDenom d` is the prefix of `d` before the first
occurrence of `superbonding` if `d` contains `superbonding`; otherwise the prefix of `d`
before the first occurrence of `superunbonding` if `d` contains `superunbonding`;
otherwise `d` itself. -/
theorem NativeDenom_spec (d : String) :
    ("superbonding".data <:+: d.data →
        IsPrefixBeforeFirst "superbonding".data d.data (NativeDenom d).data)
      ∧ (¬ "superbonding".data <:+: d.data → "superunbonding".data <:+: d.data →
        IsPrefixBeforeFirst "superunbonding".data d.data (NativeDenom d).data)
      ∧ (¬ "superbonding".data <:+: d.data → ¬ "superunbonding".data <:+: d.data →
        NativeDenom d = d) := by
  refine ⟨fun h1 => ?_, fun h1 h2 => ?_, fun h1 h2 => ?_⟩
  · have hc := (stringsContains_iff d.data "superbonding".data).mpr h1
    unfold NativeDenom
    simp only [hc, if_true, stringsSplit, stringsSplitGo_head, List.reverse_nil,
      List.nil_append]
    exact prefixBefore_spec h1
  · have hc1 : ¬ stringsContains d.data "superbonding".data = true :=
      fun hc => h1 ((stringsContains_iff _ _).mp hc)
    have hc2 := (stringsContains_iff d.data "superunbonding".data).mpr h2
    unfold NativeDenom
    rw [if_neg hc1, if_pos hc2]
    simp only [stringsSplit, stringsSplitGo_head, List.reverse_nil, List.nil_append]
    exact prefixBefore_spec h2
  · have hc1 : ¬ stringsContains d.data "superbonding".data = true :=
      fun hc => h1 ((stringsContains_iff _ _).mp hc)
    have hc2 : ¬ stringsContains d.data "superunbonding".data = true :=
      fun hc => h2 ((stringsContains_iff _ _).mp hc)
    unfold NativeDenom
    rw [if_neg hc1, if_neg hc2]

/-! ## `BeginDistribution` and the superfluid messages -/

/-- C19: for every gauge and block time with `gauge.StartTime` strictly after the block
time, `BeginDistribution` returns the precondition error and the store is the one it was
given, whatever `deleteGaugeRefByKey` and `addGaugeRefByKey` would do: neither is executed.
When the block time is not before `StartTime` the time check raises no error: the call is
the deletion from the upcoming index followed, if it succeeds, by the insertion into the
active index, and returns no error when both succeed. -/
theorem BeginDistribution_time_check {σ : Type}
    (deleteGaugeRefByKey addGaugeRefByKey : σ → IndexKey → Nat → σ × Option String)
    (blockTime : Int) (store : σ) (gauge : Gauge) :
    (blockTime < gauge.StartTime →
        BeginDistribution deleteGaugeRefByKey addGaugeRefByKey blockTime store gauge
          = (store, some "gauge is not able to start distribution yet"))
      ∧ (¬ blockTime < gauge.StartTime →
        ∀ store1 store2,
          deleteGaugeRefByKey store (IndexKey.UpcomingGauges gauge.StartTime) gauge.Id
            = (store1, none) →
          addGaugeRefByKey store1 (IndexKey.ActiveGauges gauge.StartTime) gauge.Id
            = (store2, none) →
          BeginDistribution deleteGaugeRefByKey addGaugeRefByKey blockTime store gauge
            = (store2, none))
      ∧ (¬ blockTime < gauge.StartTime →
        ∀ err, (BeginDistribution deleteGaugeRefByKey addGaugeRefByKey blockTime store
            gauge).2 = some err →
          (deleteGaugeRefByKey store (IndexKey.UpcomingGauges gauge.StartTime) gauge.Id).2
              = some err
            ∨ ∃ store1,
                deleteGaugeRefByKey store (IndexKey.UpcomingGauges gauge.StartTime) gauge.Id
                  = (store1, none)
                ∧ (addGaugeRefByKey store1 (IndexKey.ActiveGauges gauge.StartTime)
                    gauge.Id).2 = some err) := by
  refine ⟨fun h => ?_, fun h store1 store2 h1 h2 => ?_, fun h err herr => ?_⟩
  · unfold BeginDistribution
    rw [if_pos h]
  · unfold BeginDistribution
    rw [if_neg h]
    simp only [h1, h2]
  · unfold BeginDistribution at herr
    rw [if_neg h] at herr
    cases hd : deleteGaugeRefByKey store (IndexKey.UpcomingGauges gauge.StartTime) gauge.Id with
    | mk s1 r1 =>
      cases r1 with
      | some e1 =>
        simp only [hd] at herr
        left
        exact herr
      | none =>
        simp only [hd] at herr
        right
        refine ⟨s1, rfl, ?_⟩
        cases ha : addGaugeRefByKey s1 (IndexKey.ActiveGauges gauge.StartTime) gauge.Id with
        | mk s2 r2 =>
          cases r2 with
          | some e2 => simp only [ha] at herr; exact herr
          | none => simp [ha] at herr

/-- C20: superfluid message validation raises exactly on the rejected fields:
`MsgSuperfluidDelegate.ValidateBasic` returns an error if and only if `Sender` is empty or
`LockId` is 0 or `ValAddr` is empty; `MsgSuperfluidUndelegate.ValidateBasic` if and only if
`Sender` is empty or `LockId` is 0; `MsgSuperfluidRedelegate.ValidateBasic` if and only if
`Sender` is empty or `LockId` is 0 or `NewValAddr` is empty. -/
theorem ValidateBasic_error_iff :
    (∀ m : MsgSuperfluidDelegate,
        m.ValidateBasic ≠ none ↔ m.Sender = "" ∨ m.LockId = 0 ∨ m.ValAddr = "")
      ∧ (∀ m : MsgSuperfluidUndelegate,
        m.ValidateBasic ≠ none ↔ m.Sender = "" ∨ m.LockId = 0)
      ∧ (∀ m : MsgSuperfluidRedelegate,
        m.ValidateBasic ≠ none ↔ m.Sender = "" ∨ m.LockId = 0 ∨ m.NewValAddr = "") := by
  refine ⟨fun m => ?_, fun m => ?_, fun m => ?_⟩
  · unfold MsgSuperfluidDelegate.ValidateBasic
    by_cases h1 : m.Sender = "" <;> by_cases h2 : m.LockId = 0 <;>
      by_cases h3 : m.ValAddr = "" <;> simp [h1, h2, h3]
  · unfold MsgSuperfluidUndelegate.ValidateBasic
    by_cases h1 : m.Sender = "" <;> by_cases h2 : m.LockId = 0 <;> simp [h1, h2]
  · unfold MsgSuperfluidRedelegate.ValidateBasic
    by_cases h1 : m.Sender = "" <;> by_cases h2 : m.LockId = 0 <;>
      by_cases h3 : m.NewValAddr = "" <;> simp [h1, h2, h3]

/-! ## The estimate -/

theorem NewCoin_ok {denom : String} {amount : Int} {c : Coin}
    (h : NewCoin denom amount = .ok c) :
    ValidateDenom denom = true ∧ 0 ≤ amount ∧ c = ⟨denom, amount.toNat⟩ := by
  unfold NewCoin at h
  split at h
  · next hv =>
    split at h
    · cases h
    · next hneg =>
      injection h with h
      exact ⟨hv, not_lt.mp hneg, h.symm⟩
  · cases h

theorem remainEpochs_lt (gauge : Gauge) : remainEpochs gauge < 2 ^ 64 := by
  unfold remainEpochs
  split
  · norm_num
  · exact Nat.mod_lt _ (by norm_num)

/-- The quotient of the first loop of the estimate, when it is not negative: division by
the number of remaining epochs. -/
theorem quoRaw_toNat {a r : Nat} (hr : r < 2 ^ 64)
    (hnn : 0 ≤ Int.tdiv (a : Int) (toInt64 r)) :
    (Int.tdiv (a : Int) (toInt64 r)).toNat = a / r := by
  by_cases hlt : r < 2 ^ 63
  · rw [toInt64_of_lt hlt, ← Int.ofNat_tdiv, Int.toNat_ofNat]
  · have hmod : r % 2 ^ 64 = r := Nat.mod_eq_of_lt hr
    have hto : toInt64 r = -(((2 ^ 64 - r : Nat) : Int)) := by
      unfold toInt64
      rw [hmod, if_neg hlt]
      omega
    rw [hto, Int.tdiv_neg, ← Int.ofNat_tdiv] at hnn ⊢
    have hmpos : 0 < 2 ^ 64 - r := by omega
    have hz : a / (2 ^ 64 - r) = 0 := by
      generalize a / (2 ^ 64 - r) = q at hnn
      omega
    rw [hz]
    have halt : a < 2 ^ 64 - r := (Nat.div_eq_zero_iff hmpos).mp hz
    have : a / r = 0 := Nat.div_eq_of_lt (by omega)
    rw [this]
    rfl

theorem remainCoinsPerEpochLoop_ok {r : Nat} (hr : r < 2 ^ 64) {coins : List Coin}
    {acc pe : Coins} (h : remainCoinsPerEpochLoop r coins acc = .ok pe)
    (hnd : (acc.map Coin.Denom).Nodup) :
    (∀ d, Coins.AmountOfNoDenomValidation pe d
        = Coins.AmountOfNoDenomValidation acc d + sumFor (fun c => c.Amount / r) coins d)
      ∧ (pe.map Coin.Denom).Nodup := by
  induction coins generalizing acc with
  | nil =>
    simp only [remainCoinsPerEpochLoop] at h
    injection h with h
    subst h
    exact ⟨fun d => by rw [sumFor_nil, Nat.add_zero], hnd⟩
  | cons coin rest ih =>
    simp only [remainCoinsPerEpochLoop, QuoRaw, Quo] at h
    split at h
    · cases h
    · next amt heq =>
      split at heq
      · cases heq
      · injection heq with heq
        split at h
        · cases h
        · next newCoin hnew =>
          obtain ⟨_, hnn, hc⟩ := NewCoin_ok hnew
          obtain ⟨h1, h2⟩ := ih h (ofDenoms_denoms_nodup (sortedDenoms_nodup _) _)
          refine ⟨fun d => ?_, h2⟩
          rw [h1 d, amount_Add, sumFor_cons, amount_cons, amount_nil, hc]
          rw [← heq] at hnn ⊢
          rw [quoRaw_toNat hr hnn]
          simp only []
          omega

theorem filteredCoinsLoop_ok {a : Nat} {T : Int} {coins : List Coin} {acc r : Coins}
    (h : filteredCoinsLoop a T coins acc = .ok r) :
    ∀ d, Coins.AmountOfNoDenomValidation r d
      = Coins.AmountOfNoDenomValidation acc d
        + sumFor (fun c => (Int.tdiv ((c.Amount : Int) * (a : Int)) T).toNat) coins d := by
  induction coins generalizing acc with
  | nil =>
    simp only [filteredCoinsLoop] at h
    injection h with h
    subst h
    exact fun d => by rw [sumFor_nil, Nat.add_zero]
  | cons coin rest ih =>
    simp only [filteredCoinsLoop, Quo] at h
    split at h
    · cases h
    · next amt heq =>
      split at heq
      · cases heq
      · injection heq with heq
        split at h
        · cases h
        · next newCoin hnew =>
          obtain ⟨_, _, hc⟩ := NewCoin_ok hnew
          intro d
          rw [ih h d, amount_Add, sumFor_cons, amount_cons, amount_nil, hc, ← heq]
          simp only []
          omega

theorem filteredLocksLoop_ok {denom : String} {T : Int} {pe : Coins}
    {locks : List PeriodLock} {acc r : Coins}
    (h : filteredLocksLoop denom T pe locks acc = .ok r) :
    ∀ d, Coins.AmountOfNoDenomValidation r d
      = Coins.AmountOfNoDenomValidation acc d
        + (locks.map (fun l => sumFor (fun c => (Int.tdiv ((c.Amount : Int)
            * (Coins.AmountOfNoDenomValidation l.Coins denom : Int)) T).toNat) pe d)).sum := by
  induction locks generalizing acc with
  | nil =>
    simp only [filteredLocksLoop] at h
    injection h with h
    subst h
    exact fun d => by simp
  | cons lock rest ih =>
    simp only [filteredLocksLoop, Coins.AmountOf] at h
    split at h
    · cases h
    · next a heq =>
      split at heq
      · injection heq with heq
        subst heq
        split at h
        · cases h
        · next acc1 hc =>
          intro d
          rw [ih h d, filteredCoinsLoop_ok hc d]
          simp only [List.map_cons, List.sum_cons]
          omega
      · cases heq

theorem sumFor_of_amount {f : Nat → Nat} (hf : f 0 = 0) {coins : List Coin}
    (hnd : (coins.map Coin.Denom).Nodup) (d : String) :
    sumFor (fun c => f c.Amount) coins d = f (Coins.AmountOfNoDenomValidation coins d) := by
  by_cases hd : d ∈ coins.map Coin.Denom
  · obtain ⟨c, hc, rfl⟩ := List.mem_map.mp hd
    rw [sumFor_of_nodup _ hnd hc, ← sumFor_amount, sumFor_of_nodup _ hnd hc]
  · rw [sumFor_eq_zero_of_not_mem _ hd, amount_eq_zero_of_not_mem hd, hf]

/-- What `FilteredLocksDistributionEst` returns when it returns, the accumulation is not
zero and an epoch remains. -/
theorem FilteredLocksDistributionEst_ok {k : Keeper} {gauge : Gauge}
    {locks : List PeriodLock} {g1 : Gauge} {est : Coins}
    (h : (FilteredLocksDistributionEst k gauge locks).ret = .ok (g1, est))
    (hT : k.GetPeriodLocksAccumulation gauge.DistributeTo ≠ 0)
    (hre : remainEpochs gauge ≠ 0) :
    ∃ remain pe,
      Coins.Sub gauge.Coins gauge.DistributedCoins = .ok remain
      ∧ (∀ d, Coins.AmountOfNoDenomValidation pe d
          = Coins.AmountOfNoDenomValidation remain d / remainEpochs gauge)
      ∧ g1 = { gauge with
          FilledEpochs := (gauge.FilledEpochs + 1) % 2 ^ 64,
          DistributedCoins := Coins.Add gauge.DistributedCoins pe }
      ∧ (locks = [] → est = pe)
      ∧ (locks ≠ [] → ∀ d, Coins.AmountOfNoDenomValidation est d
          = (locks.map (fun l => (Int.tdiv
              ((Coins.AmountOfNoDenomValidation pe d : Int)
                * (Coins.AmountOfNoDenomValidation l.Coins gauge.DistributeTo.Denom : Int))
              (k.GetPeriodLocksAccumulation gauge.DistributeTo)).toNat)).sum) := by
  unfold FilteredLocksDistributionEst at h
  simp only [hT, if_false] at h
  cases hsub : Coins.Sub gauge.Coins gauge.DistributedCoins with
  | error e => simp [hsub] at h
  | ok remain =>
    simp only [hsub, hre, if_false] at h
    cases hpe : remainCoinsPerEpochLoop (remainEpochs gauge) remain [] with
    | error e => simp [hpe] at h
    | ok pe =>
      simp only [hpe] at h
      cases hfl : filteredLocksLoop gauge.DistributeTo.Denom
          (k.GetPeriodLocksAccumulation gauge.DistributeTo) pe locks
          (if locks.length = 0 then pe else []) with
      | error e =>
        rw [hfl] at h
        cases h
      | ok r =>
        simp only [hfl, Except.ok.injEq, Prod.mk.injEq] at h
        obtain ⟨hg, hest⟩ := h
        subst hest
        obtain ⟨hpe1, hpend⟩ := remainCoinsPerEpochLoop_ok (remainEpochs_lt gauge) hpe
          List.nodup_nil
        have hpeamt : ∀ d, Coins.AmountOfNoDenomValidation pe d
            = Coins.AmountOfNoDenomValidation remain d / remainEpochs gauge := by
          intro d
          rw [hpe1 d, amount_nil, Nat.zero_add,
            sumFor_of_amount (f := fun a => a / remainEpochs gauge) (Nat.zero_div _)
              (Sub_denoms_nodup hsub) d]
        refine ⟨remain, pe, rfl, hpeamt, hg.symm, fun hnil => ?_, fun hne d => ?_⟩
        · subst hnil
          simp only [List.length_nil, if_true, filteredLocksLoop, Except.ok.injEq] at hfl
          exact hfl.symm
        · have hlen : ¬ locks.length = 0 := by
            intro hl
            exact hne (List.length_eq_zero.mp hl)
          rw [if_neg hlen] at hfl
          rw [filteredLocksLoop_ok hfl d, amount_nil, Nat.zero_add]
          congr 1
          apply List.map_congr_left
          intro l _
          exact sumFor_of_amount (f := fun a => (Int.tdiv ((a : Int)
            * (Coins.AmountOfNoDenomValidation l.Coins gauge.DistributeTo.Denom : Int))
            (k.GetPeriodLocksAccumulation gauge.DistributeTo)).toNat) (by simp) hpend d

theorem FilteredLocksDistributionEst_effects (k : Keeper) (gauge : Gauge)
    (locks : List PeriodLock) : (FilteredLocksDistributionEst k gauge locks).effects = [] := by
  unfold FilteredLocksDistributionEst
  simp only []
  split
  · rfl
  · split
    · rfl
    · split
      · rfl
      · split
        · rfl
        · split <;> rfl

theorem tdiv_toNat_of_pos (x : Nat) {T : Int} (hT : 0 < T) :
    (Int.tdiv (x : Int) T).toNat = x / T.toNat := by
  have hTe : T = ((T.toNat : Nat) : Int) := (Int.toNat_of_nonneg (le_of_lt hT)).symm
  rw [hTe, ← Int.ofNat_tdiv, Int.toNat_ofNat, Int.toNat_ofNat]

/-- The estimate of a returning call of `FilteredLocksDistributionEst`: if
`total_locked` is zero the result is the empty gauge and no coins; otherwise, with
`remain_epochs ≥ 1` and `remain_coins_per_epoch` holding in every denom the remaining amount
divided by `remain_epochs` (truncated), the estimate is `remain_coins_per_epoch` when
`filteredLocks` is empty, and otherwise holds in every denom the sum over the filtered
locks of the truncated quotient `remain_coins_per_epoch × lock amount of the gauge denom /
total_locked`, a division of natural numbers when `total_locked` is positive. -/
theorem FilteredLocksDistributionEst_estimate (k : Keeper) (gauge : Gauge)
    (locks : List PeriodLock) (g1 : Gauge) (est : Coins)
    (h : (FilteredLocksDistributionEst k gauge locks).ret = .ok (g1, est)) :
    (k.GetPeriodLocksAccumulation gauge.DistributeTo = 0 → g1 = emptyGauge ∧ est = [])
      ∧ (k.GetPeriodLocksAccumulation gauge.DistributeTo ≠ 0 → 1 ≤ remainEpochs gauge →
        ∃ remain pe,
          Coins.Sub gauge.Coins gauge.DistributedCoins = .ok remain
          ∧ (∀ d, Coins.AmountOfNoDenomValidation pe d
              = Coins.AmountOfNoDenomValidation remain d / remainEpochs gauge)
          ∧ (locks = [] → est = pe)
          ∧ (locks ≠ [] → ∀ d, Coins.AmountOfNoDenomValidation est d
              = (locks.map (fun l => (Int.tdiv
                  ((Coins.AmountOfNoDenomValidation pe d : Int)
                    * (Coins.AmountOfNoDenomValidation l.Coins gauge.DistributeTo.Denom : Int))
                  (k.GetPeriodLocksAccumulation gauge.DistributeTo)).toNat)).sum)
          ∧ (locks ≠ [] → 0 < k.GetPeriodLocksAccumulation gauge.DistributeTo →
              ∀ d, Coins.AmountOfNoDenomValidation est d
                = (locks.map (fun l => Coins.AmountOfNoDenomValidation pe d
                    * Coins.AmountOfNoDenomValidation l.Coins gauge.DistributeTo.Denom
                    / (k.GetPeriodLocksAccumulation gauge.DistributeTo).toNat)).sum)) := by
  constructor
  · intro hT
    unfold FilteredLocksDistributionEst at h
    simp only [hT, if_true, Except.ok.injEq, Prod.mk.injEq] at h
    exact ⟨h.1.symm, h.2.symm⟩
  · intro hT hre
    obtain ⟨remain, pe, hsub, hpe, _, hnil, hsum⟩ :=
      FilteredLocksDistributionEst_ok h hT (by omega)
    refine ⟨remain, pe, hsub, hpe, hnil, hsum, fun hne hpos d => ?_⟩
    rw [hsum hne d]
    congr 1
    apply List.map_congr_left
    intro l _
    rw [← Int.natCast_mul, tdiv_toNat_of_pos _ hpos]

/-- C17 (amended): for every gauge, `total_locked ≠ 0`, `remain_epochs ≥ 1` and every
`filteredLocks` on which `FilteredLocksDistributionEst` returns, the returned gauge is the
input gauge with `FilledEpochs` increased by 1 modulo `2 ^ 64` (a `uint64`) and
`DistributedCoins` increased by `remain_coins_per_epoch`, which holds in every denom the
remaining amount divided by `remain_epochs` (truncated); all other fields are unchanged,
the returned gauge still has `DistributedCoins ≤ Coins`, the call writes nothing to the
store, and it depends on the keeper only through the lock accumulation it reads. -/
theorem FilteredLocksDistributionEst_preview (k : Keeper) (gauge : Gauge)
    (locks : List PeriodLock) (g1 : Gauge) (est : Coins)
    (h : (FilteredLocksDistributionEst k gauge locks).ret = .ok (g1, est))
    (hT : k.GetPeriodLocksAccumulation gauge.DistributeTo ≠ 0)
    (hre : 1 ≤ remainEpochs gauge) :
    ∃ pe : Coins,
      (∀ d, Coins.AmountOfNoDenomValidation pe d
          = (Coins.AmountOfNoDenomValidation gauge.Coins d
              - Coins.AmountOfNoDenomValidation gauge.DistributedCoins d) / remainEpochs gauge)
      ∧ g1 = { gauge with
          FilledEpochs := (gauge.FilledEpochs + 1) % 2 ^ 64,
          DistributedCoins := Coins.Add gauge.DistributedCoins pe }
      ∧ (∀ d, Coins.AmountOfNoDenomValidation g1.DistributedCoins d
          = Coins.AmountOfNoDenomValidation gauge.DistributedCoins d
            + Coins.AmountOfNoDenomValidation pe d)
      ∧ Coins.le g1.DistributedCoins g1.Coins
      ∧ (FilteredLocksDistributionEst k gauge locks).effects = []
      ∧ ∀ k1 : Keeper, k1.GetPeriodLocksAccumulation gauge.DistributeTo
            = k.GetPeriodLocksAccumulation gauge.DistributeTo →
          FilteredLocksDistributionEst k1 gauge locks
            = FilteredLocksDistributionEst k gauge locks := by
  obtain ⟨remain, pe, hsub, hpe, hg, _, _⟩ := FilteredLocksDistributionEst_ok h hT (by omega)
  have hpe1 : ∀ d, Coins.AmountOfNoDenomValidation pe d
      = (Coins.AmountOfNoDenomValidation gauge.Coins d
          - Coins.AmountOfNoDenomValidation gauge.DistributedCoins d) / remainEpochs gauge :=
    fun d => by rw [hpe d, amount_Sub hsub d]
  have hle := (Sub_ok_iff gauge.Coins gauge.DistributedCoins).mp ⟨remain, hsub⟩
  refine ⟨pe, hpe1, hg, fun d => ?_, fun d => ?_,
    FilteredLocksDistributionEst_effects k gauge locks, fun k1 hk => ?_⟩
  · rw [hg]
    exact amount_Add _ _ d
  · rw [hg]
    simp only []
    rw [amount_Add, hpe1 d]
    have h1 := hle d
    have h2 := Nat.div_le_self (Coins.AmountOfNoDenomValidation gauge.Coins d
      - Coins.AmountOfNoDenomValidation gauge.DistributedCoins d) (remainEpochs gauge)
    omega
  · unfold FilteredLocksDistributionEst
    rw [hk]

theorem filteredCoinsLoop_exists {a : Nat} {T1 T2 : Int} (hT1 : 0 < T1) (hT2 : 0 < T2)
    {coins : List Coin} {acc1 r1 : Coins}
    (h : filteredCoinsLoop a T1 coins acc1 = .ok r1) (acc2 : Coins) :
    ∃ r2, filteredCoinsLoop a T2 coins acc2 = .ok r2 := by
  induction coins generalizing acc1 acc2 with
  | nil => exact ⟨acc2, rfl⟩
  | cons coin rest ih =>
    simp only [filteredCoinsLoop, Quo, if_neg (ne_of_gt hT1)] at h
    simp only [filteredCoinsLoop, Quo, if_neg (ne_of_gt hT2)]
    split at h
    · cases h
    · next newCoin hnew =>
      obtain ⟨hv, _, _⟩ := NewCoin_ok hnew
      have hnn : ¬ Int.tdiv ((coin.Amount : Int) * (a : Int)) T2 < 0 :=
        not_lt.mpr (Int.tdiv_nonneg (by positivity) (le_of_lt hT2))
      simp only [NewCoin, hv, if_true, hnn, if_false]
      exact ih h _

theorem filteredLocksLoop_exists {denom : String} {T1 T2 : Int} (hT1 : 0 < T1) (hT2 : 0 < T2)
    {pe : Coins} {locks : List PeriodLock} {acc1 r1 : Coins}
    (h : filteredLocksLoop denom T1 pe locks acc1 = .ok r1) (acc2 : Coins) :
    ∃ r2, filteredLocksLoop denom T2 pe locks acc2 = .ok r2 := by
  induction locks generalizing acc1 acc2 with
  | nil => exact ⟨acc2, rfl⟩
  | cons lock rest ih =>
    simp only [filteredLocksLoop] at h ⊢
    cases ha : Coins.AmountOf lock.Coins denom with
    | error e => simp [ha] at h
    | ok a =>
      simp only [ha] at h ⊢
      cases hc : filteredCoinsLoop a T1 pe acc1 with
      | error e => simp [hc] at h
      | ok acc3 =>
        simp only [hc] at h
        obtain ⟨r, hr⟩ := filteredCoinsLoop_exists hT1 hT2 hc acc2
        simp only [hr]
        exact ih h _

theorem tdiv_toNat_anti (x : Nat) {T1 T2 : Int} (hT1 : 0 < T1) (hlt : T1 < T2) :
    (Int.tdiv (x : Int) T2).toNat ≤ (Int.tdiv (x : Int) T1).toNat := by
  rw [tdiv_toNat_of_pos x hT1, tdiv_toNat_of_pos x (lt_trans hT1 hlt)]
  apply Nat.div_le_div_left
  · omega
  · omega

/-- C18: estimation monotonicity: for every gauge and `filteredLocks`, and for positive
totals `T1 < T2` returned by the lock accumulation with everything else equal, whenever
`FilteredLocksDistributionEst` returns an estimate with `total_locked = T1` it returns one
with `total_locked = T2`, and that estimate is, in every denom, no larger. -/
theorem FilteredLocksDistributionEst_antitone (k1 k2 : Keeper) (gauge : Gauge)
    (locks : List PeriodLock) (g1 : Gauge) (est1 : Coins)
    (hT1 : 0 < k1.GetPeriodLocksAccumulation gauge.DistributeTo)
    (hlt : k1.GetPeriodLocksAccumulation gauge.DistributeTo
      < k2.GetPeriodLocksAccumulation gauge.DistributeTo)
    (h1 : (FilteredLocksDistributionEst k1 gauge locks).ret = .ok (g1, est1)) :
    ∃ g2 est2, (FilteredLocksDistributionEst k2 gauge locks).ret = .ok (g2, est2)
      ∧ ∀ d, Coins.AmountOfNoDenomValidation est2 d
          ≤ Coins.AmountOfNoDenomValidation est1 d := by
  have hT2 : 0 < k2.GetPeriodLocksAccumulation gauge.DistributeTo := lt_trans hT1 hlt
  unfold FilteredLocksDistributionEst at h1 ⊢
  simp only [ne_of_gt hT1, ne_of_gt hT2, if_false] at h1 ⊢
  cases hsub : Coins.Sub gauge.Coins gauge.DistributedCoins with
  | error e => simp [hsub] at h1
  | ok remain =>
    simp only [hsub] at h1 ⊢
    by_cases hre : remainEpochs gauge = 0
    · simp only [hre, if_true, Except.ok.injEq, Prod.mk.injEq] at h1 ⊢
      exact ⟨gauge, [], ⟨rfl, rfl⟩, fun d => by rw [← h1.2]⟩
    · simp only [hre, if_false] at h1 ⊢
      cases hpe : remainCoinsPerEpochLoop (remainEpochs gauge) remain [] with
      | error e => simp [hpe] at h1
      | ok pe =>
        simp only [hpe] at h1 ⊢
        cases hfl : filteredLocksLoop gauge.DistributeTo.Denom
            (k1.GetPeriodLocksAccumulation gauge.DistributeTo) pe locks
            (if locks.length = 0 then pe else []) with
        | error e =>
          rw [hfl] at h1
          cases h1
        | ok r1 =>
          simp only [hfl, Except.ok.injEq, Prod.mk.injEq] at h1
          obtain ⟨r2, hr2⟩ := filteredLocksLoop_exists hT1 hT2 hfl
            (if locks.length = 0 then pe else [])
          rw [hr2]
          refine ⟨_, r2, rfl, fun d => ?_⟩
          rw [← h1.2, filteredLocksLoop_ok hr2 d, filteredLocksLoop_ok hfl d]
          apply Nat.add_le_add_left
          apply List.sum_le_sum
          intro l _
          apply sumFor_mono
          intro c
          rw [← Int.natCast_mul]
          exact tdiv_toNat_anti _ hT1 hlt

/-! ## The lock cache of `Distribute` -/

theorem distributeGaugesLoopTraced_fst (k : Keeper) (gauges : List Gauge)
    (cache : List (String × List PeriodLock)) (info : distributionInfo) (total0 : Coins) :
    (distributeGaugesLoopTraced k gauges cache info total0).1
      = distributeGaugesLoop k gauges cache info total0 := by
  induction gauges generalizing cache info total0 with
  | nil => rfl
  | cons gauge rest ih =>
    simp only [distributeGaugesLoopTraced, distributeGaugesLoop]
    cases hc : cachedLocks k cache gauge with
    | error e => rfl
    | ok cl =>
      obtain ⟨cache1, allLocks⟩ := cl
      simp only []
      cases hr : (distributeInternal k gauge
          (FilterLocksByMinDuration allLocks gauge.DistributeTo.Duration) info).ret with
      | error e => rfl
      | ok t =>
        simp only []
        rw [ih]

theorem cacheFaithful_nil (k : Keeper) : CacheFaithful k [] := by
  intro denom locks h
  simp at h

/-- The cache step for a by-duration gauge of at least one millisecond on a faithful cache:
it yields the keeper's locks for the denom and one millisecond, and a faithful cache. -/
theorem cachedLocks_faithful {k : Keeper} {cache : List (String × List PeriodLock)}
    (hcache : CacheFaithful k cache) {gauge : Gauge}
    (hby : gauge.DistributeTo.LockQueryType = ByDuration)
    (hdur : Millisecond ≤ gauge.DistributeTo.Duration) :
    ∃ cache1, cachedLocks k cache gauge
        = .ok (cache1, k.GetLocksLongerThanDurationDenom gauge.DistributeTo.Denom Millisecond)
      ∧ CacheFaithful k cache1 := by
  unfold cachedLocks
  cases hl : cache.lookup gauge.DistributeTo.Denom with
  | some allLocks =>
    refine ⟨cache, ?_, hcache⟩
    rw [hcache _ _ hl]
  | none =>
    have hget : getLocksToDistributionWithMaxDuration k gauge.DistributeTo Millisecond
        = .ok (k.GetLocksLongerThanDurationDenom gauge.DistributeTo.Denom Millisecond) := by
      unfold getLocksToDistributionWithMaxDuration
      rw [if_pos hby]
      by_cases hgt : gauge.DistributeTo.Duration > Millisecond
      · rw [if_pos hgt]
      · rw [if_neg hgt]
        have heq : gauge.DistributeTo.Duration = Millisecond := le_antisymm (not_lt.mp hgt) hdur
        rw [heq]
    simp only [hget]
    refine ⟨_, rfl, ?_⟩
    intro denom locks hlook
    rw [List.lookup_cons] at hlook
    by_cases hd : denom = gauge.DistributeTo.Denom
    · subst hd
      simp only [beq_self_eq_true, Option.some.injEq] at hlook
      exact hlook.symm
    · have hbeq : (denom == gauge.DistributeTo.Denom) = false := by simpa using hd
      simp only [hbeq] at hlook
      exact hcache _ _ hlook

theorem filter_sentinel_eq {k : Keeper} {L : String → List PeriodLock}
    (hlk : ∀ denom d, k.GetLocksLongerThanDurationDenom denom d
      = (L denom).filter (fun l => decide (d ≤ l.Duration)))
    (denom : String) {d : Int} (hd : Millisecond ≤ d) :
    FilterLocksByMinDuration (k.GetLocksLongerThanDurationDenom denom Millisecond) d
      = k.GetLocksLongerThanDurationDenom denom d := by
  unfold FilterLocksByMinDuration
  rw [hlk denom Millisecond, hlk denom d, List.filter_filter]
  apply List.filter_congr
  intro l _
  by_cases h : d ≤ l.Duration
  · have : Millisecond ≤ l.Duration := le_trans hd h
    simp [h, this]
  · simp [h]

theorem distributeGaugesLoopTraced_calls {k : Keeper} {L : String → List PeriodLock}
    (hlk : ∀ denom d, k.GetLocksLongerThanDurationDenom denom d
      = (L denom).filter (fun l => decide (d ≤ l.Duration)))
    {gauges : List Gauge}
    (hby : ∀ g ∈ gauges, g.DistributeTo.LockQueryType = ByDuration
      ∧ Millisecond ≤ g.DistributeTo.Duration)
    {cache : List (String × List PeriodLock)} (hcache : CacheFaithful k cache)
    (info : distributionInfo) (total0 : Coins) :
    ((distributeGaugesLoopTraced k gauges cache info total0).2.map Prod.fst) <+: gauges
      ∧ (∀ total, (distributeGaugesLoopTraced k gauges cache info total0).1.ret = .ok total →
          (distributeGaugesLoopTraced k gauges cache info total0).2.map Prod.fst = gauges)
      ∧ ∀ p ∈ (distributeGaugesLoopTraced k gauges cache info total0).2,
          p.2 = k.GetLocksLongerThanDurationDenom p.1.DistributeTo.Denom
            p.1.DistributeTo.Duration := by
  induction gauges generalizing cache info total0 with
  | nil =>
    refine ⟨?_, ?_, ?_⟩
    · simp [distributeGaugesLoopTraced]
    · simp [distributeGaugesLoopTraced]
    · simp [distributeGaugesLoopTraced]
  | cons gauge rest ih =>
    obtain ⟨hg1, hg2⟩ := hby gauge (List.mem_cons_self _ _)
    obtain ⟨cache1, hc, hcache1⟩ := cachedLocks_faithful hcache hg1 hg2
    have hfilter := filter_sentinel_eq hlk gauge.DistributeTo.Denom hg2
    simp only [distributeGaugesLoopTraced, hc, hfilter]
    cases hr : (distributeInternal k gauge
        (k.GetLocksLongerThanDurationDenom gauge.DistributeTo.Denom
          gauge.DistributeTo.Duration) info).ret with
    | error e =>
      simp only [List.map_cons, List.map_nil]
      refine ⟨⟨rest, rfl⟩, ?_, ?_⟩
      · intro total h
        cases h
      · intro p hp
        rw [List.mem_singleton] at hp
        subst hp
        rfl
    | ok t =>
      simp only [List.map_cons]
      obtain ⟨h1, h2, h3⟩ := ih (fun g hg => hby g (List.mem_cons_of_mem _ hg)) hcache1
        (distributeInternal k gauge
          (k.GetLocksLongerThanDurationDenom gauge.DistributeTo.Denom
            gauge.DistributeTo.Duration) info).distrInfo (Coins.Add total0 t)
      refine ⟨?_, fun total h => ?_, fun p hp => ?_⟩
      · obtain ⟨tl, htl⟩ := h1
        exact ⟨tl, by rw [List.cons_append, htl]⟩
      · rw [h2 total h]
      · rcases List.mem_cons.mp hp with hp | hp
        · subst hp; rfl
        · exact h3 p hp

/-- C21: the per-epoch denom cache is a faithful optimisation.  Assume the lock keeper
returns for `(denom, d)` exactly the locks of a fixed list for the denom that have
`duration ≥ d`, in the order of that list; `FilterLocksByMinDuration` keeps, in order, the
locks with `duration ≥` its argument.  Then for every list of by-duration gauges whose
durations are all at least one millisecond, the loop of `Distribute` (the traced loop
computes the same result) passes to `distributeInternal`, for each gauge it reaches, the
locks the lock keeper returns for that gauge's own denom and duration; it reaches the
gauges in order, all of them when the loop returns without failure; and the same holds for
every reordering of the gauges, so the locks passed for a gauge do not depend on the
order. -/
theorem Distribute_cache_faithful (k : Keeper) (L : String → List PeriodLock)
    (hlk : ∀ denom d, k.GetLocksLongerThanDurationDenom denom d
      = (L denom).filter (fun l => decide (d ≤ l.Duration)))
    (gauges : List Gauge)
    (hby : ∀ g ∈ gauges, g.DistributeTo.LockQueryType = ByDuration
      ∧ Millisecond ≤ g.DistributeTo.Duration) :
    (distributeGaugesLoopTraced k gauges [] newDistributionInfo []).1
        = distributeGaugesLoop k gauges [] newDistributionInfo []
      ∧ ((distributeGaugesLoopTraced k gauges [] newDistributionInfo []).2.map Prod.fst)
          <+: gauges
      ∧ (∀ total, (distributeGaugesLoop k gauges [] newDistributionInfo []).ret = .ok total →
          (distributeGaugesLoopTraced k gauges [] newDistributionInfo []).2.map Prod.fst
            = gauges)
      ∧ (∀ p ∈ (distributeGaugesLoopTraced k gauges [] newDistributionInfo []).2,
          p.2 = k.GetLocksLongerThanDurationDenom p.1.DistributeTo.Denom
            p.1.DistributeTo.Duration)
      ∧ (∀ gauges2 : List Gauge, gauges2.Perm gauges →
          ∀ p ∈ (distributeGaugesLoopTraced k gauges2 [] newDistributionInfo []).2,
            p.2 = k.GetLocksLongerThanDurationDenom p.1.DistributeTo.Denom
              p.1.DistributeTo.Duration) := by
  obtain ⟨h1, h2, h3⟩ := distributeGaugesLoopTraced_calls hlk hby (cacheFaithful_nil k)
    newDistributionInfo []
  refine ⟨distributeGaugesLoopTraced_fst k gauges [] newDistributionInfo [], h1,
    fun total h => h2 total ?_, h3, fun gauges2 hperm => ?_⟩
  · rw [distributeGaugesLoopTraced_fst]
    exact h
  · exact (distributeGaugesLoopTraced_calls hlk
      (fun g hg => hby g (hperm.mem_iff.mp hg)) (cacheFaithful_nil k)
      newDistributionInfo []).2.2

/-! ## Repeated application of `NativeDenom` -/

theorem stringsContains_eq_false_iff (s sep : List Char) :
    stringsContains s sep = false ↔ ¬ sep <:+: s := by
  rw [← stringsContains_iff, Bool.not_eq_true]

theorem prefixBefore_initial (sep s : List Char) : prefixBefore sep s <+: s := by
  induction s with
  | nil => simp [prefixBefore]
  | cons c cs ih =>
    unfold prefixBefore
    by_cases h : sep.isPrefixOf (c :: cs) = true
    · rw [if_pos h]
      exact List.nil_prefix
    · rw [if_neg h]
      obtain ⟨t, ht⟩ := ih
      exact ⟨t, by rw [List.cons_append, ht]⟩

/-- The prefix before the first occurrence of a non-empty separator does not contain the
separator. -/
theorem not_infix_prefixBefore {sep : List Char} (hsep : sep ≠ []) (s : List Char) :
    ¬ sep <:+: prefixBefore sep s := by
  induction s with
  | nil =>
    intro h
    simp only [prefixBefore, List.infix_nil] at h
    exact hsep h
  | cons c cs ih =>
    unfold prefixBefore
    by_cases hp : sep.isPrefixOf (c :: cs) = true
    · rw [if_pos hp]
      intro h
      exact hsep (List.infix_nil.mp h)
    · rw [if_neg hp]
      intro h
      rcases List.infix_cons_iff.mp h with h1 | h1
      · apply hp
        rw [List.isPrefixOf_iff_prefix]
        obtain ⟨t, ht⟩ := prefixBefore_initial sep cs
        exact h1.trans ⟨t, by rw [List.cons_append, ht]⟩
      · exact ih h1

theorem NativeDenom_data_superbonding {d : String} (h : "superbonding".data <:+: d.data) :
    (NativeDenom d).data = prefixBefore "superbonding".data d.data := by
  have hc := (stringsContains_iff d.data "superbonding".data).mpr h
  unfold NativeDenom
  simp only [hc, if_true, stringsSplit, stringsSplitGo_head, List.reverse_nil,
    List.nil_append]

theorem NativeDenom_data_superunbonding {d : String} (h1 : ¬ "superbonding".data <:+: d.data)
    (h2 : "superunbonding".data <:+: d.data) :
    (NativeDenom d).data = prefixBefore "superunbonding".data d.data := by
  have hc1 : ¬ stringsContains d.data "superbonding".data = true :=
    fun hc => h1 ((stringsContains_iff _ _).mp hc)
  have hc2 := (stringsContains_iff d.data "superunbonding".data).mpr h2
  unfold NativeDenom
  rw [if_neg hc1, if_pos hc2]
  simp only [stringsSplit, stringsSplitGo_head, List.reverse_nil, List.nil_append]

theorem NativeDenom_fixed {d : String} (h1 : ¬ "superbonding".data <:+: d.data)
    (h2 : ¬ "superunbonding".data <:+: d.data) : NativeDenom d = d := by
  have hc1 : ¬ stringsContains d.data "superbonding".data = true :=
    fun hc => h1 ((stringsContains_iff _ _).mp hc)
  have hc2 : ¬ stringsContains d.data "superunbonding".data = true :=
    fun hc => h2 ((stringsContains_iff _ _).mp hc)
  unfold NativeDenom
  rw [if_neg hc1, if_neg hc2]

/-- The result of `NativeDenom` never contains `superbonding`. -/
theorem NativeDenom_no_superbonding (d : String) :
    ¬ "superbonding".data <:+: (NativeDenom d).data := by
  by_cases h1 : "superbonding".data <:+: d.data
  · rw [NativeDenom_data_superbonding h1]
    exact not_infix_prefixBefore (by decide) _
  · by_cases h2 : "superunbonding".data <:+: d.data
    · rw [NativeDenom_data_superunbonding h1 h2]
      intro h
      exact h1 (h.trans (prefixBefore_initial _ _).isInfix)
    · rw [NativeDenom_fixed h1 h2]
      exact h1

/-- On a string without `superbonding` the result of `NativeDenom` does not contain
`superunbonding`. -/
theorem NativeDenom_no_superunbonding {d : String} (h1 : ¬ "superbonding".data <:+: d.data) :
    ¬ "superunbonding".data <:+: (NativeDenom d).data := by
  by_cases h2 : "superunbonding".data <:+: d.data
  · rw [NativeDenom_data_superunbonding h1 h2]
    exact not_infix_prefixBefore (by decide) _
  · rw [NativeDenom_fixed h1 h2]
    exact h2

/-- A string that contains `superunbonding` is not a fixed point of `NativeDenom`. -/
theorem NativeDenom_ne_of_superunbonding {d : String}
    (h2 : "superunbonding".data <:+: d.data) : NativeDenom d ≠ d := by
  intro heq
  by_cases h1 : "superbonding".data <:+: d.data
  · have := NativeDenom_no_superbonding d
    rw [heq] at this
    exact this h1
  · have := NativeDenom_no_superunbonding h1
    rw [heq] at this
    exact this h2

/-- C22 (amended): for every string `d`, the result of `NativeDenom d` does not contain
`superbonding`, and `NativeDenom (NativeDenom d) = NativeDenom d` holds exactly when
`NativeDenom d` does not contain `superunbonding`.  That is the case whenever `d` does not
contain `superbonding`: then one application leaves neither marker and a second one changes
nothing.  In every case two applications leave neither marker, and a third application
changes nothing. -/
theorem NativeDenom_twice (d : String) :
    stringsContains (NativeDenom d).data "superbonding".data = false
      ∧ (NativeDenom (NativeDenom d) = NativeDenom d
          ↔ stringsContains (NativeDenom d).data "superunbonding".data = false)
      ∧ (stringsContains d.data "superbonding".data = false →
          stringsContains (NativeDenom d).data "superunbonding".data = false
            ∧ NativeDenom (NativeDenom d) = NativeDenom d)
      ∧ stringsContains (NativeDenom (NativeDenom d)).data "superbonding".data = false
      ∧ stringsContains (NativeDenom (NativeDenom d)).data "superunbonding".data = false
      ∧ NativeDenom (NativeDenom (NativeDenom d)) = NativeDenom (NativeDenom d) := by
  have hsb := NativeDenom_no_superbonding d
  have hsb2 := NativeDenom_no_superbonding (NativeDenom d)
  have hsub2 := NativeDenom_no_superunbonding hsb
  refine ⟨(stringsContains_eq_false_iff _ _).mpr hsb, ⟨fun heq => ?_, fun hc => ?_⟩,
    fun hc => ?_, (stringsContains_eq_false_iff _ _).mpr hsb2,
    (stringsContains_eq_false_iff _ _).mpr hsub2, NativeDenom_fixed hsb2 hsub2⟩
  · rw [stringsContains_eq_false_iff]
    intro h
    exact NativeDenom_ne_of_superunbonding h heq
  · exact NativeDenom_fixed hsb ((stringsContains_eq_false_iff _ _).mp hc)
  · have h1 := (stringsContains_eq_false_iff _ _).mp hc
    have h2 := NativeDenom_no_superunbonding h1
    exact ⟨(stringsContains_eq_false_iff _ _).mpr h2, NativeDenom_fixed hsb h2⟩

/-! ## The claims at concrete inputs -/

/-- Scenario 3 of the specification satisfies the hypotheses of C1: amounts 16, 33, 50. -/
theorem distributeInternal_allocations_witness :
    SumLocksByDenom threeLocks (NativeDenom perpetualGauge.DistributeTo.Denom) = .ok 6
    ∧ 0 < 6 ∧ 1 ≤ remainEpochs perpetualGauge ∧ remainEpochs perpetualGauge < 2 ^ 63
    ∧ (distributeInternal exampleKeeper perpetualGauge threeLocks newDistributionInfo).ret
        = .ok [⟨"ufoo", 99⟩]
    ∧ ∃ (remain : Coins) (allocs : List Coins),
      Coins.Sub perpetualGauge.Coins perpetualGauge.DistributedCoins = .ok remain
      ∧ List.Forall₂ (fun lock A => IsAllocation remain
          (Coins.AmountOfNoDenomValidation lock.Coins
            (NativeDenom perpetualGauge.DistributeTo.Denom))
          6 (remainEpochs perpetualGauge) A) threeLocks allocs
      ∧ addLockRewardsAll exampleKeeper.AccAddressFromBech32 newDistributionInfo
          (nonEmptyAllocations threeLocks allocs)
          = ((distributeInternal exampleKeeper perpetualGauge threeLocks
              newDistributionInfo).distrInfo, .ok ()) :=
  ⟨by decide, by decide, by decide, by decide, by decide,
    distributeInternal_allocations exampleKeeper perpetualGauge threeLocks newDistributionInfo 6
      [⟨"ufoo", 99⟩] (by decide) (by decide) (by decide) (by decide) (by decide)⟩

/-- C1 fails as stated.  With `remain_epochs = 2 ^ 63` the conversion `int64(remainEpochs)`
is negative: the formula gives the lock `2 ^ 63 * 1 / (1 * 2 ^ 63) = 1`, the code gives it
nothing and leaves the batch empty.  And when the owner of the second of three locks does
not decode, the call returns the error and the third lock is never given its
`100 * 1 / (3 * 10) = 3`. -/
theorem distributeInternal_allocations_counterexample :
    (SumLocksByDenom [exampleLock 1 "osmo1a" 1] (NativeDenom hugeEpochsGauge.DistributeTo.Denom)
        = .ok 1
      ∧ 1 ≤ remainEpochs hugeEpochsGauge
      ∧ Coins.Sub hugeEpochsGauge.Coins hugeEpochsGauge.DistributedCoins
          = .ok [⟨"ufoo", 9223372036854775808⟩]
      ∧ 9223372036854775808 * 1 / (1 * remainEpochs hugeEpochsGauge) = 1
      ∧ distributeInternal exampleKeeper hugeEpochsGauge [exampleLock 1 "osmo1a" 1]
          newDistributionInfo
          = ⟨newDistributionInfo,
              [Effect.setGauge { hugeEpochsGauge with FilledEpochs := 1 }], .ok []⟩)
    ∧ (SumLocksByDenom locksWithForeignOwner (NativeDenom tenEpochGauge.DistributeTo.Denom)
        = .ok 3
      ∧ remainEpochs tenEpochGauge = 10
      ∧ 100 * 1 / (3 * 10) = 3
      ∧ (distributeInternal exampleKeeper tenEpochGauge locksWithForeignOwner
          newDistributionInfo).ret = .error (.error "decoding bech32 failed")
      ∧ (distributeInternal exampleKeeper tenEpochGauge locksWithForeignOwner
          newDistributionInfo).distrInfo.idToBech32Addr = ["osmo1a"]) := by
  decide

/-- Scenario 2 of the specification satisfies the hypotheses of C2: `7ufoo` over 3 epochs. -/
theorem distributeInternal_persists_witness :
    SumLocksByDenom [exampleLock 1 "osmo1a" 1]
        (NativeDenom (exampleGauge false [⟨"ufoo", 7⟩] [] 3 0).DistributeTo.Denom) = .ok 1
    ∧ 0 < 1
    ∧ (distributeInternal exampleKeeper (exampleGauge false [⟨"ufoo", 7⟩] [] 3 0)
        [exampleLock 1 "osmo1a" 1] newDistributionInfo).ret = .ok [⟨"ufoo", 2⟩]
    ∧ (distributeInternal exampleKeeper (exampleGauge false [⟨"ufoo", 7⟩] [] 3 0)
        [exampleLock 1 "osmo1a" 1] newDistributionInfo).effects
        = [Effect.setGauge (exampleGauge false [⟨"ufoo", 7⟩] [⟨"ufoo", 2⟩] 3 1)] :=
  ⟨by decide, by decide, by decide,
    ((distributeInternal_persists exampleKeeper (exampleGauge false [⟨"ufoo", 7⟩] [] 3 0)
      [exampleLock 1 "osmo1a" 1] newDistributionInfo 1 [⟨"ufoo", 2⟩]
      (by decide) (by decide) (by decide)).1).trans (by decide)⟩

/-- C2 fails as stated: at `FilledEpochs = 2 ^ 64 - 1` the `uint64` increment wraps, and
the gauge persisted by a successful call has `FilledEpochs = 0`. -/
theorem distributeInternal_persists_counterexample :
    SumLocksByDenom [exampleLock 1 "osmo1a" 1] (NativeDenom lastEpochGauge.DistributeTo.Denom)
        = .ok 1
    ∧ lastEpochGauge.FilledEpochs = 18446744073709551615
    ∧ distributeInternal exampleKeeper lastEpochGauge [exampleLock 1 "osmo1a" 1]
        newDistributionInfo
        = ⟨{ nextID := 1, lockOwnerAddrToID := [("osmo1a", 0)], idToBech32Addr := ["osmo1a"],
             idToDecodedAddr := [[97]], idToDistrCoins := [[⟨"ufoo", 1⟩]] },
            [Effect.setGauge { lastEpochGauge with
              FilledEpochs := 0, DistributedCoins := [⟨"ufoo", 1⟩] }],
            .ok [⟨"ufoo", 1⟩]⟩ := by
  decide

/-- Scenario 1 of the specification satisfies the hypotheses of C3. -/
theorem distributeInternal_preserves_distributed_le_witness :
    Coins.le tenEpochGauge.DistributedCoins tenEpochGauge.Coins
    ∧ Effect.setGauge (exampleGauge false [⟨"ufoo", 100⟩] [⟨"ufoo", 10⟩] 10 1)
        ∈ (distributeInternal exampleKeeper tenEpochGauge
            [exampleLock 1 "osmo1a" 1, exampleLock 2 "osmo1b" 1] newDistributionInfo).effects
    ∧ Coins.le (exampleGauge false [⟨"ufoo", 100⟩] [⟨"ufoo", 10⟩] 10 1).DistributedCoins
        (exampleGauge false [⟨"ufoo", 100⟩] [⟨"ufoo", 10⟩] 10 1).Coins :=
  ⟨fun _ => Nat.zero_le _, by decide,
    distributeInternal_preserves_distributed_le exampleKeeper tenEpochGauge
      [exampleLock 1 "osmo1a" 1, exampleLock 2 "osmo1b" 1] newDistributionInfo
      (exampleGauge false [⟨"ufoo", 100⟩] [⟨"ufoo", 10⟩] 10 1)
      (fun _ => Nat.zero_le _) (by decide)⟩

/-- C4 fails on the code: a non-perpetual gauge with `FilledEpochs = NumEpochsPaidOver = 1`
and nothing left to pay is persisted with `FilledEpochs = 2`, above `NumEpochsPaidOver`. -/
theorem distributeInternal_overfills_finished_gauge :
    finishedGauge.IsPerpetual = false
    ∧ finishedGauge.FilledEpochs ≤ finishedGauge.NumEpochsPaidOver
    ∧ distributeInternal exampleKeeper finishedGauge [exampleLock 1 "osmo1a" 1]
        newDistributionInfo
        = ⟨newDistributionInfo, [Effect.setGauge { finishedGauge with FilledEpochs := 2 }],
            .ok []⟩
    ∧ ¬ ((2 : Nat) ≤ finishedGauge.NumEpochsPaidOver) := by
  decide

/-- C5 fails on the code: a non-perpetual gauge with `NumEpochsPaidOver = FilledEpochs = 3`
and `1ufoo` left makes `distributeInternal` divide by `lockSum * 0` and panic. -/
theorem distributeInternal_zero_remain_epochs_panics :
    filledGaugeWithDust.IsPerpetual = false
    ∧ filledGaugeWithDust.NumEpochsPaidOver = filledGaugeWithDust.FilledEpochs
    ∧ remainEpochs filledGaugeWithDust = 0
    ∧ distributeInternal exampleKeeper filledGaugeWithDust [exampleLock 1 "osmo1a" 1]
        newDistributionInfo
        = ⟨newDistributionInfo, [], .error (.panic "Division by zero")⟩ := by
  decide

/-- A gauge over `token` and locks of another denom satisfy the hypotheses of C6, and so
does a gauge over the hyphenated denom `gamm-pool` with no locks. -/
theorem distributeInternal_zero_lock_sum_witness :
    ValidateDenom (NativeDenom tenEpochGauge.DistributeTo.Denom) = true
    ∧ ([({ exampleLock 1 "osmo1a" 0 with Coins := [⟨"other", 5⟩] } : PeriodLock)].map
        (fun l => Coins.AmountOfNoDenomValidation l.Coins
          (NativeDenom tenEpochGauge.DistributeTo.Denom))).sum = 0
    ∧ distributeInternal exampleKeeper tenEpochGauge
        [{ exampleLock 1 "osmo1a" 0 with Coins := [⟨"other", 5⟩] }] newDistributionInfo
        = ⟨newDistributionInfo, [], .ok []⟩
    ∧ ValidateDenom (NativeDenom hyphenDenomGauge.DistributeTo.Denom) = true
    ∧ distributeInternal exampleKeeper hyphenDenomGauge [] newDistributionInfo
        = ⟨newDistributionInfo, [], .ok []⟩ :=
  ⟨by decide, by decide,
    (distributeInternal_zero_lock_sum exampleKeeper tenEpochGauge
      [{ exampleLock 1 "osmo1a" 0 with Coins := [⟨"other", 5⟩] }] newDistributionInfo
      (by decide) (by decide)).1,
    by decide,
    (distributeInternal_zero_lock_sum exampleKeeper hyphenDenomGauge [] newDistributionInfo
      (by decide) (by decide)).1⟩

/-- C6 fails as stated: the native denom of `superbondingfoo` is the empty string, which
`SumLocksByDenom` rejects by panicking, also for the empty list of locks. -/
theorem distributeInternal_zero_lock_sum_counterexample :
    NativeDenom syntheticGauge.DistributeTo.Denom = ""
    ∧ distributeInternal exampleKeeper syntheticGauge [] newDistributionInfo
        = ⟨newDistributionInfo, [], .error (.panic "invalid denom used internally")⟩ := by
  decide

/-- Scenario 3 of the specification satisfies the hypotheses of C8: paid 99, dust 1. -/
theorem distributeInternal_dust_witness :
    SumLocksByDenom threeLocks (NativeDenom perpetualGauge.DistributeTo.Denom) = .ok 6
    ∧ 0 < 6 ∧ 1 ≤ remainEpochs perpetualGauge ∧ remainEpochs perpetualGauge < 2 ^ 63
    ∧ (distributeInternal exampleKeeper perpetualGauge threeLocks newDistributionInfo).ret
        = .ok [⟨"ufoo", 99⟩]
    ∧ ∃ (remain : Coins) (persisted : Gauge),
      Coins.Sub perpetualGauge.Coins perpetualGauge.DistributedCoins = .ok remain
      ∧ (distributeInternal exampleKeeper perpetualGauge threeLocks newDistributionInfo).effects
          = [Effect.setGauge persisted]
      ∧ ∀ c ∈ remain, ∃ residual : Nat,
          Coins.AmountOfNoDenomValidation [⟨"ufoo", 99⟩] c.Denom + residual
            = c.Amount / remainEpochs perpetualGauge
          ∧ residual < threeLocks.length
          ∧ Coins.AmountOfNoDenomValidation persisted.Coins c.Denom
            = Coins.AmountOfNoDenomValidation persisted.DistributedCoins c.Denom
              + (c.Amount - Coins.AmountOfNoDenomValidation [⟨"ufoo", 99⟩] c.Denom)
          ∧ residual ≤ c.Amount - Coins.AmountOfNoDenomValidation [⟨"ufoo", 99⟩] c.Denom :=
  ⟨by decide, by decide, by decide, by decide, by decide,
    distributeInternal_dust exampleKeeper perpetualGauge threeLocks newDistributionInfo 6
      [⟨"ufoo", 99⟩] (by decide) (by decide) (by decide) (by decide) (by decide)⟩

/-- C8 fails as stated.  With `remain_epochs = 2 ^ 63` and one lock the call pays nothing
of the `2 ^ 63 / 2 ^ 63 = 1` due this epoch: the residual is 1, not less than `K = 1`.
And when the second of three owners does not decode the call fails and persists nothing,
while `100 / 10 = 10` was due. -/
theorem distributeInternal_dust_counterexample :
    (1 ≤ remainEpochs hugeEpochsGauge
      ∧ Coins.le hugeEpochsGauge.DistributedCoins hugeEpochsGauge.Coins
      ∧ (distributeInternal exampleKeeper hugeEpochsGauge [exampleLock 1 "osmo1a" 1]
          newDistributionInfo).ret = .ok []
      ∧ Coins.AmountOfNoDenomValidation [] "ufoo" + 1
          = 9223372036854775808 / remainEpochs hugeEpochsGauge
      ∧ ¬ (1 < [exampleLock 1 "osmo1a" 1].length))
    ∧ ((distributeInternal exampleKeeper tenEpochGauge locksWithForeignOwner
          newDistributionInfo).effects = []
      ∧ (distributeInternal exampleKeeper tenEpochGauge locksWithForeignOwner
          newDistributionInfo).ret = .error (.error "decoding bech32 failed")
      ∧ 100 / remainEpochs tenEpochGauge = 10) :=
  ⟨⟨by decide, fun _ => Nat.zero_le _, by decide, by decide, by decide⟩, by decide⟩

/-- Three calls for two owners satisfy the hypotheses of C9: `osmo1a` holds `8ufoo`. -/
theorem addLockRewards_aggregates_witness :
    addLockRewardsAll exampleKeeper.AccAddressFromBech32 newDistributionInfo threeCalls
        = (threeCallsBatch, .ok ())
    ∧ "osmo1a" ∈ threeCalls.map (fun p => p.1.Owner)
    ∧ ∃ (id : Nat) (coins : Coins),
      threeCallsBatch.lockOwnerAddrToID.lookup "osmo1a" = some id
      ∧ threeCallsBatch.idToDistrCoins.get? id = some coins
      ∧ (∀ denom, Coins.AmountOfNoDenomValidation coins denom
          = ((threeCalls.filter (fun p => p.1.Owner = "osmo1a")).map
              (fun p => Coins.AmountOfNoDenomValidation p.2 denom)).sum)
      ∧ ∀ j, threeCallsBatch.idToBech32Addr.get? j = some "osmo1a" ↔ j = id :=
  ⟨by decide, by decide,
    addLockRewards_aggregates exampleKeeper.AccAddressFromBech32 threeCalls threeCallsBatch
      (by decide) "osmo1a" (by decide)⟩

/-- Three calls for two owners satisfy the hypothesis of C10: two recipients. -/
theorem addLockRewards_recipients_witness :
    addLockRewardsAll exampleKeeper.AccAddressFromBech32 newDistributionInfo threeCalls
        = (threeCallsBatch, .ok ())
    ∧ threeCallsBatch.idToBech32Addr = distinctOwners (threeCalls.map (fun p => p.1.Owner))
    ∧ threeCallsBatch.idToBech32Addr.length = 2
    ∧ (threeCalls.map (fun p => p.1.Owner)).toFinset.card = 2 :=
  ⟨by decide,
    (addLockRewards_recipients exampleKeeper.AccAddressFromBech32 threeCalls threeCallsBatch
      (by decide)).1, by decide, by decide⟩

/-- Scenario 4 of the specification satisfies the hypothesis of C7: two gauges over the
same two owners, one bank call of `55ufoo` each, `110ufoo` in total. -/
theorem Distribute_conservation_witness :
    Distribute stakedKeeper [tenEpochGauge, perpetualGauge]
        = ⟨[Effect.setGauge (exampleGauge false [⟨"ufoo", 100⟩] [⟨"ufoo", 10⟩] 10 1),
            Effect.setGauge (exampleGauge true [⟨"ufoo", 100⟩] [⟨"ufoo", 100⟩] 0 1),
            Effect.SendCoinsFromModuleToManyAccounts [[97], [98]]
              [[⟨"ufoo", 55⟩], [⟨"ufoo", 55⟩]],
            Effect.distributionEvent "osmo1a" [⟨"ufoo", 55⟩],
            Effect.distributionEvent "osmo1b" [⟨"ufoo", 55⟩],
            Effect.AfterEpochDistribution],
          .ok [⟨"ufoo", 110⟩]⟩
    ∧ ∃ (persisted : List (Gauge × Gauge)) (addrs : List AccAddress) (coins : List Coins),
      (persisted.map Prod.fst).Sublist [tenEpochGauge, perpetualGauge]
      ∧ persistedGauges (Distribute stakedKeeper [tenEpochGauge, perpetualGauge]).effects
          = persisted.map Prod.snd
      ∧ (∀ p ∈ persisted, ∃ t, p.2 = { p.1 with
            FilledEpochs := (p.1.FilledEpochs + 1) % 2 ^ 64,
            DistributedCoins := Coins.Add p.1.DistributedCoins t })
      ∧ bankCalls (Distribute stakedKeeper [tenEpochGauge, perpetualGauge]).effects
          = [(addrs, coins)]
      ∧ ∀ denom,
          (coins.map (fun c => Coins.AmountOfNoDenomValidation c denom)).sum
            = Coins.AmountOfNoDenomValidation [⟨"ufoo", 110⟩] denom
          ∧ (persisted.map (fun p =>
                Coins.AmountOfNoDenomValidation p.2.DistributedCoins denom
                  - Coins.AmountOfNoDenomValidation p.1.DistributedCoins denom)).sum
            = Coins.AmountOfNoDenomValidation [⟨"ufoo", 110⟩] denom :=
  ⟨by decide,
    Distribute_conservation stakedKeeper [tenEpochGauge, perpetualGauge] [⟨"ufoo", 110⟩]
      (by decide)⟩

/-- The first call on the empty batch satisfies the hypothesis of C11. -/
theorem addLockRewards_preserves_invariant_witness :
    BatchInvariant newDistributionInfo
    ∧ (newDistributionInfo.addLockRewards exampleKeeper.AccAddressFromBech32
        (exampleLock 1 "osmo1a" 1) [⟨"ufoo", 5⟩]).2 = .ok ()
    ∧ BatchInvariant (newDistributionInfo.addLockRewards exampleKeeper.AccAddressFromBech32
        (exampleLock 1 "osmo1a" 1) [⟨"ufoo", 5⟩]).1 :=
  ⟨batchInvariant_new, by decide,
    (addLockRewards_preserves_invariant exampleKeeper.AccAddressFromBech32 newDistributionInfo
      (exampleLock 1 "osmo1a" 1) [⟨"ufoo", 5⟩] batchInvariant_new).2.1 (by decide)⟩

/-- C11 fails as stated: a call whose owner does not decode returns the error after it
has incremented `nextID` and recorded the owner in the table, so the batch it leaves has
`nextID = 1` for sequences of length 0 and maps the owner to an id that no entry holds. -/
theorem addLockRewards_preserves_invariant_counterexample :
    newDistributionInfo.addLockRewards exampleKeeper.AccAddressFromBech32
        (exampleLock 2 "cosmos1b" 1) [⟨"ufoo", 5⟩]
      = ({ nextID := 1, lockOwnerAddrToID := [("cosmos1b", 0)], idToBech32Addr := [],
           idToDecodedAddr := [], idToDistrCoins := [] },
         .error (.error "decoding bech32 failed"))
    ∧ ¬ BatchInvariant (newDistributionInfo.addLockRewards exampleKeeper.AccAddressFromBech32
        (exampleLock 2 "cosmos1b" 1) [⟨"ufoo", 5⟩]).1 :=
  ⟨by decide, fun h => absurd h.1 (by decide)⟩

/-- Scenario 4 of the specification satisfies the hypothesis of C12, with a bank that
accepts the transfer and with one that rejects it. -/
theorem Distribute_effects_order_witness :
    distributeGaugesLoop stakedKeeper [tenEpochGauge, perpetualGauge] [] newDistributionInfo []
        = ⟨twoGaugesBatch, twoGaugesWrites, .ok [⟨"ufoo", 110⟩]⟩
    ∧ Distribute stakedKeeper [tenEpochGauge, perpetualGauge]
        = ⟨twoGaugesWrites
            ++ [Effect.SendCoinsFromModuleToManyAccounts twoGaugesBatch.idToDecodedAddr
                  twoGaugesBatch.idToDistrCoins]
            ++ List.zipWith Effect.distributionEvent twoGaugesBatch.idToBech32Addr
                  twoGaugesBatch.idToDistrCoins
            ++ [Effect.AfterEpochDistribution],
           .ok [⟨"ufoo", 110⟩]⟩
    ∧ Distribute failingBankKeeper [tenEpochGauge, perpetualGauge]
        = ⟨twoGaugesWrites
            ++ [Effect.SendCoinsFromModuleToManyAccounts twoGaugesBatch.idToDecodedAddr
                  twoGaugesBatch.idToDistrCoins],
           .error (.error "insufficient funds")⟩ :=
  ⟨by decide,
    (Distribute_effects_order stakedKeeper [tenEpochGauge, perpetualGauge] twoGaugesBatch
      twoGaugesWrites [⟨"ufoo", 110⟩] (by decide)).2.2.2.1 (by decide),
    (Distribute_effects_order failingBankKeeper [tenEpochGauge, perpetualGauge] twoGaugesBatch
      twoGaugesWrites [⟨"ufoo", 110⟩] (by decide)).2.2.2.2.1 "insufficient funds" (by decide)⟩

/-- An owner that does not decode satisfies the hypotheses of C13: `Distribute` returns the
decoder's error and has made no bank call, emitted no event and called no hook. -/
theorem addLockRewards_error_aborts_witness :
    (distributeGaugesLoop foreignOwnerKeeper [tenEpochGauge] [] newDistributionInfo []).ret
        = .error (.error "decoding bech32 failed")
    ∧ Distribute foreignOwnerKeeper [tenEpochGauge]
        = ⟨[], .error (.error "decoding bech32 failed")⟩ :=
  ⟨by decide,
    ((addLockRewards_error_aborts foreignOwnerKeeper).2.2.2.2.1 [tenEpochGauge]
      (.error "decoding bech32 failed") (by decide)).1.trans (by decide)⟩

/-- Each case of C14 (amended) occurs: three locks of `token` sum to 6 and a lock of
`gamm-pool` to 5; two locks of `2 ^ 255` overflow the `sdk.Int`; the two-character denom
`ab` is not valid and the call panics. -/
theorem SumLocksByDenom_valid_witness :
    ValidateDenom "token" = true
    ∧ SumLocksByDenom threeLocks "token" = .ok 6
    ∧ ValidateDenom "gamm-pool" = true
    ∧ SumLocksByDenom [{ exampleLock 1 "osmo1a" 0 with Coins := [⟨"gamm-pool", 5⟩] }]
        "gamm-pool" = .ok 5
    ∧ SumLocksByDenom [exampleLock 1 "osmo1a" (2 ^ 255), exampleLock 2 "osmo1b" (2 ^ 255)]
        "token" = .error (.panic "Int overflow")
    ∧ ValidateDenom "ab" = false
    ∧ SumLocksByDenom threeLocks "ab" = .error (.panic "invalid denom used internally") :=
  ⟨by decide,
    ((SumLocksByDenom_valid threeLocks "token").1 (by decide)).1 (by decide),
    by decide,
    ((SumLocksByDenom_valid [{ exampleLock 1 "osmo1a" 0 with Coins := [⟨"gamm-pool", 5⟩] }]
      "gamm-pool").1 (by decide)).1 (by decide),
    ((SumLocksByDenom_valid
      [exampleLock 1 "osmo1a" (2 ^ 255), exampleLock 2 "osmo1b" (2 ^ 255)] "token").1
      (by decide)).2.1 (by decide),
    by decide,
    (SumLocksByDenom_valid threeLocks "ab").2 (by decide)⟩

/-- C14 fails as stated: `SumLocksByDenom` validates the denom and panics on one that is
not valid, here the empty string and a denom of two characters held by the lock. -/
theorem SumLocksByDenom_valid_counterexample :
    SumLocksByDenom [] "" = .error (.panic "invalid denom used internally")
    ∧ Coins.AmountOfNoDenomValidation
        ({ exampleLock 1 "osmo1a" 0 with Coins := [⟨"ab", 5⟩] } : PeriodLock).Coins "ab" = 5
    ∧ SumLocksByDenom [{ exampleLock 1 "osmo1a" 0 with Coins := [⟨"ab", 5⟩] }] "ab"
        = .error (.panic "invalid denom used internally") := by
  decide

/-- A synthetic denom satisfies the hypothesis of the first case of C15. -/
theorem NativeDenom_spec_witness :
    "superbonding".data <:+: "gamm/pool/1superbondingvaloper".data
    ∧ NativeDenom "gamm/pool/1superbondingvaloper" = "gamm/pool/1"
    ∧ IsPrefixBeforeFirst "superbonding".data "gamm/pool/1superbondingvaloper".data
        (NativeDenom "gamm/pool/1superbondingvaloper").data :=
  ⟨⟨"gamm/pool/1".data, "valoper".data, by decide⟩, by decide,
    (NativeDenom_spec "gamm/pool/1superbondingvaloper").1
      ⟨"gamm/pool/1".data, "valoper".data, by decide⟩⟩

/-- Scenario 1 of the specification with a total of 2 locked and one lock of 1: `10ufoo`
per epoch, an estimate of `5ufoo`. -/
theorem FilteredLocksDistributionEst_estimate_witness :
    (FilteredLocksDistributionEst (accumulationKeeper 2) tenEpochGauge
        [exampleLock 1 "osmo1a" 1]).ret
        = .ok (exampleGauge false [⟨"ufoo", 100⟩] [⟨"ufoo", 10⟩] 10 1, [⟨"ufoo", 5⟩])
    ∧ (accumulationKeeper 2).GetPeriodLocksAccumulation tenEpochGauge.DistributeTo ≠ 0
    ∧ 1 ≤ remainEpochs tenEpochGauge
    ∧ ∃ remain pe,
        Coins.Sub tenEpochGauge.Coins tenEpochGauge.DistributedCoins = .ok remain
        ∧ (∀ d, Coins.AmountOfNoDenomValidation pe d
            = Coins.AmountOfNoDenomValidation remain d / remainEpochs tenEpochGauge)
        ∧ ∀ d, Coins.AmountOfNoDenomValidation [⟨"ufoo", 5⟩] d
            = ([exampleLock 1 "osmo1a" 1].map (fun l => Coins.AmountOfNoDenomValidation pe d
                * Coins.AmountOfNoDenomValidation l.Coins tenEpochGauge.DistributeTo.Denom
                / ((accumulationKeeper 2).GetPeriodLocksAccumulation
                    tenEpochGauge.DistributeTo).toNat)).sum :=
  ⟨by decide, by decide, by decide,
    ((FilteredLocksDistributionEst_estimate (accumulationKeeper 2) tenEpochGauge
      [exampleLock 1 "osmo1a" 1] (exampleGauge false [⟨"ufoo", 100⟩] [⟨"ufoo", 10⟩] 10 1)
      [⟨"ufoo", 5⟩] (by decide)).2 (by decide) (by decide)).imp
      (fun _ hr => hr.imp (fun _ hpe =>
        ⟨hpe.1, hpe.2.1, hpe.2.2.2.2 (by decide) (by decide)⟩))⟩

/-- C16 fails on the code: with `remain_epochs = 2 ^ 63` and `2 ^ 63` remaining, the
amount per epoch is `gauge_size / remain_epochs = 1`, as the comment in the code says, and
that is the estimate for no filtered lock; but the code divides by `int64(remainEpochs)`,
which is `-2 ^ 63`, the quotient is `-1` and `sdk.NewCoin` panics. -/
theorem FilteredLocksDistributionEst_int64_epochs_panics :
    (accumulationKeeper 1).GetPeriodLocksAccumulation hugeEpochsGauge.DistributeTo ≠ 0
    ∧ 1 ≤ remainEpochs hugeEpochsGauge
    ∧ Coins.Sub hugeEpochsGauge.Coins hugeEpochsGauge.DistributedCoins
        = .ok [⟨"ufoo", 9223372036854775808⟩]
    ∧ 9223372036854775808 / remainEpochs hugeEpochsGauge = 1
    ∧ FilteredLocksDistributionEst (accumulationKeeper 1) hugeEpochsGauge []
        = ⟨[], .error (.panic "negative coin amount")⟩ := by
  decide

/-- Scenario 1 of the specification with a total of 2 locked satisfies the hypotheses of
C17: the preview has one more filled epoch and `10ufoo` more distributed. -/
theorem FilteredLocksDistributionEst_preview_witness :
    (FilteredLocksDistributionEst (accumulationKeeper 2) tenEpochGauge
        [exampleLock 1 "osmo1a" 1]).ret
        = .ok (exampleGauge false [⟨"ufoo", 100⟩] [⟨"ufoo", 10⟩] 10 1, [⟨"ufoo", 5⟩])
    ∧ (accumulationKeeper 2).GetPeriodLocksAccumulation tenEpochGauge.DistributeTo ≠ 0
    ∧ 1 ≤ remainEpochs tenEpochGauge
    ∧ ∃ pe : Coins,
      (∀ d, Coins.AmountOfNoDenomValidation pe d
          = (Coins.AmountOfNoDenomValidation tenEpochGauge.Coins d
              - Coins.AmountOfNoDenomValidation tenEpochGauge.DistributedCoins d)
            / remainEpochs tenEpochGauge)
      ∧ exampleGauge false [⟨"ufoo", 100⟩] [⟨"ufoo", 10⟩] 10 1 = { tenEpochGauge with
          FilledEpochs := (tenEpochGauge.FilledEpochs + 1) % 2 ^ 64,
          DistributedCoins := Coins.Add tenEpochGauge.DistributedCoins pe } :=
  ⟨by decide, by decide, by decide,
    (FilteredLocksDistributionEst_preview (accumulationKeeper 2) tenEpochGauge
      [exampleLock 1 "osmo1a" 1] (exampleGauge false [⟨"ufoo", 100⟩] [⟨"ufoo", 10⟩] 10 1)
      [⟨"ufoo", 5⟩] (by decide) (by decide) (by decide)).imp (fun _ hpe => ⟨hpe.1, hpe.2.1⟩)⟩

/-- C17 fails as stated.  With `remain_epochs = 2 ^ 63`, `DistributedCoins ≤ Coins` and a
positive total the call panics and returns no gauge; and at `FilledEpochs = 2 ^ 64 - 1`
the `uint64` increment wraps, so the preview has `FilledEpochs = 0`. -/
theorem FilteredLocksDistributionEst_preview_counterexample :
    (0 < (accumulationKeeper 1).GetPeriodLocksAccumulation hugeEpochsGauge.DistributeTo
      ∧ 1 ≤ remainEpochs hugeEpochsGauge
      ∧ (∃ remain, Coins.Sub hugeEpochsGauge.Coins hugeEpochsGauge.DistributedCoins
          = .ok remain)
      ∧ (FilteredLocksDistributionEst (accumulationKeeper 1) hugeEpochsGauge
          [exampleLock 1 "osmo1a" 1]).ret = .error (.panic "negative coin amount"))
    ∧ (lastEpochGauge.FilledEpochs = 18446744073709551615
      ∧ (FilteredLocksDistributionEst (accumulationKeeper 1) lastEpochGauge
          [exampleLock 1 "osmo1a" 1]).ret
          = .ok ({ lastEpochGauge with FilledEpochs := 0, DistributedCoins := [⟨"ufoo", 1⟩] },
                 [⟨"ufoo", 1⟩])) :=
  ⟨⟨by decide, by decide, ⟨_, rfl⟩, by decide⟩, by decide, by decide⟩

/-- Totals 2 and 4 satisfy the hypotheses of C18: the estimates are `5ufoo` and `2ufoo`. -/
theorem FilteredLocksDistributionEst_antitone_witness :
    (FilteredLocksDistributionEst (accumulationKeeper 2) tenEpochGauge
        [exampleLock 1 "osmo1a" 1]).ret
        = .ok (exampleGauge false [⟨"ufoo", 100⟩] [⟨"ufoo", 10⟩] 10 1, [⟨"ufoo", 5⟩])
    ∧ (FilteredLocksDistributionEst (accumulationKeeper 4) tenEpochGauge
        [exampleLock 1 "osmo1a" 1]).ret
        = .ok (exampleGauge false [⟨"ufoo", 100⟩] [⟨"ufoo", 10⟩] 10 1, [⟨"ufoo", 2⟩])
    ∧ ∃ g2 est2, (FilteredLocksDistributionEst (accumulationKeeper 4) tenEpochGauge
          [exampleLock 1 "osmo1a" 1]).ret = .ok (g2, est2)
        ∧ ∀ d, Coins.AmountOfNoDenomValidation est2 d
            ≤ Coins.AmountOfNoDenomValidation [⟨"ufoo", 5⟩] d :=
  ⟨by decide, by decide,
    FilteredLocksDistributionEst_antitone (accumulationKeeper 2) (accumulationKeeper 4)
      tenEpochGauge [exampleLock 1 "osmo1a" 1]
      (exampleGauge false [⟨"ufoo", 100⟩] [⟨"ufoo", 10⟩] 10 1) [⟨"ufoo", 5⟩]
      (by decide) (by decide) (by decide)⟩

/-- A gauge that starts at time 500 satisfies both hypotheses of C19: at block time 499
the call fails and the store is untouched, at block time 500 the gauge moves from the
upcoming to the active index. -/
theorem BeginDistribution_time_check_witness :
    BeginDistribution exampleDeleteRef exampleAddRef 499
        [(IndexKey.UpcomingGauges 500, 1)] upcomingGauge
        = ([(IndexKey.UpcomingGauges 500, 1)],
            some "gauge is not able to start distribution yet")
    ∧ BeginDistribution exampleDeleteRef exampleAddRef 500
        [(IndexKey.UpcomingGauges 500, 1)] upcomingGauge
        = ([(IndexKey.ActiveGauges 500, 1)], none) :=
  ⟨(BeginDistribution_time_check exampleDeleteRef exampleAddRef 499
      [(IndexKey.UpcomingGauges 500, 1)] upcomingGauge).1 (by decide),
    (BeginDistribution_time_check exampleDeleteRef exampleAddRef 500
      [(IndexKey.UpcomingGauges 500, 1)] upcomingGauge).2.1 (by decide)
      [] [(IndexKey.ActiveGauges 500, 1)] (by decide) (by decide)⟩

/-- The lock keeper of `cacheScenarioKeeper` and the gauges of one second and of one hour
satisfy the hypotheses of C21: the cached `token` locks are fetched once for one
millisecond, and each gauge is served the locks of its own duration. -/
theorem Distribute_cache_faithful_witness :
    (∀ denom d, cacheScenarioKeeper.GetLocksLongerThanDurationDenom denom d
        = (cacheScenarioLocks denom).filter (fun l => decide (d ≤ l.Duration)))
    ∧ (∀ g ∈ [tenEpochGauge, hourGauge], g.DistributeTo.LockQueryType = ByDuration
        ∧ Millisecond ≤ g.DistributeTo.Duration)
    ∧ (distributeGaugesLoopTraced cacheScenarioKeeper [tenEpochGauge, hourGauge] []
          newDistributionInfo []).2
        = [(tenEpochGauge, [{ exampleLock 1 "osmo1a" 1 with Duration := 1000000000 },
              exampleLock 2 "osmo1b" 1]),
            (hourGauge, [exampleLock 2 "osmo1b" 1])]
    ∧ ∀ p ∈ (distributeGaugesLoopTraced cacheScenarioKeeper [tenEpochGauge, hourGauge] []
          newDistributionInfo []).2,
        p.2 = cacheScenarioKeeper.GetLocksLongerThanDurationDenom p.1.DistributeTo.Denom
          p.1.DistributeTo.Duration :=
  ⟨fun _ _ => rfl, by decide, by decide,
    (Distribute_cache_faithful cacheScenarioKeeper cacheScenarioLocks (fun _ _ => rfl)
      [tenEpochGauge, hourGauge] (by decide)).2.2.2.1⟩

/-- C22 fails as stated: on a string with `superunbonding` before `superbonding` one
application of `NativeDenom` leaves the `superunbonding` marker, and a second application
gives another string. -/
theorem NativeDenom_twice_counterexample :
    NativeDenom "asuperunbondingbsuperbondingc" = "asuperunbondingb"
    ∧ stringsContains (NativeDenom "asuperunbondingbsuperbondingc").data
        "superunbonding".data = true
    ∧ NativeDenom (NativeDenom "asuperunbondingbsuperbondingc") = "a"
    ∧ NativeDenom (NativeDenom "asuperunbondingbsuperbondingc")
        ≠ NativeDenom "asuperunbondingbsuperbondingc" := by
  decide

/-- A synthetic denom without `superbonding` satisfies the hypothesis of C22 (amended): one
application leaves the native denom, on which `NativeDenom` changes nothing. -/
theorem NativeDenom_twice_witness :
    stringsContains "gamm/pool/1superunbondingvaloper".data "superbonding".data = false
    ∧ NativeDenom "gamm/pool/1superunbondingvaloper" = "gamm/pool/1"
    ∧ stringsContains (NativeDenom "gamm/pool/1superunbondingvaloper").data
        "superunbonding".data = false
    ∧ NativeDenom (NativeDenom "gamm/pool/1superunbondingvaloper")
        = NativeDenom "gamm/pool/1superunbondingvaloper" :=
  ⟨by decide, by decide,
    (NativeDenom_twice "gamm/pool/1superunbondingvaloper").2.2.1 (by decide)⟩

end Osmosis
